import Mathlib

/-!
I²C bus simulator: the bus synchronisation kernel and its participants.

A shallow embedding of `line.cpp`, `bus.cpp`, the facade of `node.cpp`, the
controller of `controllerbase.cpp` and the octet and address arithmetic of
`targetbase.cpp` and `target.cpp`.

* Participant handles (`const Node *`, `const void *`) are natural numbers.
* `std::set<const void *>` is a `Finset Nat`.
* `std::map<const Node *, ClientState>` is an association list; the only
  iteration over it (`all_clients_synchronized`) is order independent.
* `uint64_t sequence` is a `Nat`: the counter only ever grows by one per
  barrier pass, so the wrap at `2 ^ 64` is out of reach of any run.
* Every member function of `Bus::Impl` runs with `sync_mutex_` held and gives
  it up only inside a condition wait.  A section of code between two such
  points is therefore atomic and is embedded as one function on the kernel
  state; the interleaving of the threads is a list of `Action`s.
-/

namespace I2c

/-! ## line.hpp / line.cpp -/

/-- The enum `Line::Level`. -/
inductive Level where
  | Low
  | High
deriving DecidableEq, Repr

/-- The class `Line::Impl`: the set `low_` of connections that drive the line low. -/
structure Line where
  low_ : Finset Nat
deriving DecidableEq

namespace Line

/-- The constructor `Line::Impl::Impl`: `low_{}`. -/
def init : Line := ⟨∅⟩

/-- The method `Line::Impl::get`: `!low_.empty() ? Low : High`. -/
def get (l : Line) : Level :=
  if l.low_ ≠ ∅ then Level.Low else Level.High

/-- The method `Line::Impl::set`: insert the connection on `Low`, erase it on `High`. -/
def set (l : Line) (connection : Nat) (level : Level) : Line :=
  match level with
  | Level.Low => ⟨insert connection l.low_⟩
  | Level.High => ⟨l.low_.erase connection⟩

/-- A finite sequence of `Line::set(driver, level)` calls, applied in order. -/
def setAll (l : Line) (calls : List (Nat × Level)) : Line :=
  calls.foldl (fun acc c => acc.set c.1 c.2) l

end Line

/-- The level of the most recent call of driver `d` in a sequence of calls, if `d` called at all. -/
def lastLevel (calls : List (Nat × Level)) (d : Nat) : Option Level :=
  ((calls.filter (fun c => c.1 = d)).getLast?).map Prod.snd

/-! ## bus.hpp / bus.cpp: data -/

/-- The enum `Bus::Event`. -/
inductive Event where
  | DataLow
  | DataHigh
  | ClockLow
  | ClockHigh
  | Delay
deriving DecidableEq, Repr

/-- The struct `Bus::Impl::ClientState`; `{}` value-initialises it to `{0, false}`. -/
structure ClientState where
  sequence : Nat
  pending : Bool
deriving DecidableEq, Repr

instance : Inhabited ClientState := ⟨⟨0, false⟩⟩

/-- The struct `Bus::Impl::Transaction`. -/
structure Transaction where
  node : Nat
  event : Event
deriving DecidableEq, Repr

/-! ### `std::map<const Node *, ClientState>` -/

namespace Clients

/-- The lookup `clients_.find(k)`, without inserting. -/
def find : List (Nat × ClientState) → Nat → Option ClientState
  | [], _ => none
  | (k', v) :: rest, k => if k' = k then some v else find rest k

/-- The value that `clients_[k]` refers to: the stored one, or a value-initialised one. -/
def at_ (m : List (Nat × ClientState)) (k : Nat) : ClientState :=
  (find m k).getD default

/-- The assignment `clients_[k] = f(clients_[k])`: `operator[]` inserts a value-initialised
entry when `k` is absent, and the entry is then overwritten. -/
def upsert : List (Nat × ClientState) → Nat → (ClientState → ClientState) →
    List (Nat × ClientState)
  | [], k, f => [(k, f default)]
  | (k', v) :: rest, k, f =>
    if k' = k then (k', f v) :: rest else (k', v) :: upsert rest k f

/-- A bare `clients_[k]` whose value is only read: inserts the entry when absent. -/
def touch (m : List (Nat × ClientState)) (k : Nat) : List (Nat × ClientState) :=
  upsert m k id

/-- The call `clients_.erase(k)`. -/
def erase (m : List (Nat × ClientState)) (k : Nat) : List (Nat × ClientState) :=
  m.filter (fun e => e.1 ≠ k)

end Clients

/-- The participant `q` has an entry whose pending flag is clear. -/
def Clients.Cleared (m : List (Nat × ClientState)) (q : Nat) : Prop :=
  ∃ c, Clients.find m q = some c ∧ c.pending = false

/-- The participant `q` has an entry whose pending flag is set. -/
def Clients.Pending (m : List (Nat × ClientState)) (q : Nat) : Prop :=
  ∃ c, Clients.find m q = some c ∧ c.pending = true

/-- The participant `q` has an entry in the progress table: it is attached. -/
def Clients.Has (m : List (Nat × ClientState)) (q : Nat) : Prop :=
  (Clients.find m q).isSome = true

/-- The data members of `Bus::Impl` that `sync_mutex_` protects, and the two lines. -/
structure Bus where
  sda_ : Line
  scl_ : Line
  sequence_ : Nat
  clients_ : List (Nat × ClientState)
  publisher_ : Option Nat
  queue_ : List Transaction
deriving DecidableEq

namespace Bus

/-- The constructor `Bus::Impl::Impl`: every member value-initialised. -/
def init : Bus := ⟨Line.init, Line.init, 0, [], none, []⟩

/-- The method `Bus::Impl::process`. -/
def process (b : Bus) (transaction : Transaction) : Bus :=
  match transaction.event with
  | Event.DataLow => { b with sda_ := b.sda_.set transaction.node Level.Low }
  | Event.DataHigh => { b with sda_ := b.sda_.set transaction.node Level.High }
  | Event.ClockLow => { b with scl_ := b.scl_.set transaction.node Level.Low }
  | Event.ClockHigh => { b with scl_ := b.scl_.set transaction.node Level.High }
  | Event.Delay => b

/-- The method `Bus::Impl::locked_sync`.  The test `clients_[node].sequence < sequence_`
goes through `operator[]`, so the entry exists afterwards in either branch. -/
def locked_sync (b : Bus) (node : Nat) : Bus :=
  if (Clients.at_ b.clients_ node).sequence < b.sequence_ then
    { b with clients_ :=
        (Clients.upsert b.clients_ node (fun c => { c with sequence := c.sequence + 1 })) }
  else
    { b with clients_ := Clients.touch b.clients_ node }

/-- The method `Bus::Impl::sync`, which is all of `Bus::Impl::get` after the yield:
the new kernel state and the tuple `{sda_.get(), scl_.get()}`. -/
def sync (b : Bus) (node : Nat) : Bus × (Level × Level) :=
  let b1 := b.locked_sync node
  (b1, (b1.sda_.get, b1.scl_.get))

/-- The method `Bus::Impl::all_clients_synchronized`. -/
def all_clients_synchronized (b : Bus) : Bool :=
  b.clients_.all (fun client => client.2.sequence = b.sequence_)

/-- No client is ahead of the kernel sequence. -/
def Bounded (b : Bus) : Prop :=
  ∀ c ∈ b.clients_, c.2.sequence ≤ b.sequence_

/-- Every client is at the kernel sequence or one behind it. -/
def Gap (b : Bus) : Prop :=
  ∀ c ∈ b.clients_, c.2.sequence ≤ b.sequence_ ∧ b.sequence_ ≤ c.2.sequence + 1

/-- Every client is at the kernel sequence. -/
def Sync (b : Bus) : Prop :=
  ∀ c ∈ b.clients_, c.2.sequence = b.sequence_

/-- The method `Bus::Impl::attach`: `clients_[node] = {}`. -/
def attach (b : Bus) (node : Nat) : Bus :=
  { b with clients_ := Clients.upsert b.clients_ node (fun _ => default) }

/-- The method `Bus::Impl::detach`: `clients_.erase(node)`. -/
def detach (b : Bus) (node : Nat) : Bus :=
  { b with clients_ := Clients.erase b.clients_ node }

end Bus

/-! ## bus.cpp: `publish`, cut at its condition waits -/

/-- Where the thread of a participant stands with respect to the kernel: outside any
kernel call, blocked in `pending_condition_.wait` (line 134), or blocked in
`sync_condition_.wait` (line 186) in iteration `i` of the barrier loop. -/
inductive PC where
  | idle
  | pendingWait
  | barrierWait (i : Nat)
deriving DecidableEq, Repr

namespace Bus

/-- One iteration of the drain loop, lines 163-169 of `publish`: `process` the transaction
and clear `clients_[transaction.node].pending`. -/
def drainStep (acc : Bus) (transaction : Transaction) : Bus :=
  let acc1 := acc.process transaction
  { acc1 with clients_ :=
      (Clients.upsert acc1.clients_ transaction.node (fun c => { c with pending := false })) }

/-- Lines 162-169 of `publish`: move the queue into a snapshot and run the drain loop over
it in order. -/
def drain (b : Bus) : Bus :=
  b.queue_.foldl drainStep { b with queue_ := [] }

/-- Lines 177-180 of `publish`: `sequence_++; clients_[node].sequence = sequence_;`. -/
def advance (b : Bus) (node : Nat) : Bus :=
  { b with
    sequence_ := b.sequence_ + 1
    clients_ := Clients.upsert b.clients_ node (fun c => { c with sequence := b.sequence_ + 1 }) }

/-- Lines 175-196 of `publish` with `r` iterations of the barrier loop still to run, so
from the top of iteration `i = 3 - r`.  The wait of line 186 tests its predicate before it
blocks: when the predicate holds the thread keeps the lock and goes on, otherwise it
blocks in iteration `i`.  With no iteration left it resets `publisher_` and returns. -/
def barrier_loop (node : Nat) : Nat → Bus → Bus × PC
  | 0, b => ({ b with publisher_ := none }, PC.idle)
  | r + 1, b =>
    let b1 := b.advance node
    if b1.all_clients_synchronized then barrier_loop node r b1
    else (b1, PC.barrierWait (2 - r))

/-- A thread blocked in the wait of line 186 in iteration `i` gets the lock back (notified
or spuriously) and tests the predicate again. -/
def barrier_wake (b : Bus) (node : Nat) (i : Nat) : Bus × PC :=
  if b.all_clients_synchronized then barrier_loop node (2 - i) b
  else (b, PC.barrierWait i)

/-- Lines 159-197 of `publish`: claim the publisher role, drain the queue, run the barrier. -/
def transaction (b : Bus) (node : Nat) : Bus × PC :=
  barrier_loop node 2 (drain { b with publisher_ := some node })

/-- The predicate of the wait of line 134, with its side effects: the new kernel state and
the value returned. -/
def pending_pred (b : Bus) (node : Nat) : Bus × Bool :=
  if !(Clients.at_ b.clients_ node).pending then
    ({ b with clients_ := Clients.touch b.clients_ node }, true)
  else
    let b1 := { b with clients_ := Clients.touch b.clients_ node }
    let b2 := b1.locked_sync node
    (b2, !b2.publisher_.isSome)

/-- Lines 133-157 of `publish` from a test of the wait predicate of line 134 on: used both
when the wait is entered and when the blocked thread gets the lock back.  When the
predicate fails the thread blocks.  Otherwise line 147 returns if the participant is no
longer pending; else the loop test of line 133 is made (it fails, as the predicate has just
seen `publisher_` empty under the same lock), line 153 returns on an empty queue, and the
thread goes on to the transaction. -/
def pending_wake (b : Bus) (node : Nat) : Bus × PC :=
  let r := b.pending_pred node
  if !r.2 then (r.1, PC.pendingWait)
  else if !(Clients.at_ r.1.clients_ node).pending then (r.1, PC.idle)
  else if r.1.publisher_.isSome then (r.1, PC.pendingWait)
  else if r.1.queue_.isEmpty then (r.1, PC.idle)
  else r.1.transaction node

/-- The method `Bus::Impl::publish` (which is `Bus::Impl::set`) from its entry to its first
condition wait or its return. -/
def publish (b : Bus) (node : Nat) (event : Event) : Bus × PC :=
  let b1 := { b with queue_ := b.queue_ ++ [Transaction.mk node event] }
  if b1.publisher_.isSome then
    let b2 := { b1 with clients_ :=
      (Clients.upsert b1.clients_ node (fun c => { c with pending := true })) }
    b2.pending_wake node
  else
    b1.transaction node

end Bus

/-! ## The threads

One thread per participant.  A step of the system is one atomic section of one kernel
call; a condition wait may end at any time (a notification or a spurious wake-up), which
over-approximates the scheduling the C++ runtime allows. -/

/-- The kernel together with the position of every participant's thread. -/
structure Sys where
  bus : Bus
  pc : Nat → PC

/-- An atomic section: a whole `attach`, `detach` or `get`, the entry of `set` up to its
first wait or return, or the continuation of a blocked `set` after a wake-up. -/
inductive Action where
  | attach (p : Nat)
  | detach (p : Nat)
  | get (p : Nat)
  | set (p : Nat) (e : Event)
  | wake (p : Nat)
deriving DecidableEq, Repr

namespace Sys

/-- A freshly constructed bus; no thread is inside a kernel call. -/
def init : Sys := ⟨Bus.init, fun _ => PC.idle⟩

/-- The thread of `p` moves to `c`. -/
def goto (pc : Nat → PC) (p : Nat) (c : PC) : Nat → PC :=
  fun q => if q = p then c else pc q

/-- One step.  `get` and `set` need the participant's thread to be outside the kernel and
`wake` needs it to be blocked; an action that is not enabled leaves the state as it is. -/
def step (s : Sys) : Action → Sys
  | Action.attach p => { s with bus := s.bus.attach p }
  | Action.detach p => { s with bus := s.bus.detach p }
  | Action.get p =>
    match s.pc p with
    | PC.idle => { s with bus := (s.bus.sync p).1 }
    | _ => s
  | Action.set p e =>
    match s.pc p with
    | PC.idle => let r := s.bus.publish p e; ⟨r.1, goto s.pc p r.2⟩
    | _ => s
  | Action.wake p =>
    match s.pc p with
    | PC.idle => s
    | PC.pendingWait => let r := s.bus.pending_wake p; ⟨r.1, goto s.pc p r.2⟩
    | PC.barrierWait i => let r := s.bus.barrier_wake p i; ⟨r.1, goto s.pc p r.2⟩

/-- The state after a sequence of steps. -/
def runs (s : Sys) (acts : List Action) : Sys :=
  acts.foldl step s

/-- The states a freshly constructed bus can get into. -/
def Reachable (s : Sys) : Prop :=
  ∃ acts, s = init.runs acts

/-- Participant `p` is inside a kernel call (blocked) before each of the steps `acts`
taken from `s`: a run during which the `set` call of `p` has not returned, except possibly
in its last state. -/
def blockedDuring (p : Nat) : Sys → List Action → Bool
  | _, [] => true
  | s, a :: acts => s.pc p != PC.idle && blockedDuring p (s.step a) acts

/-- In the step `a` taken from `s` the thread of `p` itself claims the publisher role:
either it enters `set` while no publisher is active, or it leaves the pending wait still
pending, with no publisher active and a non-empty queue. -/
def Claims (s : Sys) (p : Nat) (a : Action) : Prop :=
  s.bus.publisher_ = none ∧
  ((∃ e, a = Action.set p e ∧ s.pc p = PC.idle) ∨
   (a = Action.wake p ∧ s.pc p = PC.pendingWait ∧
     (Clients.at_ s.bus.clients_ p).pending = true ∧ s.bus.queue_ ≠ []))

/-- The transactions that a claiming step drains: the queue, with the caller's own
transaction appended last when the step is the entry of `set`. -/
def claimed (s : Sys) : Action → List Transaction
  | Action.set p e => s.bus.queue_ ++ [Transaction.mk p e]
  | _ => s.bus.queue_

/-- The step `a` taken from `s` resets the publisher slot: the slot is occupied before and
empty after, or a thread claims the role and returns from `publish` within the step. -/
def Releases (s : Sys) (a : Action) : Prop :=
  (s.bus.publisher_ ≠ none ∧ (s.step a).bus.publisher_ = none) ∨
  ∃ p, s.Claims p a ∧ (s.step a).pc p = PC.idle

/-- The discipline the test harness follows: participants are attached while the kernel
sequence is still 0, `get` and `set` are called for attached participants only, and a
participant is not detached while one of its `set` calls is in progress. -/
def wellBehaved (s : Sys) : Action → Bool
  | Action.attach _ => s.bus.sequence_ = 0
  | Action.detach p => s.pc p = PC.idle
  | Action.get p => (Clients.find s.bus.clients_ p).isSome
  | Action.set p _ => (Clients.find s.bus.clients_ p).isSome
  | Action.wake _ => true

/-- Every step of the run `acts` from `s` follows the discipline `wellBehaved`. -/
def disciplined : Sys → List Action → Bool
  | _, [] => true
  | s, a :: acts => s.wellBehaved a && disciplined (s.step a) acts

/-- Every participant blocked in the barrier wait holds the publisher slot. -/
def BarrierOwned (s : Sys) : Prop :=
  ∀ q i, s.pc q = PC.barrierWait i → s.bus.publisher_ = some q

/-- The invariant of the kernel on disciplined runs: every client is at most one epoch
behind; between transactions every client is synchronised; a queued transaction belongs to
a participant that is blocked in the pending wait with its pending flag set; a participant
inside `set` is attached; a blocked publisher holds the slot; and before the first
transaction the queue and the slot are empty. -/
structure Coherent (s : Sys) : Prop where
  gap : s.bus.Gap
  rest : s.bus.publisher_ = none → s.bus.Sync
  queued : ∀ t ∈ s.bus.queue_,
    s.pc t.node = PC.pendingWait ∧ Clients.Pending s.bus.clients_ t.node
  inside : ∀ p, s.pc p ≠ PC.idle → Clients.Has s.bus.clients_ p
  owned : s.BarrierOwned
  fresh : s.bus.sequence_ = 0 → s.bus.queue_ = [] ∧ s.bus.publisher_ = none

/-- The publisher `p` is blocked in the barrier of a transaction that started at kernel
sequence `n` and left the lines as `sda`, `scl`. -/
def InBarrier (p n : Nat) (sda scl : Line) (s : Sys) : Prop :=
  ∃ i, (i = 1 ∨ i = 2) ∧ s.pc p = PC.barrierWait i ∧ s.bus.sequence_ = n + i ∧
    s.bus.publisher_ = some p ∧ s.bus.sda_ = sda ∧ s.bus.scl_ = scl

/-- The publisher `p` has returned from a transaction that started at kernel sequence `n`
and left the lines as `sda`, `scl`. -/
def Returned (p n : Nat) (sda scl : Line) (s : Sys) : Prop :=
  s.pc p = PC.idle ∧ s.bus.sequence_ = n + 2 ∧ s.bus.publisher_ = none ∧
  s.bus.all_clients_synchronized = true ∧ s.bus.sda_ = sda ∧ s.bus.scl_ = scl

end Sys

/-! ## node.cpp: the participant facade -/

/-- The class `Node::Impl`: the handle `parent_` under which the node talks to the bus (the
name and the bus pointer play no part in what follows). -/
structure Node where
  parent_ : Nat
deriving DecidableEq, Repr

namespace Node

/-- The method `Node::Impl::sda()`: `auto [sda, _] = bus_->get(parent_); return sda;`,
with the kernel state after the call. -/
def sda (n : Node) (b : Bus) : Bus × Level :=
  let r := b.sync n.parent_
  (r.1, r.2.1)

/-- The method `Node::Impl::scl()`: `auto [_, scl] = bus_->get(parent_); return scl;`,
with the kernel state after the call. -/
def scl (n : Node) (b : Bus) : Bus × Level :=
  let r := b.sync n.parent_
  (r.1, r.2.2)

/-- The event that `Node::Impl::sda(Line::Level level)` passes to `bus_->set`. -/
def sdaEvent (level : Level) : Event :=
  match level with
  | Level.Low => Event.DataLow
  | Level.High => Event.DataHigh

/-- The event that `Node::Impl::scl(Line::Level level)` passes to `bus_->set`. -/
def sclEvent (level : Level) : Event :=
  match level with
  | Level.Low => Event.ClockLow
  | Level.High => Event.ClockHigh

/-- The method `Node::Impl::sda(Line::Level level)`: the step its thread takes. -/
def sdaDrive (n : Node) (level : Level) : Action :=
  match level with
  | Level.Low => Action.set n.parent_ Event.DataLow
  | Level.High => Action.set n.parent_ Event.DataHigh

/-- The method `Node::Impl::scl(Line::Level level)`: the step its thread takes. -/
def sclDrive (n : Node) (level : Level) : Action :=
  match level with
  | Level.Low => Action.set n.parent_ Event.ClockLow
  | Level.High => Action.set n.parent_ Event.ClockHigh

/-- The method `Node::Impl::delay`: `bus_->set(parent_, Bus::Event::Delay)`. -/
def delay (n : Node) : Action :=
  Action.set n.parent_ Event.Delay

end Node

/-! ## controllerbase.cpp

The controller runs on its own thread and meets the rest of the system only through its
facade.  A run of it is embedded against what the facade hands back: `Samples` gives the
level that its `k`-th sample of each line returns.  The state `Ctl` carries `started_`, the
number of samples taken so far and the events set so far, oldest first.  The loop of
`clock_stretching` has no bound in the source, so every function takes the number `fuel`
of SCL samples one `clock_stretching` call may take, and yields `none` when that runs out.
Octets are `uint8_t`: a left shift is taken modulo 256. -/

/-- What the facade returns to one participant: the level of its `k`-th `sda()` call and
of its `k`-th `scl()` call. -/
structure Samples where
  sda : Nat → Level
  scl : Nat → Level

/-- The state of a controller run. -/
structure Ctl where
  started_ : Bool
  sdaReads : Nat
  sclReads : Nat
  emitted : List Event

namespace Ctl

/-- A call of `sda(level)`, `scl(level)` or `delay()`: one more event set. -/
def emit (c : Ctl) (e : Event) : Ctl :=
  { c with emitted := c.emitted ++ [e] }

end Ctl

namespace ControllerBase

/-- The enumerators `ReadFlag::NACK` and `WriteFlag::START`: `1 << 0`. -/
def flagBit0 : Nat := 1

/-- The enumerators `ReadFlag::STOP` and `WriteFlag::STOP`: `1 << 1`. -/
def flagBit1 : Nat := 2

/-- The method `ControllerBase::Impl::clock_stretching`: sample SCL until it is not `Low`. -/
def clock_stretching (env : Samples) : Nat → Ctl → Option Ctl
  | 0, _ => none
  | fuel + 1, c =>
    if env.scl c.sclReads = Level.Low then
      clock_stretching env fuel { c with sclReads := c.sclReads + 1 }
    else
      some { c with sclReads := c.sclReads + 1 }

/-- The method `ControllerBase::Impl::write_start_condition`. -/
def write_start_condition (env : Samples) (fuel : Nat) (c : Ctl) : Option Ctl :=
  (if c.started_ then
    (clock_stretching env fuel
      (((c.emit (Node.sdaEvent Level.High)).emit Event.Delay).emit
        (Node.sclEvent Level.High))).map (fun c1 => c1.emit Event.Delay)
   else some c).map
    (fun c2 =>
      { ((c2.emit (Node.sdaEvent Level.Low)).emit Event.Delay).emit (Node.sclEvent Level.Low)
        with started_ := true })

/-- The method `ControllerBase::Impl::write_stop_condition`. -/
def write_stop_condition (env : Samples) (fuel : Nat) (c : Ctl) : Option Ctl :=
  (clock_stretching env fuel
    (((c.emit (Node.sdaEvent Level.Low)).emit Event.Delay).emit
      (Node.sclEvent Level.High))).map
    (fun c1 =>
      { ((c1.emit Event.Delay).emit (Node.sdaEvent Level.High)).emit Event.Delay
        with started_ := false })

/-- The method `ControllerBase::Impl::write_bit`. -/
def write_bit (env : Samples) (fuel : Nat) (bit : Level) (c : Ctl) : Option Ctl :=
  (clock_stretching env fuel
    ((((c.emit (Node.sdaEvent bit)).emit Event.Delay).emit (Node.sclEvent Level.High)).emit
      Event.Delay)).map
    (fun c1 => c1.emit (Node.sclEvent Level.Low))

/-- The method `ControllerBase::Impl::read_bit`: the level sampled and the state after. -/
def read_bit (env : Samples) (fuel : Nat) (c : Ctl) : Option (Level × Ctl) :=
  (clock_stretching env fuel
    (((c.emit (Node.sdaEvent Level.High)).emit Event.Delay).emit
      (Node.sclEvent Level.High))).map
    (fun c1 =>
      let c2 := c1.emit Event.Delay
      (env.sda c2.sdaReads,
        ({ c2 with sdaReads := c2.sdaReads + 1 } : Ctl).emit (Node.sclEvent Level.Low)))

/-- The loop of lines 106-111 of `read` with `n` iterations left and `octet` so far. -/
def read_bits (env : Samples) (fuel : Nat) : Nat → Nat → Ctl → Option (Nat × Ctl)
  | 0, octet, c => some (octet, c)
  | n + 1, octet, c =>
    (read_bit env fuel c).bind
      (fun r =>
        let shifted := (octet <<< 1) % 256
        read_bits env fuel n (if r.1 = Level.High then shifted ||| 1 else shifted) r.2)

/-- The method `ControllerBase::Impl::read`. -/
def read (env : Samples) (fuel : Nat) (flags : Nat) (c : Ctl) : Option (Nat × Ctl) :=
  (read_bits env fuel 8 0 c).bind
    (fun r =>
      let nack := if flags &&& flagBit0 ≠ 0 then Level.High else Level.Low
      (write_bit env fuel nack r.2).bind
        (fun c1 =>
          (if flags &&& flagBit1 ≠ 0 then write_stop_condition env fuel c1 else some c1).map
            (fun c2 => (r.1, c2))))

/-- The level that line 140 of `write` derives from the top bit of `octet`. -/
def topBit (octet : Nat) : Level :=
  if octet &&& 0x80 ≠ 0 then Level.High else Level.Low

/-- The loop of lines 139-143 of `write` with `n` iterations left. -/
def write_bits (env : Samples) (fuel : Nat) : Nat → Nat → Ctl → Option Ctl
  | 0, _, c => some c
  | n + 1, octet, c =>
    (write_bit env fuel (topBit octet) c).bind
      (fun c1 => write_bits env fuel n ((octet <<< 1) % 256) c1)

/-- The method `ControllerBase::Impl::write`: true when the octet was not acknowledged. -/
def write (env : Samples) (fuel : Nat) (octet : Nat) (flags : Nat) (c : Ctl) :
    Option (Bool × Ctl) :=
  (if flags &&& flagBit0 ≠ 0 then write_start_condition env fuel c else some c).bind
    (fun c1 =>
      (write_bits env fuel 8 octet c1).bind
        (fun c2 =>
          (read_bit env fuel c2).bind
            (fun r =>
              (if flags &&& flagBit1 ≠ 0 then write_stop_condition env fuel r.2
               else some r.2).map
                (fun c3 => (decide (r.1 = Level.High), c3)))))

/-- The SDA levels that `write` drives for `octet` in its eight `write_bit` calls, first
to last: the loop of lines 139-143 without the bus. -/
def write_levels : Nat → Nat → List Level
  | 0, _ => []
  | n + 1, octet => topBit octet :: write_levels n ((octet <<< 1) % 256)

end ControllerBase

/-- The SDA levels among the events a participant has set, oldest first. -/
def sdaLevels : List Event → List Level
  | [] => []
  | Event.DataLow :: rest => Level.Low :: sdaLevels rest
  | Event.DataHigh :: rest => Level.High :: sdaLevels rest
  | _ :: rest => sdaLevels rest

/-- SCL is released within `fuel` samples of any sample: no `clock_stretching` call of
the run gives up. -/
def Samples.Released (env : Samples) (fuel : Nat) : Prop :=
  ∀ k, ∃ j, j < fuel ∧ env.scl (k + j) = Level.High

/-! ## targetbase.cpp and target.cpp -/

namespace TargetBase

/-- The method `TargetBase::Impl::address_match` of a target whose `address_` is `address`. -/
def address_match (address : Nat) (octet : Nat) : Bool :=
  let address_bits := octet >>> 1
  address_bits = address

/-- The method `TargetBase::read_operation`. -/
def read_operation (octet : Nat) : Bool :=
  (octet &&& 0x01) ≠ 0

/-- The SDA levels that `TargetBase::Impl::write` drives for `octet` in the loop of lines
79-85, first to last, with `n` iterations left. -/
def write_levels : Nat → Nat → List Level
  | 0, _ => []
  | n + 1, octet =>
    (if octet &&& 0x80 ≠ 0 then Level.High else Level.Low) ::
      write_levels n ((octet <<< 1) % 256)

/-- The octet that `TargetBase::Impl::read` builds from the levels it samples at the
rising clocks (lines 32 and 41-44), first sample first. -/
def accumulate (levels : List Level) : Nat :=
  levels.foldl
    (fun octet level =>
      let shifted := (octet <<< 1) % 256
      if level = Level.High then shifted ||| 1 else shifted)
    0

end TargetBase

namespace Target

/-- The loop variable `data` of `Target::Impl::handle_controller_read` in its `n`-th
iteration, which is the `n`-th octet the target writes: it starts as
`static_cast<uint8_t>(address() << 4)` and `data++` steps it. -/
def tx_data (address : Nat) : Nat → Nat
  | 0 => (address <<< 4) % 256
  | n + 1 => (tx_data address n + 1) % 256

end Target

/-! ## Catching up with the publisher -/

/-- The handles that have an entry in the progress table, in table order. -/
def Clients.keys (m : List (Nat × ClientState)) : List Nat :=
  m.map Prod.fst

/-- No handle has two entries in the progress table (it is a `std::map`). -/
def Clients.Distinct (m : List (Nat × ClientState)) : Prop :=
  (Clients.keys m).Nodup

namespace Sys

/-- The steps by which participant `q` registers the current epoch on its own: a `get`
when its thread is outside the kernel; the wake-up of its pending wait, whose predicate
runs `locked_sync`, when it is still pending; and when its pending flag has been cleared,
that wake-up, which returns from `set` without `locked_sync`, followed by a `get`. -/
def catchUp (s : Sys) (q : Nat) : List Action :=
  match s.pc q with
  | PC.idle => [Action.get q]
  | PC.pendingWait =>
    if (Clients.at_ s.bus.clients_ q).pending then [Action.wake q]
    else [Action.wake q, Action.get q]
  | PC.barrierWait _ => []

/-- The participants `qs` catch up one after the other. -/
def catchUpAll : Sys → List Nat → Sys
  | s, [] => s
  | s, q :: qs => catchUpAll (s.runs (s.catchUp q)) qs

/-- The entry of a participant blocked in the barrier is at the kernel sequence. -/
def Current (s : Sys) : Prop :=
  ∀ p i, s.pc p = PC.barrierWait i →
    (Clients.at_ s.bus.clients_ p).sequence = s.bus.sequence_

end Sys

/-- From `s` to `s1` nothing has changed but the entry and the thread position of `q`, and
`q` is now at the kernel sequence. -/
def Sys.CaughtUp (q : Nat) (s s1 : Sys) : Prop :=
  s1.bus.sequence_ = s.bus.sequence_ ∧ s1.bus.publisher_ = s.bus.publisher_ ∧
  s1.bus.sda_ = s.bus.sda_ ∧ s1.bus.scl_ = s.bus.scl_ ∧ s1.bus.queue_ = s.bus.queue_ ∧
  (∀ r, r ≠ q → s1.pc r = s.pc r) ∧
  (∀ r, r ≠ q → Clients.find s1.bus.clients_ r = Clients.find s.bus.clients_ r) ∧
  Clients.keys s1.bus.clients_ = Clients.keys s.bus.clients_ ∧
  (Clients.at_ s1.bus.clients_ q).sequence = s.bus.sequence_

/-! ## controllerbase.cpp: bus recovery -/

namespace ControllerBase

/-- The loop of lines 164-180 of `recover` with `rounds` iterations allowed and the value
of `counter` so far; `none` when the allowance or a `clock_stretching` call gives out. -/
def recover_loop (env : Samples) (fuel : Nat) : Nat → Nat → Ctl → Option Ctl
  | 0, _, _ => none
  | rounds + 1, counter, c =>
    (read_bit env fuel c).bind
      (fun r =>
        if r.1 = Level.High then
          if counter + 1 = 9 then write_stop_condition env fuel r.2
          else recover_loop env fuel rounds (counter + 1) r.2
        else recover_loop env fuel rounds 0 r.2)

/-- The method `ControllerBase::Impl::recover`: the value returned and the state after. -/
def recover (env : Samples) (fuel rounds : Nat) (c : Ctl) : Option (Int × Ctl) :=
  (recover_loop env fuel rounds 0
    ((c.emit (Node.sclEvent Level.Low)).emit Event.Delay)).map (fun c1 => (0, c1))

/-- The events one call of `read_bit` sets, in order. -/
def read_bit_events : List Event :=
  [Event.DataHigh, Event.Delay, Event.ClockHigh, Event.Delay, Event.ClockLow]

/-- The events one call of `write_stop_condition` sets, in order. -/
def stop_events : List Event :=
  [Event.DataLow, Event.Delay, Event.ClockHigh, Event.Delay, Event.DataHigh, Event.Delay]

end ControllerBase

/-- The SCL levels among the events a participant has set, oldest first. -/
def sclLevels : List Event → List Level
  | [] => []
  | Event.ClockLow :: rest => Level.Low :: sclLevels rest
  | Event.ClockHigh :: rest => Level.High :: sclLevels rest
  | _ :: rest => sclLevels rest

/-- The events of participant `node` among the transactions `ts`, oldest first. -/
def ownEvents (node : Nat) (ts : List Transaction) : List Event :=
  (ts.filter (fun t => t.node = node)).map (fun t => t.event)

namespace Sys

/-- The proviso under which the queue and the pending flags agree: a participant is
attached or detached only while none of its `set` calls is in progress. -/
def settled (s : Sys) : Action → Bool
  | Action.attach p => s.pc p = PC.idle
  | Action.detach p => s.pc p = PC.idle
  | _ => true

/-- Every step of the run `acts` from `s` meets the proviso `settled`. -/
def orderly : Sys → List Action → Bool
  | _, [] => true
  | s, a :: acts => s.settled a && orderly (s.step a) acts

/-- The queue and the pending flags agree: a queued transaction belongs to a participant
blocked in the pending wait with its pending flag set, a set pending flag belongs to a
participant with a queued transaction, no participant has two queued transactions, and a
participant inside `set` has an entry in the progress table. -/
structure Tidy (s : Sys) : Prop where
  queued : ∀ t ∈ s.bus.queue_,
    s.pc t.node = PC.pendingWait ∧ Clients.Pending s.bus.clients_ t.node
  flagged : ∀ q, Clients.Pending s.bus.clients_ q → ∃ t ∈ s.bus.queue_, t.node = q
  single : (s.bus.queue_.map (fun t => t.node)).Nodup
  inside : ∀ p, s.pc p ≠ PC.idle → Clients.Has s.bus.clients_ p

end Sys

/-! ## targetbase.cpp and target.cpp: a target against its samples

A target is run against the same kind of samples as the controller.  Its loops wait for
the bus, so every loop is given an allowance of `fuel` iterations; a run that uses one up
is reported as still spinning, in the state it had reached, so that what the target has
set until then is not lost. -/

/-- The state of a target run: the `sda()` and `scl()` samples taken and the events set. -/
structure Tgt where
  sdaReads : Nat
  sclReads : Nat
  emitted : List Event

/-- How far a piece of target code got: it returned `value` in `state`, or it was still
inside one of its loops in `state` when the allowance ran out. -/
inductive Ran (α : Type) where
  | done (value : α) (state : Tgt)
  | spinning (state : Tgt)

namespace Ran

/-- The state in which the run returned or was left spinning. -/
def state {α : Type} : Ran α → Tgt
  | done _ t => t
  | spinning t => t

/-- Sequencing: what follows runs only when the first part has returned. -/
def bind {α β : Type} (r : Ran α) (f : α → Tgt → Ran β) : Ran β :=
  match r with
  | done a t => f a t
  | spinning t => spinning t

end Ran

namespace Tgt

/-- A call of `sda(level)` or `scl(level)`: one more event set. -/
def emit (t : Tgt) (e : Event) : Tgt :=
  { t with emitted := t.emitted ++ [e] }

end Tgt

namespace TargetBase

/-- The enumeration `TargetBase::Result`. -/
inductive Result where
  | Octet
  | Stop
  | Start
deriving DecidableEq, Repr

/-- The enumeration `TargetBase::Condition`. -/
inductive Condition where
  | STOP
  | START
deriving DecidableEq, Repr

/-- The enumerator `WaitFlag::STOP`: 0. -/
def waitStop : Nat := 0

/-- The enumerator `WaitFlag::START`: `1 << 0`. -/
def waitStart : Nat := 1

/-- A loop `while (scl() == level) {}`. -/
def while_scl (env : Samples) (level : Level) : Nat → Tgt → Ran Unit
  | 0, t => Ran.spinning t
  | fuel + 1, t =>
    if env.scl t.sclReads = level then
      while_scl env level fuel { t with sclReads := t.sclReads + 1 }
    else
      Ran.done () { t with sclReads := t.sclReads + 1 }

/-- The loop of lines 46-58 of `read`, `level` being the bit just sampled: `some` result
when the loop returns from `read`, `none` when SCL has fallen.  Each iteration samples SDA
once, in the first condition when `level` is `Low` and in the second when it is `High`. -/
def read_high (env : Samples) (level : Level) : Nat → Tgt → Ran (Option Result)
  | 0, t => Ran.spinning t
  | fuel + 1, t =>
    let t1 := { t with sclReads := t.sclReads + 1 }
    if env.scl t.sclReads = Level.High then
      let t2 := { t1 with sdaReads := t1.sdaReads + 1 }
      if level = Level.Low ∧ env.sda t1.sdaReads = Level.High then
        Ran.done (some Result.Stop) t2
      else if level = Level.High ∧ env.sda t1.sdaReads = Level.Low then
        Ran.done (some Result.Start) t2
      else read_high env level fuel t2
    else
      Ran.done none t1

/-- The loop of lines 34-59 of `read` with `n` iterations left and `octet` so far. -/
def read_loop (env : Samples) (fuel : Nat) : Nat → Nat → Tgt → Ran (Result × Nat)
  | 0, octet, t => Ran.done (Result.Octet, octet) t
  | n + 1, octet, t =>
    (while_scl env Level.Low fuel t).bind
      (fun _ t1 =>
        let level := env.sda t1.sdaReads
        let t2 := { t1 with sdaReads := t1.sdaReads + 1 }
        let shifted := (octet <<< 1) % 256
        (read_high env level fuel t2).bind
          (fun r t3 =>
            match r with
            | some result => Ran.done (result, 0) t3
            | none =>
              read_loop env fuel n (if level = Level.High then shifted ||| 1 else shifted) t3))

/-- The method `TargetBase::Impl::read`. -/
def read (env : Samples) (fuel : Nat) (t : Tgt) : Ran (Result × Nat) :=
  read_loop env fuel 8 0 t

/-- The method `TargetBase::Impl::wait_for_clock_pulse`. -/
def wait_for_clock_pulse (env : Samples) (fuel : Nat) (t : Tgt) : Ran Unit :=
  (while_scl env Level.Low fuel t).bind (fun _ t1 => while_scl env Level.High fuel t1)

/-- The method `TargetBase::Impl::ack`. -/
def ack (env : Samples) (fuel : Nat) (t : Tgt) : Ran Unit :=
  (wait_for_clock_pulse env fuel (t.emit (Node.sdaEvent Level.Low))).bind
    (fun _ t1 => Ran.done () (t1.emit (Node.sdaEvent Level.High)))

/-- The loop of lines 79-85 of `write` with `n` iterations left. -/
def write_loop (env : Samples) (fuel : Nat) : Nat → Nat → Tgt → Ran Unit
  | 0, _, t => Ran.done () t
  | n + 1, octet, t =>
    let level := if octet &&& 0x80 ≠ 0 then Level.High else Level.Low
    (wait_for_clock_pulse env fuel (t.emit (Node.sdaEvent level))).bind
      (fun _ t1 => write_loop env fuel n ((octet <<< 1) % 256) t1)

/-- The method `TargetBase::Impl::write`. -/
def write (env : Samples) (fuel : Nat) (octet : Nat) (t : Tgt) : Ran Unit :=
  (write_loop env fuel 8 octet t).bind
    (fun _ t1 => Ran.done () (t1.emit (Node.sdaEvent Level.High)))

/-- The loop of lines 108-110 of `wait_for_condition`: the value of `level` when SCL is
no longer `Low`. -/
def condition_low (env : Samples) : Nat → Level → Tgt → Ran Level
  | 0, _, t => Ran.spinning t
  | fuel + 1, level, t =>
    let t1 := { t with sclReads := t.sclReads + 1 }
    if env.scl t.sclReads = Level.Low then
      condition_low env fuel (env.sda t1.sdaReads) { t1 with sdaReads := t1.sdaReads + 1 }
    else
      Ran.done level t1

/-- The loop of lines 112-127 of `wait_for_condition`: `some` condition when the loop
returns from the method, `none` when SCL has fallen.  SDA is sampled in the first
condition when `level` is `Low`, and otherwise in line 120 when the START flag is set. -/
def condition_high (env : Samples) (flags : Nat) (level : Level) :
    Nat → Tgt → Ran (Option Condition)
  | 0, t => Ran.spinning t
  | fuel + 1, t =>
    let t1 := { t with sclReads := t.sclReads + 1 }
    if env.scl t.sclReads = Level.High then
      let t2 := { t1 with sdaReads := t1.sdaReads + 1 }
      if level = Level.Low then
        if env.sda t1.sdaReads = Level.High then Ran.done (some Condition.STOP) t2
        else condition_high env flags level fuel t2
      else if flags &&& waitStart ≠ 0 then
        if env.sda t1.sdaReads = Level.Low then Ran.done (some Condition.START) t2
        else condition_high env flags level fuel t2
      else condition_high env flags level fuel t1
    else
      Ran.done none t1

/-- The method `TargetBase::Impl::wait_for_condition`, its outer loop being allowed
`rounds` iterations. -/
def wait_for_condition (env : Samples) (flags : Nat) (fuel : Nat) :
    Nat → Tgt → Ran Condition
  | 0, t => Ran.spinning t
  | rounds + 1, t =>
    (condition_low env fuel (env.sda t.sdaReads) { t with sdaReads := t.sdaReads + 1 }).bind
      (fun level t1 =>
        (condition_high env flags level fuel t1).bind
          (fun r t2 =>
            match r with
            | some condition => Ran.done condition t2
            | none => wait_for_condition env flags fuel rounds t2))

end TargetBase
namespace Target

/-- The loop of `Target::Impl::handle_controller_read` with `rounds` iterations allowed and
the loop variable `data`.  The two tests `address() == 0xA6` are those of lines 88 and 97. -/
def read_rounds (env : Samples) (fuel : Nat) (address : Nat) : Nat → Nat → Tgt → Ran Unit
  | 0, _, t => Ran.spinning t
  | rounds + 1, data, t =>
    (TargetBase.write env fuel data t).bind
      (fun _ t1 =>
        (TargetBase.while_scl env Level.Low fuel t1).bind
          (fun _ t2 =>
            let t3 := if address = 0xA6 then t2.emit (Node.sclEvent Level.Low) else t2
            let nack := env.sda t3.sdaReads
            let t4 := { t3 with sdaReads := t3.sdaReads + 1 }
            let t5 :=
              if address = 0xA6 then
                (((t4.emit (Node.sclEvent Level.Low)).emit (Node.sclEvent Level.Low)).emit
                  (Node.sclEvent Level.Low)).emit (Node.sclEvent Level.High)
              else t4
            (TargetBase.while_scl env Level.High fuel t5).bind
              (fun _ t6 =>
                if nack = Level.High then
                  (TargetBase.wait_for_condition env
                    (TargetBase.waitStart ||| TargetBase.waitStop) fuel fuel t6).bind
                    (fun _ t7 => Ran.done () t7)
                else read_rounds env fuel address rounds ((data + 1) % 256) t6)))

/-- The method `Target::Impl::handle_controller_read`. -/
def handle_controller_read (env : Samples) (fuel : Nat) (address : Nat) (t : Tgt) :
    Ran Unit :=
  read_rounds env fuel address fuel ((address <<< 4) % 256) t

/-- The loop of `Target::Impl::handle_controller_write` with `rounds` iterations allowed.
The two tests `address() == 0xA6` are those of lines 132 and 143. -/
def write_rounds (env : Samples) (fuel : Nat) (address : Nat) : Nat → Tgt → Ran Unit
  | 0, t => Ran.spinning t
  | rounds + 1, t =>
    (TargetBase.read env fuel t).bind
      (fun r t1 =>
        match r.1 with
        | TargetBase.Result.Octet =>
          let t2 := if address = 0xA6 then t1.emit (Node.sclEvent Level.Low) else t1
          let t3 := t2.emit (Node.sdaEvent Level.Low)
          let t4 :=
            if address = 0xA6 then
              (((t3.emit (Node.sclEvent Level.Low)).emit (Node.sclEvent Level.Low)).emit
                (Node.sclEvent Level.Low)).emit (Node.sclEvent Level.High)
            else t3
          (TargetBase.wait_for_clock_pulse env fuel t4).bind
            (fun _ t5 =>
              write_rounds env fuel address rounds (t5.emit (Node.sdaEvent Level.High)))
        | TargetBase.Result.Stop => Ran.done () t1
        | TargetBase.Result.Start => Ran.done () t1)

/-- The method `Target::Impl::handle_controller_write`. -/
def handle_controller_write (env : Samples) (fuel : Nat) (address : Nat) (t : Tgt) :
    Ran Unit :=
  write_rounds env fuel address fuel t

/-- Lines 40-57 of `Target::Impl::isr`: the address octet that `read` returns, or `none`
when `isr` returns before it has one. -/
def isr_address (env : Samples) (fuel : Nat) (t : Tgt) : Ran (Option Nat) :=
  if env.scl t.sclReads = Level.Low then
    Ran.done none { t with sclReads := t.sclReads + 1 }
  else
    (TargetBase.while_scl env Level.High fuel { t with sclReads := t.sclReads + 1 }).bind
      (fun _ t1 =>
        (TargetBase.read env fuel t1).bind
          (fun r t2 =>
            match r.1 with
            | TargetBase.Result.Octet => Ran.done (some r.2) t2
            | TargetBase.Result.Stop => Ran.done none t2
            | TargetBase.Result.Start => Ran.done none t2))

/-- The method `Target::Impl::isr` of a target whose `address()` is `address`. -/
def isr (env : Samples) (fuel : Nat) (address : Nat) (t : Tgt) : Ran Unit :=
  (isr_address env fuel t).bind
    (fun r t1 =>
      match r with
      | none => Ran.done () t1
      | some octet =>
        if !TargetBase.address_match address octet then
          (TargetBase.wait_for_condition env TargetBase.waitStop fuel fuel t1).bind
            (fun _ t2 => Ran.done () t2)
        else
          (TargetBase.ack env fuel t1).bind
            (fun _ t2 =>
              if TargetBase.read_operation octet then handle_controller_read env fuel address t2
              else handle_controller_write env fuel address t2))

end Target

/-! ## What the samples of a target must be for an octet to pass -/

/-- From any sample on, SCL is seen `High` within `fuel` samples and `Low` within `fuel`
samples: the controller keeps clocking, so no loop of a target that waits for a clock edge
uses up its allowance. -/
def Samples.Clocked (env : Samples) (fuel : Nat) : Prop :=
  ∀ k, (∃ j, j < fuel ∧ env.scl (k + j) = Level.High) ∧
    (∃ j, j < fuel ∧ env.scl (k + j) = Level.Low)

/-- From SCL sample `scl` and SDA sample `sda` on, the samples carry `levels`, one per clock
pulse: for each level SCL is `Low` for `lo` samples, then `High` for `hi + 1` samples while
SDA stays at the level (so no START or STOP condition is seen), then `Low` again; `lo` and
`hi` are within the allowance `fuel` of a loop. -/
def Samples.Carries (env : Samples) (fuel : Nat) : List Level → Nat → Nat → Prop
  | [], _, _ => True
  | level :: rest, scl, sda =>
    ∃ lo hi, lo < fuel ∧ hi < fuel ∧
      (∀ j, j < lo → env.scl (scl + j) = Level.Low) ∧
      (∀ j, j ≤ hi → env.scl (scl + lo + j) = Level.High) ∧
      env.scl (scl + lo + hi + 1) = Level.Low ∧
      (∀ j, j ≤ hi → env.sda (sda + j) = level) ∧
      Samples.Carries env fuel rest (scl + lo + hi + 2) (sda + hi + 1)


/-! ## Lines -/

theorem Line.setAll_snoc (l : Line) (calls : List (Nat × Level)) (c : Nat × Level) :
    l.setAll (calls ++ [c]) = (l.setAll calls).set c.1 c.2 := by
  simp [Line.setAll, List.foldl_append]

theorem lastLevel_snoc (calls : List (Nat × Level)) (c : Nat × Level) (d : Nat) :
    lastLevel (calls ++ [c]) d = if c.1 = d then some c.2 else lastLevel calls d := by
  unfold lastLevel
  by_cases h : c.1 = d
  · simp [List.filter_append, h, List.getLast?_append]
  · simp [List.filter_append, h]

theorem Line.mem_setAll_init (calls : List (Nat × Level)) (d : Nat) :
    d ∈ (Line.init.setAll calls).low_ ↔ lastLevel calls d = some Level.Low := by
  induction calls using List.reverseRecOn with
  | nil => simp [Line.setAll, Line.init, lastLevel]
  | append_singleton cs c ih =>
    rw [Line.setAll_snoc, lastLevel_snoc]
    obtain ⟨k, lv⟩ := c
    by_cases h : k = d
    · subst h
      cases lv <;> simp [Line.set]
    · have h2 : d ≠ k := fun e => h e.symm
      cases lv <;> simp [Line.set, h, h2, ih]

theorem Line.get_eq_low_iff (l : Line) : l.get = Level.Low ↔ ∃ d, d ∈ l.low_ := by
  unfold Line.get
  by_cases h : l.low_ = ∅
  · simp [h]
  · simp only [ne_eq, h, not_false_eq_true, if_true, true_iff]
    exact Finset.nonempty_of_ne_empty h

/-- C5: after any finite sequence of `Line::set` calls on a freshly constructed line,
`get` is `Low` exactly when some driver's most recent call drove `Low`, and `High`
otherwise; a fresh line reads `High`. -/
theorem C5_line_level_wired_and (calls : List (Nat × Level)) :
    ((Line.init.setAll calls).get = Level.Low ↔ ∃ d, lastLevel calls d = some Level.Low) ∧
    ((Line.init.setAll calls).get = Level.High ↔ ¬ ∃ d, lastLevel calls d = some Level.Low) ∧
    Line.init.get = Level.High := by
  have h1 : (Line.init.setAll calls).get = Level.Low ↔
      ∃ d, lastLevel calls d = some Level.Low := by
    rw [Line.get_eq_low_iff]
    exact exists_congr (fun d => Line.mem_setAll_init calls d)
  refine ⟨h1, ?_, by decide⟩
  rw [← h1]
  cases (Line.init.setAll calls).get <;> simp

/-- C6 (as stated, refuted): on the line whose low-set is `{1}`, driver 1 driving `Low`
and then `High` leaves the low-set empty, not `{1}`. -/
theorem C6_counterexample :
    (((Line.mk {1}).set 1 Level.Low).set 1 Level.High).low_ ≠ (Line.mk {1}).low_ := by
  decide

/-- C6 (amended): driving `Low` then `High` with driver `d` leaves the low-set with `d`
removed; it is the low-set before the two calls exactly when `d` was not in it. -/
theorem C6_low_then_high (l : Line) (d : Nat) :
    ((l.set d Level.Low).set d Level.High).low_ = l.low_.erase d ∧
    (((l.set d Level.Low).set d Level.High).low_ = l.low_ ↔ d ∉ l.low_) := by
  have h : ((l.set d Level.Low).set d Level.High).low_ = l.low_.erase d := by
    simp [Line.set]
  refine ⟨h, ?_⟩
  rw [h]
  constructor
  · intro e hd
    have : d ∈ l.low_.erase d := by rw [e]; exact hd
    simp at this
  · intro hd
    exact Finset.erase_eq_of_not_mem hd

/-- C7: applying a transaction drives only the line its event names, with the
transaction's node as the driver: the data events leave SCL alone, the clock events leave
SDA alone, and `Delay` leaves both alone. -/
theorem C7_process_frame (b : Bus) (node : Nat) :
    ((b.process ⟨node, Event.DataLow⟩).sda_ = b.sda_.set node Level.Low ∧
      (b.process ⟨node, Event.DataLow⟩).scl_ = b.scl_) ∧
    ((b.process ⟨node, Event.DataHigh⟩).sda_ = b.sda_.set node Level.High ∧
      (b.process ⟨node, Event.DataHigh⟩).scl_ = b.scl_) ∧
    ((b.process ⟨node, Event.ClockLow⟩).scl_ = b.scl_.set node Level.Low ∧
      (b.process ⟨node, Event.ClockLow⟩).sda_ = b.sda_) ∧
    ((b.process ⟨node, Event.ClockHigh⟩).scl_ = b.scl_.set node Level.High ∧
      (b.process ⟨node, Event.ClockHigh⟩).sda_ = b.sda_) ∧
    ((b.process ⟨node, Event.Delay⟩).sda_ = b.sda_ ∧
      (b.process ⟨node, Event.Delay⟩).scl_ = b.scl_) := by
  simp [Bus.process]


/-! ## The progress table -/

namespace Clients

theorem find_upsert (m : List (Nat × ClientState)) (k : Nat) (f : ClientState → ClientState)
    (q : Nat) :
    find (upsert m k f) q = if q = k then some (f (at_ m k)) else find m q := by
  induction m with
  | nil =>
    by_cases h : q = k
    · simp [upsert, find, at_, h]
    · have h2 : ¬ k = q := fun e => h e.symm
      simp [upsert, find, h, h2]
  | cons e rest ih =>
    obtain ⟨k1, v⟩ := e
    by_cases h1 : k1 = k
    · by_cases h : q = k
      · simp [upsert, find, at_, h1, h]
      · have h2 : ¬ k = q := fun e => h e.symm
        simp [upsert, find, h1, h, h2]
    · by_cases h : q = k
      · subst h
        simp [upsert, find, at_, h1, ih]
      · by_cases h3 : k1 = q
        · simp [upsert, find, h1, h, h3]
        · simp [upsert, find, h1, h, h3, ih]

theorem at_upsert_self (m : List (Nat × ClientState)) (k : Nat) (f : ClientState → ClientState) :
    at_ (upsert m k f) k = f (at_ m k) := by
  simp [at_, find_upsert]

theorem find_upsert_ne (m : List (Nat × ClientState)) (k : Nat) (f : ClientState → ClientState)
    (q : Nat) (h : q ≠ k) : find (upsert m k f) q = find m q := by
  simp [find_upsert, h]

theorem at_upsert_ne (m : List (Nat × ClientState)) (k : Nat) (f : ClientState → ClientState)
    (q : Nat) (h : q ≠ k) : at_ (upsert m k f) q = at_ m q := by
  simp [at_, find_upsert, h]

theorem erase_cons (e : Nat × ClientState) (rest : List (Nat × ClientState)) (k : Nat) :
    erase (e :: rest) k = if e.1 = k then erase rest k else e :: erase rest k := by
  by_cases h1 : e.1 = k <;> simp [erase, List.filter_cons, h1]

theorem find_erase (m : List (Nat × ClientState)) (k q : Nat) :
    find (erase m k) q = if q = k then none else find m q := by
  induction m with
  | nil => simp [erase, find]
  | cons e rest ih =>
    obtain ⟨k1, v⟩ := e
    rw [erase_cons]
    by_cases h1 : k1 = k
    · by_cases h : q = k
      · subst h
        simp [h1, ih]
      · have h2 : ¬ k = q := fun e => h e.symm
        simp [h1, h, h2, ih, find]
    · by_cases h : q = k
      · subst h
        simp [h1, ih, find]
      · by_cases h3 : k1 = q
        · simp [h1, h, h3, find]
        · simp [h1, h, h3, ih, find]

theorem mem_of_find (m : List (Nat × ClientState)) (k : Nat) (v : ClientState)
    (h : find m k = some v) : (k, v) ∈ m := by
  induction m with
  | nil => simp [find] at h
  | cons e rest ih =>
    obtain ⟨k1, v1⟩ := e
    by_cases h1 : k1 = k
    · simp [find, h1] at h
      simp [h1, h]
    · simp [find, h1] at h
      exact List.mem_cons_of_mem _ (ih h)

theorem at_cons_ne (k1 : Nat) (v1 : ClientState) (rest : List (Nat × ClientState)) (k : Nat)
    (h : k1 ≠ k) : at_ ((k1, v1) :: rest) k = at_ rest k := by
  simp [at_, find, h]

/-- An entry of the table after `clients_[k] = f(clients_[k])` is an old entry or the
image under `f` of what `clients_[k]` referred to. -/
theorem mem_upsert (m : List (Nat × ClientState)) (k : Nat) (f : ClientState → ClientState)
    (e : Nat × ClientState) (h : e ∈ upsert m k f) : e ∈ m ∨ e = (k, f (at_ m k)) := by
  induction m with
  | nil =>
    simp [upsert] at h
    simp [at_, find, h]
  | cons e1 rest ih =>
    obtain ⟨k1, v1⟩ := e1
    by_cases h1 : k1 = k
    · subst h1
      simp only [upsert, if_true, List.mem_cons] at h
      rcases h with h | h
      · right
        simp [h, at_, find]
      · exact Or.inl (List.mem_cons_of_mem _ h)
    · simp only [upsert, h1, if_false, List.mem_cons] at h
      rcases h with h | h
      · exact Or.inl (by simp [h])
      · rcases ih h with h2 | h2
        · exact Or.inl (List.mem_cons_of_mem _ h2)
        · right
          rw [at_cons_ne k1 v1 rest k h1]
          exact h2

/-- What `clients_[k]` refers to is a stored entry, or value-initialised when `k` is absent. -/
theorem at_mem_or_default (m : List (Nat × ClientState)) (k : Nat) :
    (k, at_ m k) ∈ m ∨ (find m k = none ∧ at_ m k = default) := by
  cases h : find m k with
  | none => exact Or.inr ⟨rfl, by simp [at_, h]⟩
  | some v =>
    left
    have : at_ m k = v := by simp [at_, h]
    rw [this]
    exact mem_of_find m k v h

theorem mem_erase (m : List (Nat × ClientState)) (k : Nat) (e : Nat × ClientState)
    (h : e ∈ erase m k) : e ∈ m ∧ e.1 ≠ k := by
  simpa [erase] using h

end Clients

/-! ## `get`, the drain and `attach` -/

/-- C8: for an attached participant `p`, `get(p)` advances `p` by exactly one when it is
behind the kernel sequence and leaves it alone otherwise; it returns the pair (SDA level,
SCL level) of the current low-sets; the lines, the kernel sequence, the queue, the
publisher slot, the pending flag of `p` and every other client's entry are unchanged. -/
theorem C8_get_advance_if_behind (b : Bus) (p : Nat) (c : ClientState)
    (h : Clients.find b.clients_ p = some c) :
    Clients.find (b.sync p).1.clients_ p =
      some ⟨if c.sequence < b.sequence_ then c.sequence + 1 else c.sequence, c.pending⟩ ∧
    (b.sync p).2 = (b.sda_.get, b.scl_.get) ∧
    (b.sync p).1.sda_ = b.sda_ ∧ (b.sync p).1.scl_ = b.scl_ ∧
    (b.sync p).1.sequence_ = b.sequence_ ∧ (b.sync p).1.queue_ = b.queue_ ∧
    (b.sync p).1.publisher_ = b.publisher_ ∧
    ∀ q, q ≠ p → Clients.find (b.sync p).1.clients_ q = Clients.find b.clients_ q := by
  have hat : Clients.at_ b.clients_ p = c := by simp [Clients.at_, h]
  by_cases hlt : c.sequence < b.sequence_
  · simp [Bus.sync, Bus.locked_sync, hat, hlt, Clients.find_upsert]
    intro q hq
    simp [hq]
  · simp [Bus.sync, Bus.locked_sync, hat, hlt, Clients.find_upsert, Clients.touch]
    intro q hq
    simp [hq]

/-- C8 at a participant that is one epoch behind. -/
theorem C8_get_advance_if_behind_witness :
    Clients.find ((Bus.mk Line.init (Line.mk {2}) 1 [(1, ⟨0, false⟩), (2, ⟨1, false⟩)]
        (some 2) []).sync 1).1.clients_ 1 = some ⟨1, false⟩ ∧
    ((Bus.mk Line.init (Line.mk {2}) 1 [(1, ⟨0, false⟩), (2, ⟨1, false⟩)]
        (some 2) []).sync 1).2 = (Level.High, Level.Low) := by
  have h := C8_get_advance_if_behind
    (Bus.mk Line.init (Line.mk {2}) 1 [(1, ⟨0, false⟩), (2, ⟨1, false⟩)] (some 2) []) 1
    ⟨0, false⟩ (by decide)
  exact ⟨h.1, by decide⟩


theorem Clients.cleared_upsert_self (m : List (Nat × ClientState)) (k : Nat) :
    Clients.Cleared (Clients.upsert m k (fun c => { c with pending := false })) k := by
  exact ⟨{ Clients.at_ m k with pending := false }, by simp [Clients.find_upsert], rfl⟩

theorem Clients.cleared_upsert_pending (m : List (Nat × ClientState)) (k q : Nat)
    (h : Clients.Cleared m q) :
    Clients.Cleared (Clients.upsert m k (fun c => { c with pending := false })) q := by
  by_cases hq : q = k
  · subst hq
    exact Clients.cleared_upsert_self m q
  · obtain ⟨c, h1, h2⟩ := h
    exact ⟨c, by simp [Clients.find_upsert, hq, h1], h2⟩

theorem Clients.cleared_upsert_sequence (m : List (Nat × ClientState)) (k q n : Nat)
    (h : Clients.Cleared m q) :
    Clients.Cleared (Clients.upsert m k (fun c => { c with sequence := n })) q := by
  obtain ⟨c, h1, h2⟩ := h
  by_cases hq : q = k
  · subst hq
    exact ⟨{ Clients.at_ m q with sequence := n }, by simp [Clients.find_upsert],
      by simp [Clients.at_, h1, h2]⟩
  · exact ⟨c, by simp [Clients.find_upsert, hq, h1], h2⟩

theorem Bus.drain_eq (b : Bus) :
    b.drain = b.queue_.foldl Bus.drainStep { b with queue_ := [] } := rfl

theorem Bus.process_frame (b : Bus) (t : Transaction) :
    (b.process t).sequence_ = b.sequence_ ∧ (b.process t).clients_ = b.clients_ ∧
    (b.process t).publisher_ = b.publisher_ ∧ (b.process t).queue_ = b.queue_ := by
  unfold Bus.process
  cases t.event <;> simp

theorem Bus.process_lines (b b1 : Bus) (t : Transaction) (h1 : b.sda_ = b1.sda_)
    (h2 : b.scl_ = b1.scl_) :
    (b.process t).sda_ = (b1.process t).sda_ ∧ (b.process t).scl_ = (b1.process t).scl_ := by
  unfold Bus.process
  cases t.event <;> simp [h1, h2]

theorem Bus.drainStep_frame (b : Bus) (t : Transaction) :
    (b.drainStep t).sda_ = (b.process t).sda_ ∧ (b.drainStep t).scl_ = (b.process t).scl_ ∧
    (b.drainStep t).sequence_ = b.sequence_ ∧ (b.drainStep t).publisher_ = b.publisher_ ∧
    (b.drainStep t).queue_ = b.queue_ ∧
    (b.drainStep t).clients_ =
      Clients.upsert b.clients_ t.node (fun c => { c with pending := false }) := by
  have h := Bus.process_frame b t
  simp [Bus.drainStep, h.1, h.2.1, h.2.2.1, h.2.2.2]

theorem Bus.foldl_drainStep_frame (ts : List Transaction) (acc acc1 : Bus)
    (h1 : acc.sda_ = acc1.sda_) (h2 : acc.scl_ = acc1.scl_) :
    (ts.foldl Bus.drainStep acc).sda_ = (ts.foldl Bus.process acc1).sda_ ∧
    (ts.foldl Bus.drainStep acc).scl_ = (ts.foldl Bus.process acc1).scl_ ∧
    (ts.foldl Bus.drainStep acc).sequence_ = acc.sequence_ ∧
    (ts.foldl Bus.drainStep acc).publisher_ = acc.publisher_ ∧
    (ts.foldl Bus.drainStep acc).queue_ = acc.queue_ := by
  induction ts generalizing acc acc1 with
  | nil => simp [h1, h2]
  | cons t rest ih =>
    have hf := Bus.drainStep_frame acc t
    have hl := Bus.process_lines acc acc1 t h1 h2
    have := ih (acc.drainStep t) (acc1.process t) (hf.1.trans hl.1) (hf.2.1.trans hl.2)
    simp only [List.foldl_cons]
    rw [this.1, this.2.1, this.2.2.1, this.2.2.2.1, this.2.2.2.2]
    exact ⟨rfl, rfl, hf.2.2.1, hf.2.2.2.1, hf.2.2.2.2.1⟩

theorem Bus.foldl_drainStep_cleared (ts : List Transaction) (acc : Bus) (q : Nat)
    (h : Clients.Cleared acc.clients_ q ∨ ∃ t ∈ ts, t.node = q) :
    Clients.Cleared (ts.foldl Bus.drainStep acc).clients_ q := by
  induction ts generalizing acc with
  | nil =>
    rcases h with h | ⟨t, ht, _⟩
    · exact h
    · simp at ht
  | cons t rest ih =>
    simp only [List.foldl_cons]
    apply ih
    have hc := (Bus.drainStep_frame acc t).2.2.2.2.2
    rcases h with h | ⟨t1, ht1, hq⟩
    · left
      rw [hc]
      exact Clients.cleared_upsert_pending _ _ _ h
    · rcases List.mem_cons.mp ht1 with e | hmem
      · left
        rw [hc, ← hq, e]
        exact Clients.cleared_upsert_self _ _
      · exact Or.inr ⟨t1, hmem, hq⟩

theorem Bus.advance_frame (b : Bus) (node : Nat) :
    (b.advance node).sda_ = b.sda_ ∧ (b.advance node).scl_ = b.scl_ ∧
    (b.advance node).queue_ = b.queue_ ∧ (b.advance node).publisher_ = b.publisher_ ∧
    (b.advance node).sequence_ = b.sequence_ + 1 := by
  simp [Bus.advance]

theorem Bus.barrier_loop_frame (node r : Nat) (b : Bus) :
    (Bus.barrier_loop node r b).1.sda_ = b.sda_ ∧ (Bus.barrier_loop node r b).1.scl_ = b.scl_ ∧
    (Bus.barrier_loop node r b).1.queue_ = b.queue_ := by
  induction r generalizing b with
  | zero => simp [Bus.barrier_loop]
  | succ r ih =>
    have ha := Bus.advance_frame b node
    unfold Bus.barrier_loop
    by_cases hs : (b.advance node).all_clients_synchronized = true
    · simp only [hs, if_true]
      have := ih (b.advance node)
      exact ⟨this.1.trans ha.1, this.2.1.trans ha.2.1, this.2.2.trans ha.2.2.1⟩
    · simp only [hs]
      exact ⟨ha.1, ha.2.1, ha.2.2.1⟩

theorem Bus.barrier_loop_cleared (node r : Nat) (b : Bus) (q : Nat)
    (h : Clients.Cleared b.clients_ q) :
    Clients.Cleared (Bus.barrier_loop node r b).1.clients_ q := by
  induction r generalizing b with
  | zero => simpa [Bus.barrier_loop] using h
  | succ r ih =>
    have ha : Clients.Cleared (b.advance node).clients_ q :=
      Clients.cleared_upsert_sequence _ _ _ _ h
    unfold Bus.barrier_loop
    by_cases hs : (b.advance node).all_clients_synchronized = true
    · simp only [hs, if_true]
      exact ih _ ha
    · simp only [hs]
      exact ha

/-- A transaction leaves the queue empty, the lines as the left fold of `process` over the
queue it found, and the pending flag of every drained participant clear. -/
theorem Bus.transaction_drains (b : Bus) (node : Nat) :
    (b.transaction node).1.queue_ = [] ∧
    (b.transaction node).1.sda_ = (b.queue_.foldl Bus.process b).sda_ ∧
    (b.transaction node).1.scl_ = (b.queue_.foldl Bus.process b).scl_ ∧
    ∀ t ∈ b.queue_, ∃ c,
      Clients.find (b.transaction node).1.clients_ t.node = some c ∧ c.pending = false := by
  have hb := Bus.barrier_loop_frame node 2 (Bus.drain { b with publisher_ := some node })
  have hd := Bus.foldl_drainStep_frame b.queue_
    { b with publisher_ := some node, queue_ := [] } b rfl rfl
  unfold Bus.transaction
  rw [hb.1, hb.2.1, hb.2.2]
  rw [Bus.drain_eq]
  refine ⟨hd.2.2.2.2, hd.1, hd.2.1, ?_⟩
  intro t ht
  apply Bus.barrier_loop_cleared
  exact Bus.foldl_drainStep_cleared _ _ _ (Or.inr ⟨t, ht, rfl⟩)

/-- C9: a thread that claims the publisher role applies every transaction that is in the
queue at that moment in queue order (the lines end up as the left fold of `process` over
the queue), leaves the queue empty, and clears the pending flag of every participant
whose transaction it applied. -/
theorem C9_drain_fifo (b : Bus) (node : Nat) :
    (b.transaction node).1.queue_ = [] ∧
    (b.transaction node).1.sda_ = (b.queue_.foldl Bus.process b).sda_ ∧
    (b.transaction node).1.scl_ = (b.queue_.foldl Bus.process b).scl_ ∧
    ∀ t ∈ b.queue_, ∃ c,
      Clients.find (b.transaction node).1.clients_ t.node = some c ∧ c.pending = false :=
  Bus.transaction_drains b node

/-- C10 (as stated, refuted): after `attach(1)` and a complete `set(1, Delay)` the kernel
sequence is 2 and handle 2 is not attached; `attach(2)` then enters it with sequence 0,
not 2. -/
theorem C10_counterexample :
    (Sys.init.runs [Action.attach 1, Action.set 1 Event.Delay]).bus.sequence_ = 2 ∧
    Clients.find (Sys.init.runs [Action.attach 1, Action.set 1 Event.Delay]).bus.clients_ 2
      = none ∧
    Clients.find
      ((Sys.init.runs [Action.attach 1, Action.set 1 Event.Delay]).bus.attach 2).clients_ 2
      = some ⟨0, false⟩ := by
  decide

/-- C10 (amended): `attach(p)` enters `p` in the progress table with sequence 0, whatever
the kernel sequence is, and pending false; the kernel sequence, the lines, the queue, the
publisher slot and every other entry are unchanged. -/
theorem C10_attach_entry (b : Bus) (p : Nat) :
    Clients.find (b.attach p).clients_ p = some ⟨0, false⟩ ∧
    (∀ q, q ≠ p → Clients.find (b.attach p).clients_ q = Clients.find b.clients_ q) ∧
    (b.attach p).sequence_ = b.sequence_ ∧ (b.attach p).sda_ = b.sda_ ∧
    (b.attach p).scl_ = b.scl_ ∧ (b.attach p).queue_ = b.queue_ ∧
    (b.attach p).publisher_ = b.publisher_ := by
  refine ⟨?_, ?_, rfl, rfl, rfl, rfl, rfl⟩
  · simp [Bus.attach, Clients.find_upsert]
    rfl
  · intro q hq
    simp [Bus.attach, Clients.find_upsert, hq]


/-! ## The publisher's barrier -/

theorem Bus.all_sync_iff (b : Bus) :
    b.all_clients_synchronized = true ↔ ∀ c ∈ b.clients_, c.2.sequence = b.sequence_ := by
  simp [Bus.all_clients_synchronized, List.all_eq_true]

theorem Bus.barrier_loop_one (node : Nat) (b : Bus) :
    Bus.barrier_loop node 1 b =
      if (b.advance node).all_clients_synchronized = true
      then ({ b.advance node with publisher_ := none }, PC.idle)
      else (b.advance node, PC.barrierWait 2) := by
  simp [Bus.barrier_loop]

theorem Bus.barrier_loop_two (node : Nat) (b : Bus) :
    Bus.barrier_loop node 2 b =
      if (b.advance node).all_clients_synchronized = true
      then Bus.barrier_loop node 1 (b.advance node)
      else (b.advance node, PC.barrierWait 1) := by
  simp [Bus.barrier_loop]

/-- The barrier loop either returns, with the publisher slot reset and (when it ran at
least one iteration, or started synchronised) every client synchronised, or it blocks and
leaves the publisher slot as it was. -/
theorem Bus.barrier_loop_outcome (node r : Nat) (b : Bus) :
    ((Bus.barrier_loop node r b).2 = PC.idle ∧
      (Bus.barrier_loop node r b).1.publisher_ = none ∧
      ((r = 0 → b.all_clients_synchronized = true) →
        (Bus.barrier_loop node r b).1.all_clients_synchronized = true)) ∨
    (∃ i, (Bus.barrier_loop node r b).2 = PC.barrierWait i ∧
      (Bus.barrier_loop node r b).1.publisher_ = b.publisher_) := by
  induction r generalizing b with
  | zero =>
    left
    refine ⟨rfl, rfl, ?_⟩
    intro h
    exact h rfl
  | succ r ih =>
    unfold Bus.barrier_loop
    by_cases hs : (b.advance node).all_clients_synchronized = true
    · simp only [hs, if_true]
      rcases ih (b.advance node) with ⟨h1, h2, h3⟩ | ⟨i, h1, h2⟩
      · exact Or.inl ⟨h1, h2, fun _ => h3 (fun _ => hs)⟩
      · exact Or.inr ⟨i, h1, h2.trans (Bus.advance_frame b node).2.2.2.1⟩
    · simp only [hs]
      exact Or.inr ⟨_, rfl, (Bus.advance_frame b node).2.2.2.1⟩

theorem Bus.barrier_wake_outcome (b : Bus) (node i : Nat) :
    ((b.barrier_wake node i).2 = PC.idle ∧ (b.barrier_wake node i).1.publisher_ = none ∧
      (b.barrier_wake node i).1.all_clients_synchronized = true) ∨
    (∃ j, (b.barrier_wake node i).2 = PC.barrierWait j ∧
      (b.barrier_wake node i).1.publisher_ = b.publisher_) := by
  unfold Bus.barrier_wake
  by_cases hs : b.all_clients_synchronized = true
  · simp only [hs, if_true]
    rcases Bus.barrier_loop_outcome node (2 - i) b with ⟨h1, h2, h3⟩ | h
    · exact Or.inl ⟨h1, h2, h3 (fun _ => hs)⟩
    · exact Or.inr h
  · simp only [hs]
    exact Or.inr ⟨i, rfl, rfl⟩

/-- A transaction either completes within the step or blocks in iteration 1 or 2 of the
barrier; the kernel sequence has then advanced by 2, or by the iteration number. -/
theorem Bus.transaction_outcome (b : Bus) (node : Nat) :
    ((b.transaction node).2 = PC.idle ∧ (b.transaction node).1.publisher_ = none ∧
      (b.transaction node).1.sequence_ = b.sequence_ + 2 ∧
      (b.transaction node).1.all_clients_synchronized = true) ∨
    (∃ i, (i = 1 ∨ i = 2) ∧ (b.transaction node).2 = PC.barrierWait i ∧
      (b.transaction node).1.publisher_ = some node ∧
      (b.transaction node).1.sequence_ = b.sequence_ + i) := by
  have hd := Bus.foldl_drainStep_frame b.queue_
    { b with publisher_ := some node, queue_ := [] } b rfl rfl
  have hseq : (Bus.drain { b with publisher_ := some node }).sequence_ = b.sequence_ :=
    hd.2.2.1
  have hpub : (Bus.drain { b with publisher_ := some node }).publisher_ = some node :=
    hd.2.2.2.1
  unfold Bus.transaction
  generalize Bus.drain { b with publisher_ := some node } = d at hseq hpub ⊢
  have ha1 := Bus.advance_frame d node
  have ha2 := Bus.advance_frame (d.advance node) node
  rw [Bus.barrier_loop_two]
  by_cases hs1 : (d.advance node).all_clients_synchronized = true
  · rw [if_pos hs1]
    rw [Bus.barrier_loop_one]
    by_cases hs2 : ((d.advance node).advance node).all_clients_synchronized = true
    · rw [if_pos hs2]
      left
      refine ⟨rfl, rfl, ?_, ?_⟩
      · show ((d.advance node).advance node).sequence_ = b.sequence_ + 2
        rw [ha2.2.2.2.2, ha1.2.2.2.2, hseq]
      · exact hs2
    · rw [if_neg hs2]
      right
      refine ⟨2, Or.inr rfl, rfl, ?_, ?_⟩
      · show ((d.advance node).advance node).publisher_ = some node
        rw [ha2.2.2.2.1, ha1.2.2.2.1, hpub]
      · show ((d.advance node).advance node).sequence_ = b.sequence_ + 2
        rw [ha2.2.2.2.2, ha1.2.2.2.2, hseq]
  · rw [if_neg hs1]
    right
    refine ⟨1, Or.inl rfl, rfl, ?_, ?_⟩
    · show (d.advance node).publisher_ = some node
      rw [ha1.2.2.2.1, hpub]
    · show (d.advance node).sequence_ = b.sequence_ + 1
      rw [ha1.2.2.2.2, hseq]

theorem Bus.locked_sync_frame (b : Bus) (node : Nat) :
    (b.locked_sync node).sda_ = b.sda_ ∧ (b.locked_sync node).scl_ = b.scl_ ∧
    (b.locked_sync node).sequence_ = b.sequence_ ∧
    (b.locked_sync node).publisher_ = b.publisher_ ∧
    (b.locked_sync node).queue_ = b.queue_ := by
  unfold Bus.locked_sync
  split <;> simp

/-- While a publisher is active, a test of the pending-wait predicate changes nothing but
the progress table, and the thread returns or stays blocked. -/
theorem Bus.pending_wake_busy (b : Bus) (node x : Nat) (h : b.publisher_ = some x) :
    (b.pending_wake node).1.sda_ = b.sda_ ∧ (b.pending_wake node).1.scl_ = b.scl_ ∧
    (b.pending_wake node).1.sequence_ = b.sequence_ ∧
    (b.pending_wake node).1.publisher_ = b.publisher_ ∧
    (b.pending_wake node).1.queue_ = b.queue_ ∧
    ((b.pending_wake node).2 = PC.idle ∨ (b.pending_wake node).2 = PC.pendingWait) := by
  obtain ⟨sda, scl, seq, cl, pub, qu⟩ := b
  simp only at h
  subst h
  unfold Bus.pending_wake Bus.pending_pred
  by_cases hp : (Clients.at_ cl node).pending = true
  · have hl := Bus.locked_sync_frame ⟨sda, scl, seq, Clients.touch cl node, some x, qu⟩ node
    simp [hp, hl.1, hl.2.1, hl.2.2.1, hl.2.2.2.1, hl.2.2.2.2]
  · simp only [Bool.not_eq_true] at hp
    simp [hp, Clients.touch, Clients.at_upsert_self]


theorem Bus.pending_wake_claim (b : Bus) (node : Nat) (h1 : b.publisher_ = none)
    (h2 : (Clients.at_ b.clients_ node).pending = true) (h3 : b.queue_ ≠ []) :
    b.pending_wake node =
      (Bus.locked_sync { b with clients_ := Clients.touch b.clients_ node } node).transaction
        node := by
  obtain ⟨sda, scl, seq, cl, pub, qu⟩ := b
  simp only at h1 h2 h3
  subst h1
  have hl := Bus.locked_sync_frame ⟨sda, scl, seq, Clients.touch cl node, none, qu⟩ node
  have hpend : (Clients.at_
      (Bus.locked_sync ⟨sda, scl, seq, Clients.touch cl node, none, qu⟩ node).clients_
      node).pending = true := by
    unfold Bus.locked_sync
    split <;> simp [Clients.touch, Clients.at_upsert_self, h2]
  unfold Bus.pending_wake Bus.pending_pred
  simp [h2, hl.2.2.2.1, hl.2.2.2.2, hpend, h3]

/-- With the publisher slot empty, a test of the pending-wait predicate leaves the slot
empty (the thread returns or, unreachably, keeps waiting) or claims the slot. -/
theorem Bus.pending_wake_free (b : Bus) (node : Nat) (h : b.publisher_ = none) :
    ((b.pending_wake node).1.publisher_ = none ∧
      ((b.pending_wake node).2 = PC.idle ∨ (b.pending_wake node).2 = PC.pendingWait)) ∨
    (∃ i, (b.pending_wake node).2 = PC.barrierWait i ∧
      (b.pending_wake node).1.publisher_ = some node) := by
  by_cases h2 : (Clients.at_ b.clients_ node).pending = true
  · by_cases h3 : b.queue_ = []
    · left
      obtain ⟨sda, scl, seq, cl, pub, qu⟩ := b
      simp only at h h2 h3
      subst h
      subst h3
      have hl := Bus.locked_sync_frame ⟨sda, scl, seq, Clients.touch cl node, none, []⟩ node
      unfold Bus.pending_wake Bus.pending_pred
      simp only [h2, Bool.not_true, Bool.false_eq_true, if_false, hl.2.2.2.1, hl.2.2.2.2,
        Option.isSome_none, Bool.not_false, List.isEmpty_nil, if_true]
      split <;> simp [hl.2.2.2.1]
    · rw [Bus.pending_wake_claim b node h h2 h3]
      rcases Bus.transaction_outcome
        (Bus.locked_sync { b with clients_ := Clients.touch b.clients_ node } node) node with
        ⟨h4, h5, _, _⟩ | ⟨i, _, h4, h5, _⟩
      · exact Or.inl ⟨h5, Or.inl h4⟩
      · exact Or.inr ⟨i, h4, h5⟩
  · left
    simp only [Bool.not_eq_true] at h2
    unfold Bus.pending_wake Bus.pending_pred
    simp [h2, Clients.touch, Clients.at_upsert_self, h]

/-- While a publisher is active, the entry of `set` only appends to the queue and touches
the progress table; the caller returns or blocks in the pending wait. -/
theorem Bus.publish_busy (b : Bus) (node x : Nat) (e : Event) (h : b.publisher_ = some x) :
    (b.publish node e).1.sda_ = b.sda_ ∧ (b.publish node e).1.scl_ = b.scl_ ∧
    (b.publish node e).1.sequence_ = b.sequence_ ∧
    (b.publish node e).1.publisher_ = b.publisher_ ∧
    (b.publish node e).1.queue_ = b.queue_ ++ [Transaction.mk node e] ∧
    ((b.publish node e).2 = PC.idle ∨ (b.publish node e).2 = PC.pendingWait) := by
  unfold Bus.publish
  simp only [h, Option.isSome_some, if_true]
  have := Bus.pending_wake_busy
    { b with queue_ := b.queue_ ++ [Transaction.mk node e],
             clients_ := Clients.upsert b.clients_ node (fun c => { c with pending := true }),
             publisher_ := some x } node x rfl
  exact this

theorem Bus.publish_claim (b : Bus) (node : Nat) (e : Event) (h : b.publisher_ = none) :
    b.publish node e =
      Bus.transaction { b with queue_ := b.queue_ ++ [Transaction.mk node e] } node := by
  unfold Bus.publish
  simp [h]

/-! ## Steps of the system -/

theorem Sys.goto_self (pc : Nat → PC) (p : Nat) (c : PC) : Sys.goto pc p c p = c := by
  simp [Sys.goto]

theorem Sys.goto_ne (pc : Nat → PC) (p q : Nat) (c : PC) (h : q ≠ p) :
    Sys.goto pc p c q = pc q := by
  simp [Sys.goto, h]

theorem Sys.step_get_idle (s : Sys) (p : Nat) (h : s.pc p = PC.idle) :
    s.step (Action.get p) = { s with bus := (s.bus.sync p).1 } := by
  simp [Sys.step, h]

theorem Sys.step_set_idle (s : Sys) (p : Nat) (e : Event) (h : s.pc p = PC.idle) :
    s.step (Action.set p e) = ⟨(s.bus.publish p e).1, Sys.goto s.pc p (s.bus.publish p e).2⟩ := by
  simp [Sys.step, h]

theorem Sys.step_wake_pending (s : Sys) (p : Nat) (h : s.pc p = PC.pendingWait) :
    s.step (Action.wake p) =
      ⟨(s.bus.pending_wake p).1, Sys.goto s.pc p (s.bus.pending_wake p).2⟩ := by
  simp [Sys.step, h]

theorem Sys.step_wake_barrier (s : Sys) (p i : Nat) (h : s.pc p = PC.barrierWait i) :
    s.step (Action.wake p) =
      ⟨(s.bus.barrier_wake p i).1, Sys.goto s.pc p (s.bus.barrier_wake p i).2⟩ := by
  simp [Sys.step, h]

theorem Sys.step_get_busy (s : Sys) (p : Nat) (h : s.pc p ≠ PC.idle) :
    s.step (Action.get p) = s := by
  cases hq : s.pc p with
  | idle => exact absurd hq h
  | pendingWait => simp [Sys.step, hq]
  | barrierWait i => simp [Sys.step, hq]

theorem Sys.step_set_busy (s : Sys) (p : Nat) (e : Event) (h : s.pc p ≠ PC.idle) :
    s.step (Action.set p e) = s := by
  cases hq : s.pc p with
  | idle => exact absurd hq h
  | pendingWait => simp [Sys.step, hq]
  | barrierWait i => simp [Sys.step, hq]

theorem Sys.step_wake_idle (s : Sys) (p : Nat) (h : s.pc p = PC.idle) :
    s.step (Action.wake p) = s := by
  simp [Sys.step, h]


theorem Sys.barrierOwned_goto (s : Sys) (b : Bus) (p : Nat) (c : PC)
    (hown : s.BarrierOwned)
    (h : (b.publisher_ = s.bus.publisher_ ∧ (c = PC.idle ∨ c = PC.pendingWait)) ∨
      (b.publisher_ = none ∧ (c = PC.idle ∨ c = PC.pendingWait) ∧
        (s.bus.publisher_ = none ∨ s.bus.publisher_ = some p)) ∨
      (b.publisher_ = some p ∧ (s.bus.publisher_ = none ∨ s.bus.publisher_ = some p))) :
    Sys.BarrierOwned ⟨b, Sys.goto s.pc p c⟩ := by
  intro q i hq
  simp only at hq ⊢
  by_cases hqp : q = p
  · subst hqp
    rw [Sys.goto_self] at hq
    rcases h with ⟨_, h | h⟩ | ⟨_, h | h, _⟩ | ⟨h, _⟩
    · rw [h] at hq; cases hq
    · rw [h] at hq; cases hq
    · rw [h] at hq; cases hq
    · rw [h] at hq; cases hq
    · exact h
  · rw [Sys.goto_ne _ _ _ _ hqp] at hq
    have h1 := hown q i hq
    rcases h with ⟨h, _⟩ | ⟨_, _, h | h⟩ | ⟨_, h | h⟩
    · rw [h, h1]
    · rw [h] at h1; cases h1
    · rw [h] at h1
      exact absurd (Option.some.inj h1).symm hqp
    · rw [h] at h1; cases h1
    · rw [h] at h1
      exact absurd (Option.some.inj h1).symm hqp

/-- In every step, a participant blocked in the barrier wait still holds the publisher
slot afterwards. -/
theorem Sys.barrierOwned_step (s : Sys) (a : Action) (hown : s.BarrierOwned) :
    (s.step a).BarrierOwned := by
  cases a with
  | attach p => exact hown
  | detach p => exact hown
  | get p =>
    cases hp : s.pc p with
    | idle =>
      rw [Sys.step_get_idle s p hp]
      intro q i hq
      exact ((Bus.locked_sync_frame s.bus p).2.2.2.1).trans (hown q i hq)
    | pendingWait => rw [Sys.step_get_busy s p (by simp [hp])]; exact hown
    | barrierWait i => rw [Sys.step_get_busy s p (by simp [hp])]; exact hown
  | set p e =>
    cases hp : s.pc p with
    | idle =>
      rw [Sys.step_set_idle s p e hp]
      apply Sys.barrierOwned_goto s _ p _ hown
      cases hpub : s.bus.publisher_ with
      | some x =>
        have := Bus.publish_busy s.bus p x e hpub
        exact Or.inl ⟨this.2.2.2.1.trans hpub, this.2.2.2.2.2⟩
      | none =>
        rw [Bus.publish_claim s.bus p e hpub]
        rcases Bus.transaction_outcome
          { s.bus with queue_ := s.bus.queue_ ++ [Transaction.mk p e] } p with
          ⟨h1, h2, _, _⟩ | ⟨i, _, _, h2, _⟩
        · exact Or.inr (Or.inl ⟨h2, Or.inl h1, Or.inl rfl⟩)
        · exact Or.inr (Or.inr ⟨h2, Or.inl rfl⟩)
    | pendingWait => rw [Sys.step_set_busy s p e (by simp [hp])]; exact hown
    | barrierWait i => rw [Sys.step_set_busy s p e (by simp [hp])]; exact hown
  | wake p =>
    cases hp : s.pc p with
    | idle => rw [Sys.step_wake_idle s p hp]; exact hown
    | pendingWait =>
      rw [Sys.step_wake_pending s p hp]
      apply Sys.barrierOwned_goto s _ p _ hown
      cases hpub : s.bus.publisher_ with
      | some x =>
        have := Bus.pending_wake_busy s.bus p x hpub
        exact Or.inl ⟨this.2.2.2.1.trans hpub, this.2.2.2.2.2⟩
      | none =>
        rcases Bus.pending_wake_free s.bus p hpub with ⟨h1, h2⟩ | ⟨i, _, h2⟩
        · exact Or.inr (Or.inl ⟨h1, h2, Or.inl rfl⟩)
        · exact Or.inr (Or.inr ⟨h2, Or.inl rfl⟩)
    | barrierWait i =>
      rw [Sys.step_wake_barrier s p i hp]
      have hpub := hown p i hp
      rcases Bus.barrier_wake_outcome s.bus p i with ⟨h1, h2, _⟩ | ⟨j, h1, h2⟩
      · exact Sys.barrierOwned_goto s _ p _ hown (Or.inr (Or.inl ⟨h2, Or.inl h1, Or.inr hpub⟩))
      · exact Sys.barrierOwned_goto s _ p _ hown (Or.inr (Or.inr ⟨h2.trans hpub, Or.inr hpub⟩))

theorem Sys.runs_cons (s : Sys) (a : Action) (acts : List Action) :
    s.runs (a :: acts) = (s.step a).runs acts := rfl

theorem Sys.barrierOwned_runs (s : Sys) (acts : List Action) (hown : s.BarrierOwned) :
    (s.runs acts).BarrierOwned := by
  induction acts generalizing s with
  | nil => exact hown
  | cons a rest ih => exact ih (s.step a) (Sys.barrierOwned_step s a hown)

theorem Sys.barrierOwned_of_reachable (s : Sys) (h : s.Reachable) : s.BarrierOwned := by
  obtain ⟨acts, rfl⟩ := h
  apply Sys.barrierOwned_runs
  intro q i hq
  cases hq


/-- While `p` is blocked in its barrier, any step keeps it there with the lines and the
publisher slot untouched and the sequence at `n + i`, or is the step in which `p`
returns from a completed barrier. -/
theorem Sys.inBarrier_step (s : Sys) (p n : Nat) (sda scl : Line) (a : Action)
    (hown : s.BarrierOwned) (h : Sys.InBarrier p n sda scl s) :
    Sys.InBarrier p n sda scl (s.step a) ∨ Sys.Returned p n sda scl (s.step a) := by
  obtain ⟨i, hi, hpc, hseq, hpub, hsda, hscl⟩ := h
  have hstay : Sys.InBarrier p n sda scl s := ⟨i, hi, hpc, hseq, hpub, hsda, hscl⟩
  cases a with
  | attach q => exact Or.inl ⟨i, hi, hpc, hseq, hpub, hsda, hscl⟩
  | detach q => exact Or.inl ⟨i, hi, hpc, hseq, hpub, hsda, hscl⟩
  | get q =>
    cases hq : s.pc q with
    | idle =>
      rw [Sys.step_get_idle s q hq]
      have hf := Bus.locked_sync_frame s.bus q
      exact Or.inl ⟨i, hi, hpc, hf.2.2.1.trans hseq, hf.2.2.2.1.trans hpub, hf.1.trans hsda,
        hf.2.1.trans hscl⟩
    | pendingWait => rw [Sys.step_get_busy s q (by simp [hq])]; exact Or.inl hstay
    | barrierWait j => rw [Sys.step_get_busy s q (by simp [hq])]; exact Or.inl hstay
  | set q e =>
    cases hq : s.pc q with
    | idle =>
      have hne : p ≠ q := by
        intro e1
        rw [e1, hq] at hpc
        cases hpc
      rw [Sys.step_set_idle s q e hq]
      have hf := Bus.publish_busy s.bus q p e hpub
      exact Or.inl ⟨i, hi, by simpa [Sys.goto_ne _ _ _ _ hne] using hpc, hf.2.2.1.trans hseq,
        hf.2.2.2.1.trans hpub, hf.1.trans hsda, hf.2.1.trans hscl⟩
    | pendingWait => rw [Sys.step_set_busy s q e (by simp [hq])]; exact Or.inl hstay
    | barrierWait j => rw [Sys.step_set_busy s q e (by simp [hq])]; exact Or.inl hstay
  | wake q =>
    cases hq : s.pc q with
    | idle => rw [Sys.step_wake_idle s q hq]; exact Or.inl hstay
    | pendingWait =>
      have hne : p ≠ q := by
        intro e1
        rw [e1, hq] at hpc
        cases hpc
      rw [Sys.step_wake_pending s q hq]
      have hf := Bus.pending_wake_busy s.bus q p hpub
      exact Or.inl ⟨i, hi, by simpa [Sys.goto_ne _ _ _ _ hne] using hpc, hf.2.2.1.trans hseq,
        hf.2.2.2.1.trans hpub, hf.1.trans hsda, hf.2.1.trans hscl⟩
    | barrierWait j =>
      have hqp : q = p := by
        have h1 := hown q j hq
        rw [hpub] at h1
        exact (Option.some.inj h1).symm
      subst hqp
      have hji : j = i := by
        rw [hq] at hpc
        cases hpc
        rfl
      subst hji
      rw [Sys.step_wake_barrier s q j hq]
      unfold Bus.barrier_wake
      by_cases hs : s.bus.all_clients_synchronized = true
      · rw [if_pos hs]
        have ha := Bus.advance_frame s.bus q
        rcases hi with rfl | rfl
        · show Sys.InBarrier q n sda scl ⟨(Bus.barrier_loop q 1 s.bus).1, _⟩ ∨
            Sys.Returned q n sda scl ⟨(Bus.barrier_loop q 1 s.bus).1,
              Sys.goto s.pc q (Bus.barrier_loop q 1 s.bus).2⟩
          rw [Bus.barrier_loop_one]
          by_cases hs2 : (s.bus.advance q).all_clients_synchronized = true
          · rw [if_pos hs2]
            right
            refine ⟨Sys.goto_self _ _ _, ?_, rfl, hs2, ha.1.trans hsda, ha.2.1.trans hscl⟩
            show (s.bus.advance q).sequence_ = n + 2
            rw [ha.2.2.2.2, hseq]
          · rw [if_neg hs2]
            left
            refine ⟨2, Or.inr rfl, Sys.goto_self _ _ _, ?_, ha.2.2.2.1.trans hpub,
              ha.1.trans hsda, ha.2.1.trans hscl⟩
            show (s.bus.advance q).sequence_ = n + 2
            rw [ha.2.2.2.2, hseq]
        · right
          exact ⟨Sys.goto_self _ _ _, hseq, rfl, hs, hsda, hscl⟩
      · rw [if_neg hs]
        exact Or.inl ⟨j, hi, Sys.goto_self _ _ _, hseq, hpub, hsda, hscl⟩

/-- A run during which `p` stays blocked, started in the barrier of `p` and ended with
`p` outside the kernel, ends in the state in which `p` returned from the barrier. -/
theorem Sys.inBarrier_runs (s : Sys) (p n : Nat) (sda scl : Line) (acts : List Action)
    (hown : s.BarrierOwned) (h : Sys.InBarrier p n sda scl s)
    (hb : s.blockedDuring p acts = true) (hret : (s.runs acts).pc p = PC.idle) :
    Sys.Returned p n sda scl (s.runs acts) := by
  induction acts generalizing s with
  | nil =>
    obtain ⟨i, _, hpc, _⟩ := h
    rw [show s.runs [] = s from rfl, hpc] at hret
    cases hret
  | cons a rest ih =>
    simp only [Sys.blockedDuring, Bool.and_eq_true] at hb
    rw [Sys.runs_cons] at hret ⊢
    rcases Sys.inBarrier_step s p n sda scl a hown h with h1 | h1
    · exact ih (s.step a) (Sys.barrierOwned_step s a hown) h1 hb.2 hret
    · cases rest with
      | nil => exact h1
      | cons a2 rest2 =>
        have := hb.2
        simp only [Sys.blockedDuring, Bool.and_eq_true] at this
        rw [h1.1] at this
        simp at this

/-- The step in which `p` claims the publisher role leaves `p` in its barrier, or is
already the return from it; the transaction starts at the kernel sequence of `s`. -/
theorem Sys.claims_step (s : Sys) (p : Nat) (a : Action) (hc : s.Claims p a) :
    Sys.InBarrier p s.bus.sequence_ (s.step a).bus.sda_ (s.step a).bus.scl_ (s.step a) ∨
    Sys.Returned p s.bus.sequence_ (s.step a).bus.sda_ (s.step a).bus.scl_ (s.step a) := by
  obtain ⟨hpub, ⟨e, rfl, hpc⟩ | ⟨rfl, hpc, hpend, hq⟩⟩ := hc
  · rw [Sys.step_set_idle s p e hpc, Bus.publish_claim s.bus p e hpub]
    rcases Bus.transaction_outcome
      { s.bus with queue_ := s.bus.queue_ ++ [Transaction.mk p e] } p with
      ⟨h1, h2, h3, h4⟩ | ⟨i, hi, h1, h2, h3⟩
    · exact Or.inr ⟨(Sys.goto_self _ _ _).trans h1, h3, h2, h4, rfl, rfl⟩
    · exact Or.inl ⟨i, hi, (Sys.goto_self _ _ _).trans h1, h3, h2, rfl, rfl⟩
  · rw [Sys.step_wake_pending s p hpc, Bus.pending_wake_claim s.bus p hpub hpend hq]
    have hl := Bus.locked_sync_frame { s.bus with clients_ := Clients.touch s.bus.clients_ p } p
    rcases Bus.transaction_outcome
      (Bus.locked_sync { s.bus with clients_ := Clients.touch s.bus.clients_ p } p) p with
      ⟨h1, h2, h3, h4⟩ | ⟨i, hi, h1, h2, h3⟩
    · exact Or.inr ⟨(Sys.goto_self _ _ _).trans h1, h3.trans (by rw [hl.2.2.1]), h2, h4, rfl, rfl⟩
    · exact Or.inl ⟨i, hi, (Sys.goto_self _ _ _).trans h1, h3.trans (by rw [hl.2.2.1]), h2,
        rfl, rfl⟩


/-! ## No client is ahead of the kernel -/

theorem Bus.bounded_at (b : Bus) (k : Nat) (h : b.Bounded) :
    (Clients.at_ b.clients_ k).sequence ≤ b.sequence_ := by
  rcases Clients.at_mem_or_default b.clients_ k with h1 | ⟨_, h1⟩
  · exact h _ h1
  · rw [h1]
    exact Nat.zero_le _

theorem Bus.bounded_upsert (b : Bus) (k : Nat) (f : ClientState → ClientState) (n : Nat)
    (h : b.Bounded) (hn : b.sequence_ ≤ n) (hf : (f (Clients.at_ b.clients_ k)).sequence ≤ n) :
    ∀ c ∈ Clients.upsert b.clients_ k f, c.2.sequence ≤ n := by
  intro c hc
  rcases Clients.mem_upsert _ _ _ _ hc with h1 | h1
  · exact le_trans (h c h1) hn
  · rw [h1]
    exact hf

theorem Bus.locked_sync_bounded (b : Bus) (node : Nat) (h : b.Bounded) :
    (b.locked_sync node).Bounded := by
  unfold Bus.locked_sync
  split
  · rename_i hlt
    exact Bus.bounded_upsert b node _ b.sequence_ h le_rfl hlt
  · exact Bus.bounded_upsert b node id b.sequence_ h le_rfl (Bus.bounded_at b node h)

theorem Bus.drainStep_bounded (b : Bus) (t : Transaction) (h : b.Bounded) :
    (b.drainStep t).Bounded := by
  have hf := Bus.drainStep_frame b t
  intro c hc
  rw [hf.2.2.2.2.2] at hc
  rw [hf.2.2.1]
  exact Bus.bounded_upsert b t.node _ b.sequence_ h le_rfl (Bus.bounded_at b t.node h) c hc

theorem Bus.foldl_drainStep_bounded (ts : List Transaction) (b : Bus) (h : b.Bounded) :
    (ts.foldl Bus.drainStep b).Bounded := by
  induction ts generalizing b with
  | nil => exact h
  | cons t rest ih => exact ih _ (Bus.drainStep_bounded b t h)

theorem Bus.advance_bounded (b : Bus) (node : Nat) (h : b.Bounded) :
    (b.advance node).Bounded :=
  Bus.bounded_upsert b node _ (b.sequence_ + 1) h (Nat.le_succ _) le_rfl

theorem Bus.barrier_loop_bounded (node r : Nat) (b : Bus) (h : b.Bounded) :
    (Bus.barrier_loop node r b).1.Bounded := by
  induction r generalizing b with
  | zero => exact h
  | succ r ih =>
    unfold Bus.barrier_loop
    by_cases hs : (b.advance node).all_clients_synchronized = true
    · simp only [hs, if_true]
      exact ih _ (Bus.advance_bounded b node h)
    · simp only [hs]
      exact Bus.advance_bounded b node h

theorem Bus.barrier_wake_bounded (b : Bus) (node i : Nat) (h : b.Bounded) :
    (b.barrier_wake node i).1.Bounded := by
  unfold Bus.barrier_wake
  split
  · exact Bus.barrier_loop_bounded _ _ _ h
  · exact h

theorem Bus.transaction_bounded (b : Bus) (node : Nat) (h : b.Bounded) :
    (b.transaction node).1.Bounded := by
  unfold Bus.transaction
  apply Bus.barrier_loop_bounded
  rw [Bus.drain_eq]
  exact Bus.foldl_drainStep_bounded _ _ h

theorem Bus.touch_bounded (b : Bus) (node : Nat) (h : b.Bounded) :
    Bus.Bounded { b with clients_ := Clients.touch b.clients_ node } :=
  Bus.bounded_upsert b node id b.sequence_ h le_rfl (Bus.bounded_at b node h)

theorem Bus.pending_wake_bounded (b : Bus) (node : Nat) (h : b.Bounded) :
    (b.pending_wake node).1.Bounded := by
  have h1 := Bus.touch_bounded b node h
  have h2 := Bus.locked_sync_bounded _ node h1
  unfold Bus.pending_wake Bus.pending_pred
  by_cases hp : (Clients.at_ b.clients_ node).pending = true
  · simp only [hp, Bool.not_true, Bool.false_eq_true, if_false]
    split
    · exact h2
    · split
      · exact h2
      · split
        · exact h2
        · split
          · exact h2
          · exact Bus.transaction_bounded _ _ h2
  · simp only [Bool.not_eq_true] at hp
    simp only [hp, Bool.not_false, if_true, Bool.not_true, Bool.false_eq_true, if_false]
    split
    · exact h1
    · split
      · exact h1
      · split
        · exact h1
        · exact Bus.transaction_bounded _ _ h1

theorem Bus.publish_bounded (b : Bus) (node : Nat) (e : Event) (h : b.Bounded) :
    (b.publish node e).1.Bounded := by
  unfold Bus.publish
  simp only
  split
  · apply Bus.pending_wake_bounded
    exact Bus.bounded_upsert b node _ b.sequence_ h le_rfl (Bus.bounded_at b node h)
  · exact Bus.transaction_bounded _ _ h

theorem Bus.attach_bounded (b : Bus) (node : Nat) (h : b.Bounded) : (b.attach node).Bounded :=
  Bus.bounded_upsert b node _ b.sequence_ h le_rfl (Nat.zero_le _)

theorem Bus.detach_bounded (b : Bus) (node : Nat) (h : b.Bounded) : (b.detach node).Bounded := by
  intro c hc
  exact h c (Clients.mem_erase _ _ _ hc).1

theorem Sys.bounded_step (s : Sys) (a : Action) (h : s.bus.Bounded) : (s.step a).bus.Bounded := by
  cases a with
  | attach p => exact Bus.attach_bounded _ _ h
  | detach p => exact Bus.detach_bounded _ _ h
  | get p =>
    cases hp : s.pc p with
    | idle => rw [Sys.step_get_idle s p hp]; exact Bus.locked_sync_bounded _ _ h
    | pendingWait => rw [Sys.step_get_busy s p (by simp [hp])]; exact h
    | barrierWait i => rw [Sys.step_get_busy s p (by simp [hp])]; exact h
  | set p e =>
    cases hp : s.pc p with
    | idle => rw [Sys.step_set_idle s p e hp]; exact Bus.publish_bounded _ _ _ h
    | pendingWait => rw [Sys.step_set_busy s p e (by simp [hp])]; exact h
    | barrierWait i => rw [Sys.step_set_busy s p e (by simp [hp])]; exact h
  | wake p =>
    cases hp : s.pc p with
    | idle => rw [Sys.step_wake_idle s p hp]; exact h
    | pendingWait => rw [Sys.step_wake_pending s p hp]; exact Bus.pending_wake_bounded _ _ h
    | barrierWait i => rw [Sys.step_wake_barrier s p i hp]; exact Bus.barrier_wake_bounded _ _ _ h

theorem Sys.bounded_runs (s : Sys) (acts : List Action) (h : s.bus.Bounded) :
    (s.runs acts).bus.Bounded := by
  induction acts generalizing s with
  | nil => exact h
  | cons a rest ih => exact ih (s.step a) (Sys.bounded_step s a h)

theorem Sys.bounded_of_reachable (s : Sys) (h : s.Reachable) : s.bus.Bounded := by
  obtain ⟨acts, rfl⟩ := h
  apply Sys.bounded_runs
  intro c hc
  simp [Sys.init, Bus.init] at hc


/-! ## The publish transaction as seen by its caller -/

theorem Bus.foldl_process_lines (ts : List Transaction) (b b1 : Bus) (h1 : b.sda_ = b1.sda_)
    (h2 : b.scl_ = b1.scl_) :
    (ts.foldl Bus.process b).sda_ = (ts.foldl Bus.process b1).sda_ ∧
    (ts.foldl Bus.process b).scl_ = (ts.foldl Bus.process b1).scl_ := by
  induction ts generalizing b b1 with
  | nil => exact ⟨h1, h2⟩
  | cons t rest ih =>
    have hl := Bus.process_lines b b1 t h1 h2
    exact ih _ _ hl.1 hl.2

/-- The step in which `p` claims the publisher role leaves the lines as the transactions
it drains, applied in queue order, make them. -/
theorem Sys.claims_lines (s : Sys) (p : Nat) (a : Action) (hc : s.Claims p a) :
    (s.step a).bus.sda_ = ((s.claimed a).foldl Bus.process s.bus).sda_ ∧
    (s.step a).bus.scl_ = ((s.claimed a).foldl Bus.process s.bus).scl_ := by
  obtain ⟨hpub, ⟨e, rfl, hpc⟩ | ⟨rfl, hpc, hpend, hq⟩⟩ := hc
  · rw [Sys.step_set_idle s p e hpc, Bus.publish_claim s.bus p e hpub]
    have hd := Bus.transaction_drains
      { s.bus with queue_ := s.bus.queue_ ++ [Transaction.mk p e] } p
    have hl := Bus.foldl_process_lines (s.bus.queue_ ++ [Transaction.mk p e])
      { s.bus with queue_ := s.bus.queue_ ++ [Transaction.mk p e] } s.bus rfl rfl
    exact ⟨hd.2.1.trans hl.1, hd.2.2.1.trans hl.2⟩
  · rw [Sys.step_wake_pending s p hpc, Bus.pending_wake_claim s.bus p hpub hpend hq]
    have hf := Bus.locked_sync_frame { s.bus with clients_ := Clients.touch s.bus.clients_ p } p
    have hd := Bus.transaction_drains
      (Bus.locked_sync { s.bus with clients_ := Clients.touch s.bus.clients_ p } p) p
    have hl := Bus.foldl_process_lines s.bus.queue_
      (Bus.locked_sync { s.bus with clients_ := Clients.touch s.bus.clients_ p } p) s.bus
      hf.1 hf.2.1
    rw [hf.2.2.2.2] at hd
    exact ⟨hd.2.1.trans hl.1, hd.2.2.1.trans hl.2⟩

/-- C1 (as stated, refuted): participants 1, 2 and 3 are attached; 2 and 3 call `set`
while 1 publishes, so both are pending when 1 releases at kernel sequence 2.  Then 2
claims the role and drains both transactions (SDA goes low by 3) and blocks in the first
barrier pass at sequence 3.  The next wake-up of 3 returns from `set(3, DataLow)`: the
kernel sequence has advanced by one only, the publisher slot is still held by 2, and
participant 1 is still at sequence 2. -/
theorem C1_counterexample :
    (Sys.init.runs [Action.attach 1, Action.attach 2, Action.attach 3,
      Action.set 1 Event.Delay, Action.set 2 Event.ClockLow, Action.set 3 Event.DataLow,
      Action.wake 1, Action.wake 2, Action.wake 3, Action.wake 1]).bus.sequence_ = 2 ∧
    (Sys.init.runs [Action.attach 1, Action.attach 2, Action.attach 3,
      Action.set 1 Event.Delay, Action.set 2 Event.ClockLow, Action.set 3 Event.DataLow,
      Action.wake 1, Action.wake 2, Action.wake 3, Action.wake 1]).bus.sda_.low_ = ∅ ∧
    (Sys.init.runs [Action.attach 1, Action.attach 2, Action.attach 3,
      Action.set 1 Event.Delay, Action.set 2 Event.ClockLow, Action.set 3 Event.DataLow,
      Action.wake 1, Action.wake 2, Action.wake 3, Action.wake 1,
      Action.wake 2]).bus.sda_.low_ = {3} ∧
    (Sys.init.runs [Action.attach 1, Action.attach 2, Action.attach 3,
      Action.set 1 Event.Delay, Action.set 2 Event.ClockLow, Action.set 3 Event.DataLow,
      Action.wake 1, Action.wake 2, Action.wake 3, Action.wake 1,
      Action.wake 2]).pc 3 = PC.pendingWait ∧
    (Sys.init.runs [Action.attach 1, Action.attach 2, Action.attach 3,
      Action.set 1 Event.Delay, Action.set 2 Event.ClockLow, Action.set 3 Event.DataLow,
      Action.wake 1, Action.wake 2, Action.wake 3, Action.wake 1,
      Action.wake 2, Action.wake 3]).pc 3 = PC.idle ∧
    (Sys.init.runs [Action.attach 1, Action.attach 2, Action.attach 3,
      Action.set 1 Event.Delay, Action.set 2 Event.ClockLow, Action.set 3 Event.DataLow,
      Action.wake 1, Action.wake 2, Action.wake 3, Action.wake 1,
      Action.wake 2, Action.wake 3]).bus.sequence_ = 3 ∧
    (Sys.init.runs [Action.attach 1, Action.attach 2, Action.attach 3,
      Action.set 1 Event.Delay, Action.set 2 Event.ClockLow, Action.set 3 Event.DataLow,
      Action.wake 1, Action.wake 2, Action.wake 3, Action.wake 1,
      Action.wake 2, Action.wake 3]).bus.publisher_ = some 2 ∧
    Clients.find (Sys.init.runs [Action.attach 1, Action.attach 2, Action.attach 3,
      Action.set 1 Event.Delay, Action.set 2 Event.ClockLow, Action.set 3 Event.DataLow,
      Action.wake 1, Action.wake 2, Action.wake 3, Action.wake 1,
      Action.wake 2, Action.wake 3]).bus.clients_ 1 = some ⟨2, false⟩ := by
  decide

/-- C1 (amended): when the thread of `p` itself claims the publisher role for its call
(on entry to `set`, or on leaving the pending wait still pending), the call returns only
after the drained transactions, the caller's own last, have been applied to the lines
and the two barrier passes have completed: at the return the kernel sequence is two above
its value when the events were applied, the publisher slot is empty, every client in the
progress table is at the kernel sequence, and every participant attached at both moments
has registered at least two advances. -/
theorem C1_publisher_returns_after_barrier (s : Sys) (p : Nat) (a : Action)
    (acts : List Action) (hr : s.Reachable) (hc : s.Claims p a)
    (hb : (s.step a).blockedDuring p acts = true)
    (hret : ((s.step a).runs acts).pc p = PC.idle) :
    ((s.step a).runs acts).bus.sda_ = ((s.claimed a).foldl Bus.process s.bus).sda_ ∧
    ((s.step a).runs acts).bus.scl_ = ((s.claimed a).foldl Bus.process s.bus).scl_ ∧
    ((s.step a).runs acts).bus.sequence_ = s.bus.sequence_ + 2 ∧
    ((s.step a).runs acts).bus.publisher_ = none ∧
    (∀ c ∈ ((s.step a).runs acts).bus.clients_, c.2.sequence = s.bus.sequence_ + 2) ∧
    (∀ q c0 c1, Clients.find s.bus.clients_ q = some c0 →
      Clients.find ((s.step a).runs acts).bus.clients_ q = some c1 →
      c0.sequence + 2 ≤ c1.sequence) := by
  have hown := Sys.barrierOwned_of_reachable s hr
  have hbd := Sys.bounded_of_reachable s hr
  have hl := Sys.claims_lines s p a hc
  have hfin : Sys.Returned p s.bus.sequence_ (s.step a).bus.sda_ (s.step a).bus.scl_
      ((s.step a).runs acts) := by
    rcases Sys.claims_step s p a hc with h1 | h1
    · exact Sys.inBarrier_runs (s.step a) p _ _ _ acts (Sys.barrierOwned_step s a hown) h1 hb hret
    · cases acts with
      | nil => exact h1
      | cons a2 rest =>
        simp only [Sys.blockedDuring, Bool.and_eq_true] at hb
        rw [h1.1] at hb
        simp at hb
  obtain ⟨_, h2, h3, h4, h5, h6⟩ := hfin
  have hall : ∀ c ∈ ((s.step a).runs acts).bus.clients_, c.2.sequence = s.bus.sequence_ + 2 := by
    intro c hcm
    rw [← h2]
    exact (Bus.all_sync_iff _).mp h4 c hcm
  refine ⟨h5.trans hl.1, h6.trans hl.2, h2, h3, hall, ?_⟩
  intro q c0 c1 h0 h1
  have e1 := hall _ (Clients.mem_of_find _ _ _ h1)
  have e0 := hbd _ (Clients.mem_of_find _ _ _ h0)
  simp only at e1 e0
  omega

/-- C1 (amended) on a run: with 1 and 2 attached, 1 enters `set(1, DataLow)`, 2 samples,
1 passes the first barrier, 2 samples again, and 1 returns. -/
theorem C1_publisher_returns_after_barrier_witness :
    ((Sys.init.runs [Action.attach 1, Action.attach 2]).runs
      [Action.set 1 Event.DataLow, Action.get 2, Action.wake 1, Action.get 2,
        Action.wake 1]).bus.sda_.low_ = {1} ∧
    ((Sys.init.runs [Action.attach 1, Action.attach 2]).runs
      [Action.set 1 Event.DataLow, Action.get 2, Action.wake 1, Action.get 2,
        Action.wake 1]).bus.sequence_ = 2 := by
  have h := C1_publisher_returns_after_barrier (Sys.init.runs [Action.attach 1, Action.attach 2])
    1 (Action.set 1 Event.DataLow) [Action.get 2, Action.wake 1, Action.get 2, Action.wake 1]
    ⟨_, rfl⟩ ⟨rfl, Or.inl ⟨_, rfl, rfl⟩⟩ (by decide) (by decide)
  exact ⟨by rw [show ∀ x : Sys, x.runs [Action.set 1 Event.DataLow, Action.get 2, Action.wake 1,
    Action.get 2, Action.wake 1] = (x.step (Action.set 1 Event.DataLow)).runs [Action.get 2,
    Action.wake 1, Action.get 2, Action.wake 1] from fun _ => rfl, h.1]; decide, h.2.2.1⟩


/-- A step that finds the publisher slot occupied and leaves it empty leaves every client
synchronised. -/
theorem Sys.release_synchronized (s : Sys) (a : Action) (h1 : s.bus.publisher_ ≠ none)
    (h2 : (s.step a).bus.publisher_ = none) :
    (s.step a).bus.all_clients_synchronized = true := by
  obtain ⟨x, hx⟩ := Option.ne_none_iff_exists'.mp h1
  cases a with
  | attach p => exact absurd h2 h1
  | detach p => exact absurd h2 h1
  | get p =>
    cases hp : s.pc p with
    | idle =>
      rw [Sys.step_get_idle s p hp] at h2
      exact absurd (((Bus.locked_sync_frame s.bus p).2.2.2.1).symm.trans h2) h1
    | pendingWait => rw [Sys.step_get_busy s p (by simp [hp])] at h2; exact absurd h2 h1
    | barrierWait i => rw [Sys.step_get_busy s p (by simp [hp])] at h2; exact absurd h2 h1
  | set p e =>
    cases hp : s.pc p with
    | idle =>
      rw [Sys.step_set_idle s p e hp] at h2
      exact absurd (((Bus.publish_busy s.bus p x e hx).2.2.2.1).symm.trans h2) h1
    | pendingWait => rw [Sys.step_set_busy s p e (by simp [hp])] at h2; exact absurd h2 h1
    | barrierWait i => rw [Sys.step_set_busy s p e (by simp [hp])] at h2; exact absurd h2 h1
  | wake p =>
    cases hp : s.pc p with
    | idle => rw [Sys.step_wake_idle s p hp] at h2; exact absurd h2 h1
    | pendingWait =>
      rw [Sys.step_wake_pending s p hp] at h2
      exact absurd (((Bus.pending_wake_busy s.bus p x hx).2.2.2.1).symm.trans h2) h1
    | barrierWait i =>
      rw [Sys.step_wake_barrier s p i hp] at h2 ⊢
      rcases Bus.barrier_wake_outcome s.bus p i with ⟨_, _, h3⟩ | ⟨j, _, h3⟩
      · exact h3
      · exact absurd (h3.symm.trans h2) h1

/-- C3 (as stated, refuted): 2 calls `set` while 1 publishes; in the step in which 1
resets the publisher slot the queue still holds the transaction of 2. -/
theorem C3_counterexample :
    (Sys.init.runs [Action.attach 1, Action.attach 2, Action.set 1 Event.Delay,
      Action.set 2 Event.ClockLow, Action.wake 1, Action.wake 2]).bus.publisher_ = some 1 ∧
    ((Sys.init.runs [Action.attach 1, Action.attach 2, Action.set 1 Event.Delay,
      Action.set 2 Event.ClockLow, Action.wake 1, Action.wake 2]).step
        (Action.wake 1)).bus.publisher_ = none ∧
    ((Sys.init.runs [Action.attach 1, Action.attach 2, Action.set 1 Event.Delay,
      Action.set 2 Event.ClockLow, Action.wake 1, Action.wake 2]).step
        (Action.wake 1)).bus.queue_ = [Transaction.mk 2 Event.ClockLow] := by
  decide

/-- C3 (amended): in the step in which the publisher slot is reset to empty (the end of
`publish`), every client's sequence equals the kernel sequence; the queue may hold the
transactions of participants that called `set` during the barrier. -/
theorem C3_release_all_synchronized (s : Sys) (a : Action) (h : s.Releases a) :
    ∀ c ∈ (s.step a).bus.clients_, c.2.sequence = (s.step a).bus.sequence_ := by
  apply (Bus.all_sync_iff _).mp
  rcases h with ⟨h1, h2⟩ | ⟨p, hc, hidle⟩
  · exact Sys.release_synchronized s a h1 h2
  · rcases Sys.claims_step s p a hc with ⟨i, _, hpc, _⟩ | hret
    · rw [hidle] at hpc
      cases hpc
    · exact hret.2.2.2.1

/-- C3 (amended) at the release step of a run in which 2 calls `set` while 1 publishes:
the step resets the slot, and client 2 is at the kernel sequence although its transaction
is still queued. -/
theorem C3_release_all_synchronized_witness :
    (Sys.init.runs [Action.attach 1, Action.attach 2, Action.set 1 Event.Delay,
      Action.set 2 Event.ClockLow, Action.wake 1, Action.wake 2]).Releases (Action.wake 1) ∧
    ((2, ClientState.mk 2 true) : Nat × ClientState) ∈
      ((Sys.init.runs [Action.attach 1, Action.attach 2, Action.set 1 Event.Delay,
        Action.set 2 Event.ClockLow, Action.wake 1, Action.wake 2]).step
          (Action.wake 1)).bus.clients_ ∧
    2 = ((Sys.init.runs [Action.attach 1, Action.attach 2, Action.set 1 Event.Delay,
        Action.set 2 Event.ClockLow, Action.wake 1, Action.wake 2]).step
          (Action.wake 1)).bus.sequence_ :=
  ⟨Or.inl ⟨by decide, by decide⟩, by decide,
    C3_release_all_synchronized
      (Sys.init.runs [Action.attach 1, Action.attach 2, Action.set 1 Event.Delay,
        Action.set 2 Event.ClockLow, Action.wake 1, Action.wake 2])
      (Action.wake 1) (Or.inl ⟨by decide, by decide⟩) (2, ClientState.mk 2 true) (by decide)⟩

/-- C4: `set(p, Delay)` called while no publisher is active and the queue is empty: when
the call returns, both lines have the low-sets they had before the call, the kernel
sequence is two higher, and every client in the progress table is at that sequence. -/
theorem C4_delay_state_neutral (s : Sys) (p : Nat) (acts : List Action)
    (hr : s.Reachable) (hpc : s.pc p = PC.idle) (hpub : s.bus.publisher_ = none)
    (hq : s.bus.queue_ = [])
    (hsync : ∀ c ∈ s.bus.clients_, c.2.sequence = s.bus.sequence_)
    (hb : (s.step (Action.set p Event.Delay)).blockedDuring p acts = true)
    (hret : ((s.step (Action.set p Event.Delay)).runs acts).pc p = PC.idle) :
    ((s.step (Action.set p Event.Delay)).runs acts).bus.sda_.low_ = s.bus.sda_.low_ ∧
    ((s.step (Action.set p Event.Delay)).runs acts).bus.scl_.low_ = s.bus.scl_.low_ ∧
    ((s.step (Action.set p Event.Delay)).runs acts).bus.sequence_ = s.bus.sequence_ + 2 ∧
    ∀ c ∈ ((s.step (Action.set p Event.Delay)).runs acts).bus.clients_,
      c.2.sequence = s.bus.sequence_ + 2 := by
  have _ := hsync
  have hown := Sys.barrierOwned_of_reachable s hr
  have hc : s.Claims p (Action.set p Event.Delay) := ⟨hpub, Or.inl ⟨_, rfl, hpc⟩⟩
  have hl := Sys.claims_lines s p _ hc
  have hcl : s.claimed (Action.set p Event.Delay) = [Transaction.mk p Event.Delay] := by
    simp [Sys.claimed, hq]
  rw [hcl] at hl
  have hfin : Sys.Returned p s.bus.sequence_ (s.step (Action.set p Event.Delay)).bus.sda_
      (s.step (Action.set p Event.Delay)).bus.scl_
      ((s.step (Action.set p Event.Delay)).runs acts) := by
    rcases Sys.claims_step s p _ hc with h1 | h1
    · exact Sys.inBarrier_runs _ p _ _ _ acts (Sys.barrierOwned_step s _ hown) h1 hb hret
    · cases acts with
      | nil => exact h1
      | cons a2 rest =>
        simp only [Sys.blockedDuring, Bool.and_eq_true] at hb
        rw [h1.1] at hb
        simp at hb
  obtain ⟨_, h2, _, h4, h5, h6⟩ := hfin
  refine ⟨?_, ?_, h2, ?_⟩
  · rw [h5, hl.1]
    rfl
  · rw [h6, hl.2]
    rfl
  · intro c hcm
    rw [← h2]
    exact (Bus.all_sync_iff _).mp h4 c hcm

/-- C4 on a run: 2 holds SCL low, 1 calls `delay()`, 2 samples twice and 1 returns. -/
theorem C4_delay_state_neutral_witness :
    (((Sys.init.runs [Action.attach 1, Action.attach 2, Action.set 2 Event.ClockLow,
        Action.get 1, Action.wake 2, Action.get 1, Action.wake 2]).step
      (Action.set 1 Event.Delay)).runs
        [Action.get 2, Action.wake 1, Action.get 2, Action.wake 1]).bus.scl_.low_ = {2} ∧
    (((Sys.init.runs [Action.attach 1, Action.attach 2, Action.set 2 Event.ClockLow,
        Action.get 1, Action.wake 2, Action.get 1, Action.wake 2]).step
      (Action.set 1 Event.Delay)).runs
        [Action.get 2, Action.wake 1, Action.get 2, Action.wake 1]).bus.sequence_ = 4 := by
  have h := C4_delay_state_neutral
    (Sys.init.runs [Action.attach 1, Action.attach 2, Action.set 2 Event.ClockLow,
      Action.get 1, Action.wake 2, Action.get 1, Action.wake 2])
    1 [Action.get 2, Action.wake 1, Action.get 2, Action.wake 1]
    ⟨_, rfl⟩ (by decide) (by decide) (by decide) (by decide) (by decide) (by decide)
  exact ⟨h.2.1.trans (by decide), h.2.2.1⟩


/-! ## The epoch gap on disciplined runs -/

theorem Clients.has_iff (m : List (Nat × ClientState)) (k : Nat) :
    Clients.Has m k ↔ ∃ v, Clients.find m k = some v := by
  unfold Clients.Has
  cases Clients.find m k <;> simp

theorem Clients.has_at (m : List (Nat × ClientState)) (k : Nat) (h : Clients.Has m k) :
    (k, Clients.at_ m k) ∈ m := by
  rcases Clients.at_mem_or_default m k with h1 | ⟨h1, _⟩
  · exact h1
  · rw [Clients.Has, h1] at h
    cases h

theorem Clients.find_at (m : List (Nat × ClientState)) (k : Nat) (h : Clients.Has m k) :
    Clients.find m k = some (Clients.at_ m k) := by
  obtain ⟨v, hv⟩ := (Clients.has_iff m k).mp h
  simp [Clients.at_, hv]

theorem Clients.upsert_id_attached (m : List (Nat × ClientState)) (k : Nat)
    (h : Clients.Has m k) : Clients.upsert m k id = m := by
  induction m with
  | nil => simp [Clients.Has, Clients.find] at h
  | cons e rest ih =>
    obtain ⟨k1, v1⟩ := e
    by_cases h1 : k1 = k
    · simp [Clients.upsert, h1]
    · have : Clients.Has rest k := by
        simpa [Clients.Has, Clients.find, h1] using h
      simp [Clients.upsert, h1, ih this]

theorem Clients.touch_attached (m : List (Nat × ClientState)) (k : Nat)
    (h : Clients.Has m k) : Clients.touch m k = m :=
  Clients.upsert_id_attached m k h

theorem Clients.has_upsert (m : List (Nat × ClientState)) (k : Nat)
    (f : ClientState → ClientState) (q : Nat) (h : Clients.Has m q) :
    Clients.Has (Clients.upsert m k f) q := by
  unfold Clients.Has at h ⊢
  rw [Clients.find_upsert]
  split
  · rfl
  · exact h

theorem Clients.has_upsert_self (m : List (Nat × ClientState)) (k : Nat)
    (f : ClientState → ClientState) : Clients.Has (Clients.upsert m k f) k := by
  simp [Clients.Has, Clients.find_upsert]

/-- An assignment through `clients_[k]` that keeps the pending flag keeps every set
pending flag. -/
theorem Clients.pending_upsert (m : List (Nat × ClientState)) (k : Nat)
    (f : ClientState → ClientState) (q : Nat) (hf : ∀ c, (f c).pending = c.pending)
    (h : Clients.Pending m q) : Clients.Pending (Clients.upsert m k f) q := by
  obtain ⟨c, h1, h2⟩ := h
  by_cases hq : q = k
  · subst hq
    refine ⟨f (Clients.at_ m q), by simp [Clients.find_upsert], ?_⟩
    rw [hf]
    simp [Clients.at_, h1, h2]
  · exact ⟨c, by simp [Clients.find_upsert, hq, h1], h2⟩

theorem Clients.pending_upsert_ne (m : List (Nat × ClientState)) (k : Nat)
    (f : ClientState → ClientState) (q : Nat) (hq : q ≠ k)
    (h : Clients.Pending m q) : Clients.Pending (Clients.upsert m k f) q := by
  obtain ⟨c, h1, h2⟩ := h
  exact ⟨c, by simp [Clients.find_upsert, hq, h1], h2⟩

theorem Clients.has_of_pending (m : List (Nat × ClientState)) (q : Nat)
    (h : Clients.Pending m q) : Clients.Has m q := by
  obtain ⟨c, h1, _⟩ := h
  simp [Clients.Has, h1]

theorem Clients.pending_at (m : List (Nat × ClientState)) (q : Nat)
    (h : Clients.Pending m q) : (Clients.at_ m q).pending = true := by
  obtain ⟨c, h1, h2⟩ := h
  simp [Clients.at_, h1, h2]

/-- A property of the sequence fields survives an assignment through `clients_[k]` that
keeps the sequence, when `k` is attached. -/
theorem Clients.forall_upsert_keep (m : List (Nat × ClientState)) (k : Nat)
    (f : ClientState → ClientState) (Q : Nat → Prop)
    (hf : ∀ c, (f c).sequence = c.sequence) (hk : Clients.Has m k)
    (h : ∀ c ∈ m, Q c.2.sequence) : ∀ c ∈ Clients.upsert m k f, Q c.2.sequence := by
  intro c hc
  rcases Clients.mem_upsert _ _ _ _ hc with h1 | h1
  · exact h c h1
  · rw [h1]
    simp only
    rw [hf]
    exact h _ (Clients.has_at m k hk)

theorem Bus.sync_gap (b : Bus) (h : b.Sync) : b.Gap := by
  intro c hc
  have := h c hc
  omega

theorem Bus.locked_sync_gap (b : Bus) (p : Nat) (hp : Clients.Has b.clients_ p) (h : b.Gap) :
    (b.locked_sync p).Gap := by
  unfold Bus.locked_sync
  split
  · rename_i hlt
    intro c hc
    rcases Clients.mem_upsert _ _ _ _ hc with h1 | h1
    · exact h c h1
    · rw [h1]
      have := h _ (Clients.has_at _ _ hp)
      simp only at this ⊢
      omega
  · rw [Clients.touch_attached _ _ hp]
    exact h

theorem Bus.locked_sync_sync (b : Bus) (p : Nat) (hp : Clients.Has b.clients_ p) (h : b.Sync) :
    b.locked_sync p = b := by
  have h1 := h _ (Clients.has_at _ _ hp)
  simp only at h1
  unfold Bus.locked_sync
  rw [if_neg (by omega), Clients.touch_attached _ _ hp]

theorem Bus.locked_sync_has (b : Bus) (p q : Nat) (h : Clients.Has b.clients_ q) :
    Clients.Has (b.locked_sync p).clients_ q := by
  unfold Bus.locked_sync
  split
  · exact Clients.has_upsert _ _ _ _ h
  · exact Clients.has_upsert _ _ _ _ h

theorem Bus.locked_sync_pending (b : Bus) (p q : Nat) (h : Clients.Pending b.clients_ q) :
    Clients.Pending (b.locked_sync p).clients_ q := by
  unfold Bus.locked_sync
  split
  · exact Clients.pending_upsert _ _ _ _ (fun _ => rfl) h
  · exact Clients.pending_upsert _ _ _ _ (fun _ => rfl) h


theorem Bus.foldl_drainStep_has (ts : List Transaction) (b : Bus) (q : Nat)
    (h : Clients.Has b.clients_ q) : Clients.Has (ts.foldl Bus.drainStep b).clients_ q := by
  induction ts generalizing b with
  | nil => exact h
  | cons t rest ih =>
    apply ih
    rw [(Bus.drainStep_frame b t).2.2.2.2.2]
    exact Clients.has_upsert _ _ _ _ h

/-- Draining transactions of attached participants leaves every sequence field as it was. -/
theorem Bus.foldl_drainStep_keep (ts : List Transaction) (b : Bus) (Q : Nat → Prop)
    (hall : ∀ t ∈ ts, Clients.Has b.clients_ t.node) (h : ∀ c ∈ b.clients_, Q c.2.sequence) :
    ∀ c ∈ (ts.foldl Bus.drainStep b).clients_, Q c.2.sequence := by
  induction ts generalizing b with
  | nil => exact h
  | cons t rest ih =>
    have hc := (Bus.drainStep_frame b t).2.2.2.2.2
    apply ih
    · intro t1 ht1
      rw [hc]
      exact Clients.has_upsert _ _ _ _ (hall t1 (List.mem_cons_of_mem _ ht1))
    · rw [hc]
      exact Clients.forall_upsert_keep _ _ _ Q (fun _ => rfl) (hall t (List.mem_cons_self _ _)) h

theorem Bus.advance_gap (b : Bus) (node : Nat) (h : b.Sync) : (b.advance node).Gap := by
  intro c hc
  rcases Clients.mem_upsert _ _ _ _ hc with h1 | h1
  · have := h c h1
    show c.2.sequence ≤ b.sequence_ + 1 ∧ b.sequence_ + 1 ≤ c.2.sequence + 1
    omega
  · rw [h1]
    show b.sequence_ + 1 ≤ b.sequence_ + 1 ∧ b.sequence_ + 1 ≤ b.sequence_ + 1 + 1
    omega

theorem Bus.advance_has (b : Bus) (node q : Nat) (h : Clients.Has b.clients_ q) :
    Clients.Has (b.advance node).clients_ q :=
  Clients.has_upsert _ _ _ _ h

theorem Bus.advance_pending (b : Bus) (node q : Nat) (h : Clients.Pending b.clients_ q) :
    Clients.Pending (b.advance node).clients_ q :=
  Clients.pending_upsert _ _ _ _ (fun _ => rfl) h

/-- From a synchronised state with the slot occupied, the barrier loop keeps every client
within one epoch of the kernel, and synchronised if it resets the slot. -/
theorem Bus.barrier_loop_gap (node r : Nat) (b : Bus) (hs : b.Sync) (hp : b.publisher_ ≠ none) :
    (Bus.barrier_loop node r b).1.Gap ∧
    ((Bus.barrier_loop node r b).1.publisher_ = none → (Bus.barrier_loop node r b).1.Sync) := by
  induction r generalizing b with
  | zero => exact ⟨Bus.sync_gap _ hs, fun _ => hs⟩
  | succ r ih =>
    unfold Bus.barrier_loop
    by_cases h1 : (b.advance node).all_clients_synchronized = true
    · rw [if_pos h1]
      exact ih _ ((Bus.all_sync_iff _).mp h1) (by rw [(Bus.advance_frame b node).2.2.2.1]; exact hp)
    · rw [if_neg h1]
      refine ⟨Bus.advance_gap b node hs, ?_⟩
      intro h2
      rw [(Bus.advance_frame b node).2.2.2.1] at h2
      exact absurd h2 hp

theorem Bus.barrier_loop_has (node r : Nat) (b : Bus) (q : Nat) (h : Clients.Has b.clients_ q) :
    Clients.Has (Bus.barrier_loop node r b).1.clients_ q := by
  induction r generalizing b with
  | zero => exact h
  | succ r ih =>
    unfold Bus.barrier_loop
    by_cases h1 : (b.advance node).all_clients_synchronized = true
    · rw [if_pos h1]
      exact ih _ (Bus.advance_has b node q h)
    · rw [if_neg h1]
      exact Bus.advance_has b node q h

theorem Bus.barrier_loop_pending (node r : Nat) (b : Bus) (q : Nat)
    (h : Clients.Pending b.clients_ q) :
    Clients.Pending (Bus.barrier_loop node r b).1.clients_ q := by
  induction r generalizing b with
  | zero => exact h
  | succ r ih =>
    unfold Bus.barrier_loop
    by_cases h1 : (b.advance node).all_clients_synchronized = true
    · rw [if_pos h1]
      exact ih _ (Bus.advance_pending b node q h)
    · rw [if_neg h1]
      exact Bus.advance_pending b node q h

theorem Bus.barrier_loop_sequence (node r : Nat) (b : Bus) :
    b.sequence_ ≤ (Bus.barrier_loop node r b).1.sequence_ := by
  induction r generalizing b with
  | zero => exact le_rfl
  | succ r ih =>
    have ha : (b.advance node).sequence_ = b.sequence_ + 1 := (Bus.advance_frame b node).2.2.2.2
    unfold Bus.barrier_loop
    by_cases h1 : (b.advance node).all_clients_synchronized = true
    · rw [if_pos h1]
      have := ih (b.advance node)
      omega
    · rw [if_neg h1]
      show b.sequence_ ≤ (b.advance node).sequence_
      omega

/-- A transaction that starts synchronised and drains only attached participants keeps
every client within one epoch of the kernel, and synchronised if it completes. -/
theorem Bus.transaction_gap (b : Bus) (node : Nat) (hs : b.Sync)
    (hall : ∀ t ∈ b.queue_, Clients.Has b.clients_ t.node) :
    (b.transaction node).1.Gap ∧
    ((b.transaction node).1.publisher_ = none → (b.transaction node).1.Sync) := by
  have hd := Bus.foldl_drainStep_frame b.queue_
    { b with publisher_ := some node, queue_ := [] } b rfl rfl
  have hk := Bus.foldl_drainStep_keep b.queue_
    { b with publisher_ := some node, queue_ := [] } (fun n => n = b.sequence_) hall hs
  unfold Bus.transaction
  rw [Bus.drain_eq]
  apply Bus.barrier_loop_gap
  · intro c hc
    rw [hd.2.2.1]
    exact hk c hc
  · rw [hd.2.2.2.1]
    simp

theorem Bus.transaction_has (b : Bus) (node q : Nat) (h : Clients.Has b.clients_ q) :
    Clients.Has (b.transaction node).1.clients_ q := by
  unfold Bus.transaction
  apply Bus.barrier_loop_has
  rw [Bus.drain_eq]
  exact Bus.foldl_drainStep_has _ _ _ h

/-! ### The pending wait of an attached participant -/

theorem Bus.pending_wake_cleared (b : Bus) (p : Nat) (hp : Clients.Has b.clients_ p)
    (h : (Clients.at_ b.clients_ p).pending = false) : b.pending_wake p = (b, PC.idle) := by
  unfold Bus.pending_wake Bus.pending_pred
  simp [h, Clients.touch_attached _ _ hp]

theorem Bus.locked_sync_at_pending (b : Bus) (p : Nat) :
    (Clients.at_ (b.locked_sync p).clients_ p).pending = (Clients.at_ b.clients_ p).pending := by
  unfold Bus.locked_sync
  split <;> simp [Clients.touch, Clients.at_upsert_self]

theorem Bus.pending_wake_wait (b : Bus) (p x : Nat) (hp : Clients.Has b.clients_ p)
    (h : (Clients.at_ b.clients_ p).pending = true) (hx : b.publisher_ = some x) :
    b.pending_wake p = (b.locked_sync p, PC.pendingWait) := by
  obtain ⟨sda, scl, seq, cl, pub, qu⟩ := b
  simp only at hp h hx
  subst hx
  have hl := Bus.locked_sync_frame ⟨sda, scl, seq, cl, some x, qu⟩ p
  unfold Bus.pending_wake Bus.pending_pred
  simp only [Clients.touch_attached _ _ hp]
  simp [h, hl.2.2.2.1]

theorem Bus.pending_wake_empty (b : Bus) (p : Nat) (hp : Clients.Has b.clients_ p)
    (h : (Clients.at_ b.clients_ p).pending = true) (hx : b.publisher_ = none)
    (hq : b.queue_ = []) : b.pending_wake p = (b.locked_sync p, PC.idle) := by
  obtain ⟨sda, scl, seq, cl, pub, qu⟩ := b
  simp only at hp h hx hq
  subst hx
  subst hq
  have hl := Bus.locked_sync_frame ⟨sda, scl, seq, cl, none, []⟩ p
  have hpd := Bus.locked_sync_at_pending ⟨sda, scl, seq, cl, none, []⟩ p
  simp only at hpd
  unfold Bus.pending_wake Bus.pending_pred
  simp only [Clients.touch_attached _ _ hp]
  simp [h, hl.2.2.2.1, hl.2.2.2.2, hpd]

theorem Bus.pending_wake_claim_attached (b : Bus) (p : Nat) (hp : Clients.Has b.clients_ p)
    (h : (Clients.at_ b.clients_ p).pending = true) (hx : b.publisher_ = none)
    (hq : b.queue_ ≠ []) : b.pending_wake p = (b.locked_sync p).transaction p := by
  rw [Bus.pending_wake_claim b p hx h hq]
  simp only [Clients.touch_attached _ _ hp]

theorem Bus.publish_pending (b : Bus) (p x : Nat) (e : Event) (hx : b.publisher_ = some x) :
    b.publish p e =
      (Bus.locked_sync ⟨b.sda_, b.scl_, b.sequence_,
        Clients.upsert b.clients_ p (fun c => { c with pending := true }), b.publisher_,
        b.queue_ ++ [Transaction.mk p e]⟩ p, PC.pendingWait) := by
  unfold Bus.publish
  simp only [hx, Option.isSome_some, if_true]
  exact Bus.pending_wake_wait _ p x (Clients.has_upsert_self _ _ _)
    (by simp [Clients.at_upsert_self]) rfl


theorem Clients.has_erase_ne (m : List (Nat × ClientState)) (k q : Nat) (hq : q ≠ k)
    (h : Clients.Has m q) : Clients.Has (Clients.erase m k) q := by
  unfold Clients.Has at h ⊢
  rw [Clients.find_erase, if_neg hq]
  exact h

theorem Clients.pending_erase_ne (m : List (Nat × ClientState)) (k q : Nat) (hq : q ≠ k)
    (h : Clients.Pending m q) : Clients.Pending (Clients.erase m k) q := by
  obtain ⟨c, h1, h2⟩ := h
  exact ⟨c, by rw [Clients.find_erase, if_neg hq]; exact h1, h2⟩

theorem Sys.coherent_attach (s : Sys) (p : Nat) (h : s.Coherent) (hseq : s.bus.sequence_ = 0) :
    (s.step (Action.attach p)).Coherent := by
  obtain ⟨hq, hpub⟩ := h.fresh hseq
  refine ⟨?_, ?_, ?_, ?_, Sys.barrierOwned_step s _ h.owned, h.fresh⟩
  · intro c hc
    rcases Clients.mem_upsert _ _ _ _ hc with h1 | h1
    · exact h.gap c h1
    · rw [h1]
      show (0 : Nat) ≤ s.bus.sequence_ ∧ s.bus.sequence_ ≤ 0 + 1
      omega
  · intro _ c hc
    rcases Clients.mem_upsert _ _ _ _ hc with h1 | h1
    · exact h.rest hpub c h1
    · rw [h1]
      exact hseq.symm
  · intro t ht
    have ht1 : t ∈ s.bus.queue_ := ht
    rw [hq] at ht1
    cases ht1
  · intro q hqi
    exact Clients.has_upsert _ _ _ _ (h.inside q hqi)

theorem Sys.coherent_detach (s : Sys) (p : Nat) (h : s.Coherent) (hpc : s.pc p = PC.idle) :
    (s.step (Action.detach p)).Coherent := by
  refine ⟨?_, ?_, ?_, ?_, Sys.barrierOwned_step s _ h.owned, h.fresh⟩
  · intro c hc
    exact h.gap c (Clients.mem_erase _ _ _ hc).1
  · intro hpub c hc
    exact h.rest hpub c (Clients.mem_erase _ _ _ hc).1
  · intro t ht
    obtain ⟨h1, h2⟩ := h.queued t ht
    have hne : t.node ≠ p := by
      intro e
      rw [e, hpc] at h1
      cases h1
    exact ⟨h1, Clients.pending_erase_ne _ _ _ hne h2⟩
  · intro q hqi
    have hne : q ≠ p := by
      intro e
      rw [e] at hqi
      exact hqi hpc
    exact Clients.has_erase_ne _ _ _ hne (h.inside q hqi)

theorem Sys.coherent_get (s : Sys) (p : Nat) (h : s.Coherent)
    (hp : Clients.Has s.bus.clients_ p) : (s.step (Action.get p)).Coherent := by
  cases hpc : s.pc p with
  | idle =>
    rw [Sys.step_get_idle s p hpc]
    have hf := Bus.locked_sync_frame s.bus p
    refine ⟨Bus.locked_sync_gap _ _ hp h.gap, ?_, ?_, ?_, ?_, ?_⟩
    · intro hpub
      have hs := h.rest (hf.2.2.2.1.symm.trans hpub)
      show (s.bus.locked_sync p).Sync
      rw [Bus.locked_sync_sync _ _ hp hs]
      exact hs
    · intro t ht
      have ht1 : t ∈ s.bus.queue_ := by
        rw [← hf.2.2.2.2]
        exact ht
      exact ⟨(h.queued t ht1).1, Bus.locked_sync_pending _ _ _ (h.queued t ht1).2⟩
    · intro q hqi
      exact Bus.locked_sync_has _ _ _ (h.inside q hqi)
    · intro q i hq
      exact hf.2.2.2.1.trans (h.owned q i hq)
    · intro h0
      have := h.fresh (hf.2.2.1.symm.trans h0)
      exact ⟨hf.2.2.2.2.trans this.1, hf.2.2.2.1.trans this.2⟩
  | pendingWait => rw [Sys.step_get_busy s p (by simp [hpc])]; exact h
  | barrierWait i => rw [Sys.step_get_busy s p (by simp [hpc])]; exact h


/-- The state after a transaction by `p` that started between transactions, with only
attached participants queued. -/
theorem Sys.coherent_transaction (s : Sys) (p : Nat) (b : Bus) (h : s.Coherent)
    (hsync : b.Sync) (hseq : b.sequence_ = s.bus.sequence_)
    (hall : ∀ t ∈ b.queue_, Clients.Has b.clients_ t.node)
    (hhas : ∀ q, Clients.Has s.bus.clients_ q → Clients.Has b.clients_ q)
    (hp : Clients.Has b.clients_ p) (hs : s.bus.publisher_ = none) :
    Sys.Coherent ⟨(b.transaction p).1, Sys.goto s.pc p (b.transaction p).2⟩ := by
  have hg := Bus.transaction_gap b p hsync hall
  have hd := Bus.transaction_drains b p
  have ho := Bus.transaction_outcome b p
  refine ⟨hg.1, hg.2, ?_, ?_, ?_, ?_⟩
  · intro t ht
    have ht1 : t ∈ (b.transaction p).1.queue_ := ht
    rw [hd.1] at ht1
    cases ht1
  · intro q hqi
    by_cases hqp : q = p
    · rw [hqp]
      exact Bus.transaction_has b p p hp
    · have hq1 : s.pc q ≠ PC.idle := by
        intro e
        apply hqi
        show Sys.goto s.pc p _ q = PC.idle
        rw [Sys.goto_ne _ _ _ _ hqp]
        exact e
      exact Bus.transaction_has b p q (hhas q (h.inside q hq1))
  · apply Sys.barrierOwned_goto s _ p _ h.owned
    rcases ho with ⟨h1, h2, _, _⟩ | ⟨i, _, _, h2, _⟩
    · exact Or.inr (Or.inl ⟨h2, Or.inl h1, Or.inl hs⟩)
    · exact Or.inr (Or.inr ⟨h2, Or.inl hs⟩)
  · intro h0
    have h1 : (b.transaction p).1.sequence_ = 0 := h0
    rcases ho with ⟨_, _, h3, _⟩ | ⟨i, hi, _, _, h3⟩
    · omega
    · rcases hi with rfl | rfl <;> omega

theorem Sys.coherent_set (s : Sys) (p : Nat) (e : Event) (h : s.Coherent)
    (hp : Clients.Has s.bus.clients_ p) : (s.step (Action.set p e)).Coherent := by
  cases hpc : s.pc p with
  | idle =>
    rw [Sys.step_set_idle s p e hpc]
    cases hpub : s.bus.publisher_ with
    | none =>
      rw [Bus.publish_claim s.bus p e hpub]
      apply Sys.coherent_transaction s p
        ⟨s.bus.sda_, s.bus.scl_, s.bus.sequence_, s.bus.clients_, s.bus.publisher_,
          s.bus.queue_ ++ [Transaction.mk p e]⟩ h (h.rest hpub) rfl ?_ (fun _ hq => hq) hp hpub
      intro t ht
      rcases List.mem_append.mp ht with h1 | h1
      · exact Clients.has_of_pending _ _ (h.queued t h1).2
      · rw [List.mem_singleton.mp h1]
        exact hp
    | some x =>
      rw [Bus.publish_pending s.bus p x e hpub]
      have hf := Bus.locked_sync_frame ⟨s.bus.sda_, s.bus.scl_, s.bus.sequence_,
        Clients.upsert s.bus.clients_ p (fun c => { c with pending := true }), s.bus.publisher_,
        s.bus.queue_ ++ [Transaction.mk p e]⟩ p
      refine ⟨?_, ?_, ?_, ?_, ?_, ?_⟩
      · apply Bus.locked_sync_gap _ _ (Clients.has_upsert_self _ _ _)
        exact Clients.forall_upsert_keep _ _ _
          (fun n => n ≤ s.bus.sequence_ ∧ s.bus.sequence_ ≤ n + 1) (fun _ => rfl) hp h.gap
      · intro hnone
        have h1 := hf.2.2.2.1.symm.trans hnone
        simp only at h1
        rw [hpub] at h1
        cases h1
      · intro t ht
        have ht1 : t ∈ s.bus.queue_ ++ [Transaction.mk p e] := by
          have := hf.2.2.2.2
          simp only at this
          rw [← this]
          exact ht
        rcases List.mem_append.mp ht1 with h1 | h1
        · obtain ⟨h2, h3⟩ := h.queued t h1
          have hne : t.node ≠ p := by
            intro e1
            rw [e1, hpc] at h2
            cases h2
          refine ⟨?_, Bus.locked_sync_pending _ _ _ (Clients.pending_upsert_ne _ _ _ _ hne h3)⟩
          show Sys.goto s.pc p _ t.node = PC.pendingWait
          rw [Sys.goto_ne _ _ _ _ hne]
          exact h2
        · rw [List.mem_singleton.mp h1]
          refine ⟨Sys.goto_self _ _ _, Bus.locked_sync_pending _ _ _ ?_⟩
          exact ⟨{ Clients.at_ s.bus.clients_ p with pending := true },
            by simp [Clients.find_upsert], rfl⟩
      · intro q hqi
        by_cases hqp : q = p
        · rw [hqp]
          exact Bus.locked_sync_has _ _ _ (Clients.has_upsert_self _ _ _)
        · have hq1 : s.pc q ≠ PC.idle := by
            intro e1
            apply hqi
            show Sys.goto s.pc p _ q = PC.idle
            rw [Sys.goto_ne _ _ _ _ hqp]
            exact e1
          exact Bus.locked_sync_has _ _ _ (Clients.has_upsert _ _ _ _ (h.inside q hq1))
      · apply Sys.barrierOwned_goto s _ p _ h.owned
        exact Or.inl ⟨hf.2.2.2.1, Or.inr rfl⟩
      · intro h0
        have h1 := h.fresh (hf.2.2.1.symm.trans h0)
        rw [hpub] at h1
        cases h1.2
  | pendingWait => rw [Sys.step_set_busy s p e (by simp [hpc])]; exact h
  | barrierWait i => rw [Sys.step_set_busy s p e (by simp [hpc])]; exact h


/-- A step of `p` that changes nothing in the kernel and leaves the thread of `p` blocked
where it was, or returns it when it has nothing queued. -/
theorem Sys.coherent_goto (s : Sys) (p : Nat) (c : PC) (h : s.Coherent)
    (hc : c = s.pc p ∨ (c = PC.idle ∧ ∀ t ∈ s.bus.queue_, t.node ≠ p)) :
    Sys.Coherent ⟨s.bus, Sys.goto s.pc p c⟩ := by
  refine ⟨h.gap, h.rest, ?_, ?_, ?_, h.fresh⟩
  · intro t ht
    obtain ⟨h1, h2⟩ := h.queued t ht
    refine ⟨?_, h2⟩
    show Sys.goto s.pc p c t.node = PC.pendingWait
    by_cases hne : t.node = p
    · rcases hc with hc | ⟨_, hc⟩
      · rw [hne, Sys.goto_self, hc, ← hne]
        exact h1
      · exact absurd hne (hc t ht)
    · rw [Sys.goto_ne _ _ _ _ hne]
      exact h1
  · intro q hqi
    apply h.inside
    intro e
    apply hqi
    show Sys.goto s.pc p c q = PC.idle
    by_cases hne : q = p
    · rcases hc with hc | ⟨hc, _⟩
      · rw [hne, Sys.goto_self, hc, ← hne]
        exact e
      · rw [hne, Sys.goto_self]
        exact hc
    · rw [Sys.goto_ne _ _ _ _ hne]
      exact e
  · intro q i hq
    apply h.owned q i
    have hq1 : Sys.goto s.pc p c q = PC.barrierWait i := hq
    by_cases hne : q = p
    · rcases hc with hc | ⟨hc, _⟩
      · rw [hne, Sys.goto_self, hc] at hq1
        rw [hne]
        exact hq1
      · rw [hne, Sys.goto_self, hc] at hq1
        cases hq1
    · rw [Sys.goto_ne _ _ _ _ hne] at hq1
      exact hq1

theorem Sys.coherent_wake_pending (s : Sys) (p : Nat) (h : s.Coherent)
    (hpc : s.pc p = PC.pendingWait) : (s.step (Action.wake p)).Coherent := by
  have hp : Clients.Has s.bus.clients_ p := h.inside p (by simp [hpc])
  rw [Sys.step_wake_pending s p hpc]
  cases hpend : (Clients.at_ s.bus.clients_ p).pending with
  | false =>
    rw [Bus.pending_wake_cleared s.bus p hp hpend]
    apply Sys.coherent_goto s p _ h
    right
    refine ⟨rfl, ?_⟩
    intro t ht hne
    have := Clients.pending_at _ _ (h.queued t ht).2
    rw [hne, hpend] at this
    cases this
  | true =>
    cases hpub : s.bus.publisher_ with
    | some x =>
      rw [Bus.pending_wake_wait s.bus p x hp hpend hpub]
      have hf := Bus.locked_sync_frame s.bus p
      refine ⟨Bus.locked_sync_gap _ _ hp h.gap, ?_, ?_, ?_, ?_, ?_⟩
      · intro hnone
        have h1 := hf.2.2.2.1.symm.trans hnone
        rw [hpub] at h1
        cases h1
      · intro t ht
        have ht1 : t ∈ s.bus.queue_ := by
          rw [← hf.2.2.2.2]
          exact ht
        obtain ⟨h2, h3⟩ := h.queued t ht1
        refine ⟨?_, Bus.locked_sync_pending _ _ _ h3⟩
        show Sys.goto s.pc p _ t.node = PC.pendingWait
        by_cases hne : t.node = p
        · rw [hne, Sys.goto_self]
        · rw [Sys.goto_ne _ _ _ _ hne]
          exact h2
      · intro q hqi
        by_cases hqp : q = p
        · rw [hqp]
          exact Bus.locked_sync_has _ _ _ hp
        · have hq1 : s.pc q ≠ PC.idle := by
            intro e1
            apply hqi
            show Sys.goto s.pc p _ q = PC.idle
            rw [Sys.goto_ne _ _ _ _ hqp]
            exact e1
          exact Bus.locked_sync_has _ _ _ (h.inside q hq1)
      · apply Sys.barrierOwned_goto s _ p _ h.owned
        exact Or.inl ⟨hf.2.2.2.1, Or.inr rfl⟩
      · intro h0
        have h1 := h.fresh (hf.2.2.1.symm.trans h0)
        rw [hpub] at h1
        cases h1.2
    | none =>
      have hs := h.rest hpub
      have hl := Bus.locked_sync_sync s.bus p hp hs
      by_cases hq : s.bus.queue_ = []
      · rw [Bus.pending_wake_empty s.bus p hp hpend hpub hq, hl]
        apply Sys.coherent_goto s p _ h
        right
        refine ⟨rfl, ?_⟩
        intro t ht
        rw [hq] at ht
        cases ht
      · rw [Bus.pending_wake_claim_attached s.bus p hp hpend hpub hq, hl]
        exact Sys.coherent_transaction s p s.bus h hs rfl
          (fun t ht => Clients.has_of_pending _ _ (h.queued t ht).2) (fun _ hq => hq) hp hpub

theorem Sys.coherent_wake_barrier (s : Sys) (p i : Nat) (h : s.Coherent)
    (hpc : s.pc p = PC.barrierWait i) : (s.step (Action.wake p)).Coherent := by
  have hp : Clients.Has s.bus.clients_ p := h.inside p (by simp [hpc])
  have hpub : s.bus.publisher_ = some p := h.owned p i hpc
  rw [Sys.step_wake_barrier s p i hpc]
  unfold Bus.barrier_wake
  by_cases hs : s.bus.all_clients_synchronized = true
  · rw [if_pos hs]
    have hg := Bus.barrier_loop_gap p (2 - i) s.bus ((Bus.all_sync_iff _).mp hs)
      (by rw [hpub]; simp)
    have hf := Bus.barrier_loop_frame p (2 - i) s.bus
    have hne : ∀ t ∈ s.bus.queue_, t.node ≠ p := by
      intro t ht e
      have := (h.queued t ht).1
      rw [e, hpc] at this
      cases this
    refine ⟨hg.1, hg.2, ?_, ?_, ?_, ?_⟩
    · intro t ht
      have ht1 : t ∈ s.bus.queue_ := by
        rw [← hf.2.2]
        exact ht
      obtain ⟨h2, h3⟩ := h.queued t ht1
      refine ⟨?_, Bus.barrier_loop_pending _ _ _ _ h3⟩
      show Sys.goto s.pc p _ t.node = PC.pendingWait
      rw [Sys.goto_ne _ _ _ _ (hne t ht1)]
      exact h2
    · intro q hqi
      by_cases hqp : q = p
      · rw [hqp]
        exact Bus.barrier_loop_has _ _ _ _ hp
      · have hq1 : s.pc q ≠ PC.idle := by
          intro e1
          apply hqi
          show Sys.goto s.pc p _ q = PC.idle
          rw [Sys.goto_ne _ _ _ _ hqp]
          exact e1
        exact Bus.barrier_loop_has _ _ _ _ (h.inside q hq1)
    · apply Sys.barrierOwned_goto s _ p _ h.owned
      rcases Bus.barrier_loop_outcome p (2 - i) s.bus with ⟨h1, h2, _⟩ | ⟨j, _, h2⟩
      · exact Or.inr (Or.inl ⟨h2, Or.inl h1, Or.inr hpub⟩)
      · exact Or.inr (Or.inr ⟨h2.trans hpub, Or.inr hpub⟩)
    · intro h0
      have h1 : (Bus.barrier_loop p (2 - i) s.bus).1.sequence_ = 0 := h0
      have h2 := Bus.barrier_loop_sequence p (2 - i) s.bus
      have h3 := h.fresh (by omega)
      rw [hpub] at h3
      cases h3.2
  · rw [if_neg hs]
    exact Sys.coherent_goto s p _ h (Or.inl hpc.symm)

/-- A step that follows the discipline keeps the kernel invariant. -/
theorem Sys.coherent_step (s : Sys) (a : Action) (h : s.Coherent)
    (hw : s.wellBehaved a = true) : (s.step a).Coherent := by
  cases a with
  | attach p => exact Sys.coherent_attach s p h (by simpa [Sys.wellBehaved] using hw)
  | detach p => exact Sys.coherent_detach s p h (by simpa [Sys.wellBehaved] using hw)
  | get p => exact Sys.coherent_get s p h hw
  | set p e => exact Sys.coherent_set s p e h hw
  | wake p =>
    cases hpc : s.pc p with
    | idle => rw [Sys.step_wake_idle s p hpc]; exact h
    | pendingWait => exact Sys.coherent_wake_pending s p h hpc
    | barrierWait i => exact Sys.coherent_wake_barrier s p i h hpc

theorem Sys.coherent_runs (s : Sys) (acts : List Action) (h : s.Coherent)
    (hd : s.disciplined acts = true) : (s.runs acts).Coherent := by
  induction acts generalizing s with
  | nil => exact h
  | cons a rest ih =>
    simp only [Sys.disciplined, Bool.and_eq_true] at hd
    exact ih (s.step a) (Sys.coherent_step s a h hd.1) hd.2

theorem Sys.coherent_init : Sys.init.Coherent := by
  refine ⟨?_, ?_, ?_, ?_, ?_, ?_⟩
  · intro c hc
    simp [Sys.init, Bus.init] at hc
  · intro _ c hc
    simp [Sys.init, Bus.init] at hc
  · intro t ht
    simp [Sys.init, Bus.init] at ht
  · intro p hp
    exact absurd rfl hp
  · intro q i hq
    cases hq
  · intro _
    exact ⟨rfl, rfl⟩

/-- C2 (as stated, refuted): after `attach(1)` and a complete `set(1, Delay)` the kernel
sequence is 2; `attach(2)` then enters client 2 with sequence 0, two epochs behind. -/
theorem C2_counterexample :
    (Sys.init.runs [Action.attach 1, Action.set 1 Event.Delay, Action.attach 2]).bus.sequence_
      = 2 ∧
    Clients.find
      (Sys.init.runs [Action.attach 1, Action.set 1 Event.Delay, Action.attach 2]).bus.clients_ 2
      = some ⟨0, false⟩ ∧
    ¬ ((Sys.init.runs [Action.attach 1, Action.set 1 Event.Delay,
        Action.attach 2]).bus.sequence_ - 0 ≤ 1) := by
  decide

/-- C2 (amended): in every state reachable from a freshly constructed bus by a run in which
every `attach` happens while the kernel sequence is still 0, `get` and `set` are called for
attached participants only, and no participant is detached while its `set` call is in
progress, every client `c` of the progress table satisfies
`0 ≤ kernel.sequence - c.sequence ≤ 1`. -/
theorem C2_sequence_gap (acts : List Action) (hd : Sys.init.disciplined acts = true) :
    ∀ c ∈ (Sys.init.runs acts).bus.clients_,
      c.2.sequence ≤ (Sys.init.runs acts).bus.sequence_ ∧
      (Sys.init.runs acts).bus.sequence_ - c.2.sequence ≤ 1 := by
  intro c hc
  have := (Sys.coherent_runs Sys.init acts Sys.coherent_init hd).gap c hc
  omega

/-- C2 (amended) on a run of three participants in which two of them call `set` while the
third publishes: the run follows the discipline, and client 1, at sequence 2, is one
epoch behind the kernel sequence 3. -/
theorem C2_sequence_gap_witness :
    Sys.init.disciplined [Action.attach 1, Action.attach 2, Action.attach 3,
      Action.set 1 Event.Delay, Action.set 2 Event.ClockLow, Action.set 3 Event.DataLow,
      Action.wake 1, Action.wake 2, Action.wake 3, Action.wake 1,
      Action.wake 2, Action.wake 3] = true ∧
    ((1, ClientState.mk 2 false) : Nat × ClientState) ∈
      (Sys.init.runs [Action.attach 1, Action.attach 2, Action.attach 3,
        Action.set 1 Event.Delay, Action.set 2 Event.ClockLow, Action.set 3 Event.DataLow,
        Action.wake 1, Action.wake 2, Action.wake 3, Action.wake 1,
        Action.wake 2, Action.wake 3]).bus.clients_ ∧
    (2 ≤ (Sys.init.runs [Action.attach 1, Action.attach 2, Action.attach 3,
        Action.set 1 Event.Delay, Action.set 2 Event.ClockLow, Action.set 3 Event.DataLow,
        Action.wake 1, Action.wake 2, Action.wake 3, Action.wake 1,
        Action.wake 2, Action.wake 3]).bus.sequence_ ∧
      (Sys.init.runs [Action.attach 1, Action.attach 2, Action.attach 3,
        Action.set 1 Event.Delay, Action.set 2 Event.ClockLow, Action.set 3 Event.DataLow,
        Action.wake 1, Action.wake 2, Action.wake 3, Action.wake 1,
        Action.wake 2, Action.wake 3]).bus.sequence_ - 2 ≤ 1) :=
  ⟨by decide, by decide,
    C2_sequence_gap [Action.attach 1, Action.attach 2, Action.attach 3,
      Action.set 1 Event.Delay, Action.set 2 Event.ClockLow, Action.set 3 Event.DataLow,
      Action.wake 1, Action.wake 2, Action.wake 3, Action.wake 1,
      Action.wake 2, Action.wake 3] (by decide) (1, ClientState.mk 2 false) (by decide)⟩

/-! ## Attaching twice, unknown handles, detaching -/

theorem Clients.erase_absent (m : List (Nat × ClientState)) (k : Nat)
    (h : Clients.find m k = none) : Clients.erase m k = m := by
  induction m with
  | nil => rfl
  | cons e rest ih =>
    obtain ⟨k1, v⟩ := e
    by_cases h1 : k1 = k
    · simp [Clients.find, h1] at h
    · have h2 : Clients.find rest k = none := by simpa [Clients.find, h1] using h
      rw [Clients.erase_cons, if_neg h1, ih h2]

/-- C11 (as stated, refuted): after `attach(1)` and a complete `set(1, Delay)` client 1
is at sequence 2; a second `attach(1)` does not fail, it puts the entry back to sequence 0,
so the kernel state is not the one before the call. -/
theorem C11_counterexample :
    Clients.find (Sys.init.runs [Action.attach 1, Action.set 1 Event.Delay]).bus.clients_ 1
      = some ⟨2, false⟩ ∧
    Clients.find
      ((Sys.init.runs [Action.attach 1, Action.set 1 Event.Delay]).bus.attach 1).clients_ 1
      = some ⟨0, false⟩ ∧
    (Sys.init.runs [Action.attach 1, Action.set 1 Event.Delay]).bus.attach 1 ≠
      (Sys.init.runs [Action.attach 1, Action.set 1 Event.Delay]).bus := by
  decide

/-- C11 (amended): `attach(p)` for a handle `p` that is already in the progress table does
not fail: it overwrites the entry of `p` with sequence 0 and pending false and leaves every
other entry, the lines, the kernel sequence, the queue and the publisher slot unchanged. -/
theorem C11_attach_present (b : Bus) (p : Nat) (c : ClientState)
    (h : Clients.find b.clients_ p = some c) :
    Clients.find (b.attach p).clients_ p = some ⟨0, false⟩ ∧
    (∀ q, q ≠ p → Clients.find (b.attach p).clients_ q = Clients.find b.clients_ q) ∧
    (b.attach p).clients_.map Prod.fst = b.clients_.map Prod.fst ∧
    (b.attach p).sda_ = b.sda_ ∧ (b.attach p).scl_ = b.scl_ ∧
    (b.attach p).sequence_ = b.sequence_ ∧ (b.attach p).queue_ = b.queue_ ∧
    (b.attach p).publisher_ = b.publisher_ := by
  refine ⟨?_, ?_, ?_, rfl, rfl, rfl, rfl, rfl⟩
  · simp [Bus.attach, Clients.find_upsert]
    rfl
  · intro q hq
    simp [Bus.attach, Clients.find_upsert, hq]
  · show (Clients.upsert b.clients_ p (fun _ => default)).map Prod.fst = b.clients_.map Prod.fst
    generalize b.clients_ = m at h
    induction m with
    | nil => simp [Clients.find] at h
    | cons e rest ih =>
      obtain ⟨k1, v⟩ := e
      by_cases h1 : k1 = p
      · simp [Clients.upsert, h1]
      · have h2 : Clients.find rest p = some c := by simpa [Clients.find, h1] using h
        simp [Clients.upsert, h1, ih h2]

/-- C11 (amended) at a pending participant that is one epoch behind. -/
theorem C11_attach_present_witness :
    Clients.find (Bus.mk Line.init Line.init 3 [(1, ⟨3, false⟩), (2, ⟨2, true⟩)] (some 1)
      [Transaction.mk 2 Event.DataLow]).clients_ 2 = some ⟨2, true⟩ ∧
    Clients.find ((Bus.mk Line.init Line.init 3 [(1, ⟨3, false⟩), (2, ⟨2, true⟩)] (some 1)
      [Transaction.mk 2 Event.DataLow]).attach 2).clients_ 2 = some ⟨0, false⟩ :=
  ⟨by decide, (C11_attach_present (Bus.mk Line.init Line.init 3
    [(1, ⟨3, false⟩), (2, ⟨2, true⟩)] (some 1) [Transaction.mk 2 Event.DataLow]) 2 ⟨2, true⟩
    (by decide)).1⟩

/-- C12 (as stated, refuted): on a freshly constructed bus handle 1 is not attached;
`get(1)` returns the two levels and leaves an entry for 1 behind, and `set(1, DataLow)`
completes, pulls SDA low and leaves an entry for 1 behind. -/
theorem C12_counterexample :
    Clients.find Bus.init.clients_ 1 = none ∧
    Clients.find (Bus.init.sync 1).1.clients_ 1 = some ⟨0, false⟩ ∧
    (Bus.init.sync 1).2 = (Level.High, Level.High) ∧
    Clients.find (Bus.init.publish 1 Event.DataLow).1.clients_ 1 = some ⟨2, false⟩ ∧
    (Bus.init.publish 1 Event.DataLow).1.sda_.low_ = {1} ∧
    (Bus.init.publish 1 Event.DataLow).2 = PC.idle := by
  decide

/-- C12 (amended): for a handle `p` that is not in the progress table none of the three
calls fails.  `detach(p)` leaves the kernel state unchanged.  `get(p)` creates the entry of
`p`, at sequence 1 if the kernel sequence is positive and 0 otherwise, with pending false,
and changes nothing else.  `set(p, e)` runs as for an attached participant and leaves an
entry for `p` in the progress table. -/
theorem C12_unknown_handle (b : Bus) (p : Nat) (e : Event)
    (h : Clients.find b.clients_ p = none) :
    b.detach p = b ∧
    Clients.find (b.sync p).1.clients_ p =
      some ⟨if 0 < b.sequence_ then 1 else 0, false⟩ ∧
    (∀ q, q ≠ p → Clients.find (b.sync p).1.clients_ q = Clients.find b.clients_ q) ∧
    (b.sync p).1.sda_ = b.sda_ ∧ (b.sync p).1.scl_ = b.scl_ ∧
    (b.sync p).1.sequence_ = b.sequence_ ∧ (b.sync p).1.queue_ = b.queue_ ∧
    (b.sync p).1.publisher_ = b.publisher_ ∧
    Clients.Has (b.publish p e).1.clients_ p := by
  have hat : Clients.at_ b.clients_ p = ⟨0, false⟩ := by
    simp [Clients.at_, h]
    rfl
  have hf := Bus.locked_sync_frame b p
  refine ⟨?_, ?_, ?_, hf.1, hf.2.1, hf.2.2.1, hf.2.2.2.2, hf.2.2.2.1, ?_⟩
  · show ({ b with clients_ := Clients.erase b.clients_ p } : Bus) = b
    rw [Clients.erase_absent _ _ h]
  · show Clients.find (b.locked_sync p).clients_ p = _
    unfold Bus.locked_sync
    by_cases hlt : 0 < b.sequence_
    · simp [hat, hlt, Clients.find_upsert]
    · simp [hat, hlt, Clients.find_upsert, Clients.touch]
  · intro q hq
    show Clients.find (b.locked_sync p).clients_ q = _
    unfold Bus.locked_sync
    split <;> simp [Clients.find_upsert, Clients.touch, hq]
  · cases hpub : b.publisher_ with
    | some x =>
      rw [Bus.publish_pending b p x e hpub]
      exact Bus.locked_sync_has _ _ _ (Clients.has_upsert_self _ _ _)
    | none =>
      rw [Bus.publish_claim b p e hpub]
      unfold Bus.transaction
      apply Bus.barrier_loop_has
      rw [Bus.drain_eq]
      simp only [List.foldl_append, List.foldl_cons, List.foldl_nil]
      rw [(Bus.drainStep_frame _ _).2.2.2.2.2]
      exact Clients.has_upsert_self _ _ _

/-- C12 (amended) on a kernel at sequence 2 with client 1 attached and handle 7 unknown. -/
theorem C12_unknown_handle_witness :
    (Bus.mk Line.init Line.init 2 [(1, ⟨2, false⟩)] none []).detach 7 =
      Bus.mk Line.init Line.init 2 [(1, ⟨2, false⟩)] none [] ∧
    Clients.find ((Bus.mk Line.init Line.init 2 [(1, ⟨2, false⟩)] none []).sync 7).1.clients_ 7
      = some ⟨1, false⟩ :=
  ⟨(C12_unknown_handle (Bus.mk Line.init Line.init 2 [(1, ⟨2, false⟩)] none []) 7
      Event.Delay (by decide)).1,
   (C12_unknown_handle (Bus.mk Line.init Line.init 2 [(1, ⟨2, false⟩)] none []) 7
      Event.Delay (by decide)).2.1⟩

/-- C13 (as stated, refuted): participant 1 is attached and pulls SDA low; after
`detach(1)` it is gone from the progress table but still in the low-set of SDA, and the
line, which only 1 was pulling low, still reads `Low`. -/
theorem C13_counterexample :
    Clients.find (Sys.init.runs [Action.attach 1, Action.set 1 Event.DataLow]).bus.clients_ 1
      = some ⟨2, false⟩ ∧
    (Sys.init.runs [Action.attach 1, Action.set 1 Event.DataLow]).bus.sda_.low_ = {1} ∧
    Clients.find (Sys.init.runs [Action.attach 1, Action.set 1 Event.DataLow,
      Action.detach 1]).bus.clients_ 1 = none ∧
    (Sys.init.runs [Action.attach 1, Action.set 1 Event.DataLow,
      Action.detach 1]).bus.sda_.low_ = {1} ∧
    (Sys.init.runs [Action.attach 1, Action.set 1 Event.DataLow,
      Action.detach 1]).bus.sda_.get = Level.Low := by
  decide

/-- C13 (amended): after `detach(p)` the handle `p` is no longer in the progress table;
the low-sets of SDA and SCL are what they were before the call, so a line that `p` was
pulling low still reads as before; every other entry, the kernel sequence, the queue and
the publisher slot are unchanged. -/
theorem C13_detach_entry_only (b : Bus) (p : Nat) :
    Clients.find (b.detach p).clients_ p = none ∧
    (b.detach p).sda_.low_ = b.sda_.low_ ∧ (b.detach p).scl_.low_ = b.scl_.low_ ∧
    (b.detach p).sda_.get = b.sda_.get ∧ (b.detach p).scl_.get = b.scl_.get ∧
    (∀ q, q ≠ p → Clients.find (b.detach p).clients_ q = Clients.find b.clients_ q) ∧
    (b.detach p).sequence_ = b.sequence_ ∧ (b.detach p).queue_ = b.queue_ ∧
    (b.detach p).publisher_ = b.publisher_ := by
  refine ⟨?_, rfl, rfl, rfl, rfl, ?_, rfl, rfl, rfl⟩
  · simp [Bus.detach, Clients.find_erase]
  · intro q hq
    simp [Bus.detach, Clients.find_erase, hq]

/-! ## One publisher at a time -/

/-- A step that leaves the publisher slot holding `p` found the slot empty or already
holding `p`. -/
theorem Sys.step_publisher (s : Sys) (a : Action) (p : Nat)
    (h : (s.step a).bus.publisher_ = some p) :
    s.bus.publisher_ = none ∨ s.bus.publisher_ = some p := by
  cases hpub : s.bus.publisher_ with
  | none => exact Or.inl rfl
  | some x =>
    right
    cases a with
    | attach q => exact hpub.symm.trans h
    | detach q => exact hpub.symm.trans h
    | get q =>
      cases hq : s.pc q with
      | idle =>
        rw [Sys.step_get_idle s q hq] at h
        exact hpub.symm.trans (((Bus.locked_sync_frame s.bus q).2.2.2.1).symm.trans h)
      | pendingWait => rw [Sys.step_get_busy s q (by simp [hq])] at h; exact hpub.symm.trans h
      | barrierWait i => rw [Sys.step_get_busy s q (by simp [hq])] at h; exact hpub.symm.trans h
    | set q e =>
      cases hq : s.pc q with
      | idle =>
        rw [Sys.step_set_idle s q e hq] at h
        exact hpub.symm.trans (((Bus.publish_busy s.bus q x e hpub).2.2.2.1).symm.trans h)
      | pendingWait => rw [Sys.step_set_busy s q e (by simp [hq])] at h; exact hpub.symm.trans h
      | barrierWait i => rw [Sys.step_set_busy s q e (by simp [hq])] at h; exact hpub.symm.trans h
    | wake q =>
      cases hq : s.pc q with
      | idle => rw [Sys.step_wake_idle s q hq] at h; exact hpub.symm.trans h
      | pendingWait =>
        rw [Sys.step_wake_pending s q hq] at h
        exact hpub.symm.trans (((Bus.pending_wake_busy s.bus q x hpub).2.2.2.1).symm.trans h)
      | barrierWait i =>
        rw [Sys.step_wake_barrier s q i hq] at h
        rcases Bus.barrier_wake_outcome s.bus q i with ⟨_, h2, _⟩ | ⟨j, _, h2⟩
        · rw [h2] at h
          cases h
        · exact hpub.symm.trans (h2.symm.trans h)

/-- C14: a step that sets the publisher slot to `p` is taken only from a state in which
the slot is empty; and in every reachable state at most one participant is between
claiming and releasing the publisher role (blocked in the barrier), and it is the one the
slot names. -/
theorem C14_single_publisher (s : Sys) (hr : s.Reachable) :
    (∀ a p, (s.step a).bus.publisher_ = some p → s.bus.publisher_ ≠ some p →
      s.bus.publisher_ = none) ∧
    (∀ p q i j, s.pc p = PC.barrierWait i → s.pc q = PC.barrierWait j → p = q) ∧
    (∀ p i, s.pc p = PC.barrierWait i → s.bus.publisher_ = some p) := by
  have hown := Sys.barrierOwned_of_reachable s hr
  refine ⟨?_, ?_, hown⟩
  · intro a p h hne
    rcases Sys.step_publisher s a p h with h1 | h1
    · exact h1
    · exact absurd h1 hne
  · intro p q i j hp hq
    have h1 := hown p i hp
    have h2 := hown q j hq
    rw [h1] at h2
    exact Option.some.inj h2

/-- C14 on a run in which 2 and 3 call `set` while 1 publishes: when 1 has released, the
wake-up of 2 sets the slot to 2, from the empty slot; 3 is not in the barrier. -/
theorem C14_single_publisher_witness :
    ((Sys.init.runs [Action.attach 1, Action.attach 2, Action.attach 3,
      Action.set 1 Event.Delay, Action.set 2 Event.ClockLow, Action.set 3 Event.DataLow,
      Action.wake 1, Action.wake 2, Action.wake 3, Action.wake 1]).step
        (Action.wake 2)).bus.publisher_ = some 2 ∧
    (Sys.init.runs [Action.attach 1, Action.attach 2, Action.attach 3,
      Action.set 1 Event.Delay, Action.set 2 Event.ClockLow, Action.set 3 Event.DataLow,
      Action.wake 1, Action.wake 2, Action.wake 3, Action.wake 1]).bus.publisher_ = none :=
  ⟨by decide,
   (C14_single_publisher (Sys.init.runs [Action.attach 1, Action.attach 2, Action.attach 3,
      Action.set 1 Event.Delay, Action.set 2 Event.ClockLow, Action.set 3 Event.DataLow,
      Action.wake 1, Action.wake 2, Action.wake 3, Action.wake 1]) ⟨_, rfl⟩).1
      (Action.wake 2) 2 (by decide) (by decide)⟩

/-! ## The participant facade -/

/-- C16: every drive of the facade is one `set` of the kernel with the facade's own
handle: `sda(Low)` emits `DataLow`, `sda(High)` emits `DataHigh`, `scl(Low)` emits
`ClockLow`, `scl(High)` emits `ClockHigh` and `delay()` emits `Delay`; the sampling
operations return the SDA and the SCL component of the kernel's `get` for that handle,
with the kernel state that `get` leaves. -/
theorem C16_facade_events (n : Node) (b : Bus) :
    n.sdaDrive Level.Low = Action.set n.parent_ Event.DataLow ∧
    n.sdaDrive Level.High = Action.set n.parent_ Event.DataHigh ∧
    n.sclDrive Level.Low = Action.set n.parent_ Event.ClockLow ∧
    n.sclDrive Level.High = Action.set n.parent_ Event.ClockHigh ∧
    n.delay = Action.set n.parent_ Event.Delay ∧
    (∀ level, n.sdaDrive level = Action.set n.parent_ (Node.sdaEvent level)) ∧
    (∀ level, n.sclDrive level = Action.set n.parent_ (Node.sclEvent level)) ∧
    (n.sda b).2 = (b.sync n.parent_).2.1 ∧ (n.scl b).2 = (b.sync n.parent_).2.2 ∧
    (n.sda b).2 = b.sda_.get ∧ (n.scl b).2 = b.scl_.get ∧
    (n.sda b).1 = (b.sync n.parent_).1 ∧ (n.scl b).1 = (b.sync n.parent_).1 := by
  have hf := Bus.locked_sync_frame b n.parent_
  refine ⟨rfl, rfl, rfl, rfl, rfl, ?_, ?_, rfl, rfl, ?_, ?_, rfl, rfl⟩
  · intro level
    cases level <;> rfl
  · intro level
    cases level <;> rfl
  · show (b.locked_sync n.parent_).sda_.get = b.sda_.get
    rw [hf.1]
  · show (b.locked_sync n.parent_).scl_.get = b.scl_.get
    rw [hf.2.1]

/-! ## The controller against its samples -/

theorem ControllerBase.clock_stretching_returns (env : Samples) (fuel : Nat) (c : Ctl)
    (h : ∃ j, j < fuel ∧ env.scl (c.sclReads + j) = Level.High) :
    ∃ n, ControllerBase.clock_stretching env fuel c = some { c with sclReads := n } := by
  induction fuel generalizing c with
  | zero =>
    obtain ⟨j, hj, _⟩ := h
    omega
  | succ fuel ih =>
    unfold ControllerBase.clock_stretching
    by_cases hl : env.scl c.sclReads = Level.Low
    · rw [if_pos hl]
      obtain ⟨j, hj, hh⟩ := h
      cases j with
      | zero =>
        rw [Nat.add_zero, hl] at hh
        cases hh
      | succ j =>
        obtain ⟨n, hn⟩ := ih { c with sclReads := c.sclReads + 1 }
          ⟨j, by omega, by rw [← hh]; congr 1; simp only; omega⟩
        exact ⟨n, hn⟩
    · rw [if_neg hl]
      exact ⟨_, rfl⟩

theorem ControllerBase.clock_stretching_released (env : Samples) (fuel : Nat) (c : Ctl)
    (h : env.Released fuel) :
    ∃ n, ControllerBase.clock_stretching env fuel c = some { c with sclReads := n } :=
  ControllerBase.clock_stretching_returns env fuel c (h c.sclReads)

theorem ControllerBase.write_bit_spec (env : Samples) (fuel : Nat) (bit : Level) (c : Ctl)
    (h : env.Released fuel) :
    ∃ n, ControllerBase.write_bit env fuel bit c =
      some ⟨c.started_, c.sdaReads, n,
        c.emitted ++ [Node.sdaEvent bit, Event.Delay, Event.ClockHigh, Event.Delay,
          Event.ClockLow]⟩ := by
  obtain ⟨n, hn⟩ := ControllerBase.clock_stretching_released env fuel
    ((((c.emit (Node.sdaEvent bit)).emit Event.Delay).emit (Node.sclEvent Level.High)).emit
      Event.Delay) h
  refine ⟨n, ?_⟩
  unfold ControllerBase.write_bit
  rw [hn]
  simp [Ctl.emit, Node.sclEvent]

theorem ControllerBase.read_bit_spec (env : Samples) (fuel : Nat) (c : Ctl)
    (h : env.Released fuel) :
    ∃ n, ControllerBase.read_bit env fuel c =
      some (env.sda c.sdaReads, ⟨c.started_, c.sdaReads + 1, n,
        c.emitted ++ [Event.DataHigh, Event.Delay, Event.ClockHigh, Event.Delay,
          Event.ClockLow]⟩) := by
  obtain ⟨n, hn⟩ := ControllerBase.clock_stretching_released env fuel
    (((c.emit (Node.sdaEvent Level.High)).emit Event.Delay).emit (Node.sclEvent Level.High)) h
  refine ⟨n, ?_⟩
  unfold ControllerBase.read_bit
  rw [hn]
  simp [Ctl.emit, Node.sclEvent, Node.sdaEvent]

theorem ControllerBase.write_stop_condition_spec (env : Samples) (fuel : Nat) (c : Ctl)
    (h : env.Released fuel) :
    ∃ n, ControllerBase.write_stop_condition env fuel c =
      some ⟨false, c.sdaReads, n,
        c.emitted ++ [Event.DataLow, Event.Delay, Event.ClockHigh, Event.Delay,
          Event.DataHigh, Event.Delay]⟩ := by
  obtain ⟨n, hn⟩ := ControllerBase.clock_stretching_released env fuel
    (((c.emit (Node.sdaEvent Level.Low)).emit Event.Delay).emit (Node.sclEvent Level.High)) h
  refine ⟨n, ?_⟩
  unfold ControllerBase.write_stop_condition
  rw [hn]
  simp [Ctl.emit, Node.sclEvent, Node.sdaEvent]

/-- The loop of `read` returns the octet accumulated from the next `n` SDA samples. -/
theorem ControllerBase.read_bits_spec (env : Samples) (fuel n octet : Nat) (c : Ctl)
    (h : env.Released fuel) :
    ∃ c1, ControllerBase.read_bits env fuel n octet c =
        some (((List.range n).map (fun k => env.sda (c.sdaReads + k))).foldl
          (fun o level => if level = Level.High then (o <<< 1) % 256 ||| 1 else (o <<< 1) % 256)
          octet, c1) ∧
      c1.sdaReads = c.sdaReads + n ∧ c1.started_ = c.started_ := by
  induction n generalizing octet c with
  | zero => exact ⟨c, rfl, rfl, rfl⟩
  | succ n ih =>
    obtain ⟨m, hm⟩ := ControllerBase.read_bit_spec env fuel c h
    obtain ⟨c1, h1, h2, h3⟩ := ih
      (if env.sda c.sdaReads = Level.High then (octet <<< 1) % 256 ||| 1 else (octet <<< 1) % 256)
      ⟨c.started_, c.sdaReads + 1, m,
        c.emitted ++ [Event.DataHigh, Event.Delay, Event.ClockHigh, Event.Delay,
          Event.ClockLow]⟩
    refine ⟨c1, ?_, by rw [h2]; simp only; omega, h3⟩
    unfold ControllerBase.read_bits
    rw [hm]
    simp only [Option.some_bind]
    rw [h1, List.range_succ_eq_map]
    simp only [List.map_cons, List.map_map, List.foldl_cons, Nat.add_zero]
    congr 3
    apply List.map_congr_left
    intro k _
    simp only [Function.comp]
    congr 1
    omega

theorem sdaLevels_append (xs ys : List Event) :
    sdaLevels (xs ++ ys) = sdaLevels xs ++ sdaLevels ys := by
  induction xs with
  | nil => rfl
  | cons e rest ih =>
    cases e <;> simp [sdaLevels, ih]

theorem sdaLevels_write_bit (bit : Level) :
    sdaLevels [Node.sdaEvent bit, Event.Delay, Event.ClockHigh, Event.Delay, Event.ClockLow]
      = [bit] := by
  cases bit <;> rfl

/-- The loop of `write` sets, among its events, exactly the SDA levels `write_levels`. -/
theorem ControllerBase.write_bits_spec (env : Samples) (fuel n octet : Nat) (c : Ctl)
    (h : env.Released fuel) :
    ∃ c1, ControllerBase.write_bits env fuel n octet c = some c1 ∧
      c1.sdaReads = c.sdaReads ∧ c1.started_ = c.started_ ∧
      sdaLevels c1.emitted = sdaLevels c.emitted ++ ControllerBase.write_levels n octet := by
  induction n generalizing octet c with
  | zero => exact ⟨c, rfl, rfl, rfl, by simp [ControllerBase.write_levels]⟩
  | succ n ih =>
    obtain ⟨m, hm⟩ := ControllerBase.write_bit_spec env fuel (ControllerBase.topBit octet) c h
    obtain ⟨c1, h1, h2, h3, h4⟩ := ih ((octet <<< 1) % 256)
      ⟨c.started_, c.sdaReads, m,
        c.emitted ++ [Node.sdaEvent (ControllerBase.topBit octet), Event.Delay,
          Event.ClockHigh, Event.Delay, Event.ClockLow]⟩
    refine ⟨c1, ?_, h2, h3, ?_⟩
    · unfold ControllerBase.write_bits
      rw [hm]
      exact h1
    · rw [h4, sdaLevels_append, sdaLevels_write_bit]
      simp [ControllerBase.write_levels]

/-! ## Octets on the wire -/

set_option maxRecDepth 100000 in
theorem TargetBase.accumulate_write_levels :
    ∀ x, x < 256 → TargetBase.accumulate (TargetBase.write_levels 8 x) = x := by
  decide

set_option maxRecDepth 100000 in
theorem TargetBase.accumulate_controller_levels :
    ∀ x, x < 256 → TargetBase.accumulate (ControllerBase.write_levels 8 x) = x := by
  decide

set_option maxRecDepth 100000 in
theorem TargetBase.write_levels_bits :
    ∀ x, x < 256 → TargetBase.write_levels 8 x = (List.range 8).map
      (fun k => if x / 2 ^ (7 - k) % 2 = 1 then Level.High else Level.Low) := by
  decide

theorem ControllerBase.read_spec (env : Samples) (fuel flags : Nat) (c : Ctl)
    (h : env.Released fuel) :
    ∃ c1, ControllerBase.read env fuel flags c =
        some (TargetBase.accumulate ((List.range 8).map (fun k => env.sda (c.sdaReads + k))),
          c1) ∧
      c1.sdaReads = c.sdaReads + 8 := by
  obtain ⟨c1, h1, h2, _⟩ := ControllerBase.read_bits_spec env fuel 8 0 c h
  obtain ⟨m, hm⟩ := ControllerBase.write_bit_spec env fuel
    (if flags &&& ControllerBase.flagBit0 ≠ 0 then Level.High else Level.Low) c1 h
  unfold ControllerBase.read
  rw [h1]
  simp only [Option.some_bind]
  rw [hm]
  simp only [Option.some_bind]
  by_cases hf : flags &&& ControllerBase.flagBit1 ≠ 0
  · obtain ⟨k, hk⟩ := ControllerBase.write_stop_condition_spec env fuel
      ⟨c1.started_, c1.sdaReads, m, c1.emitted ++
        [Node.sdaEvent (if flags &&& ControllerBase.flagBit0 ≠ 0 then Level.High else Level.Low),
          Event.Delay, Event.ClockHigh, Event.Delay, Event.ClockLow]⟩ h
    rw [if_pos hf, hk]
    exact ⟨_, rfl, h2⟩
  · rw [if_neg hf]
    exact ⟨_, rfl, h2⟩

theorem Target.tx_data_eq (a n : Nat) : Target.tx_data a n = (a * 16 + n) % 256 := by
  induction n with
  | zero => simp [Target.tx_data, Nat.shiftLeft_eq]
  | succ n ih =>
    rw [Target.tx_data, ih]
    omega

set_option maxRecDepth 100000 in
theorem TargetBase.address_octet_facts :
    ∀ a, a < 128 → ∀ rw, rw < 2 →
      (a <<< 1 ||| rw) >>> 1 = a ∧ (a <<< 1 ||| rw) % 2 = rw ∧ (a <<< 1 ||| rw) < 256 := by
  decide

/-- C20: `address_match(o)` holds exactly when `o >> 1` is the target's address and
`read_operation(o)` exactly when the least significant bit of `o` is 1; so for a 7-bit
address `a` and `rw` in {0, 1} the octet `(a << 1) | rw`, which fits in eight bits, is
matched by the target with address `a` and by no target with another address `b`, and it
is a read operation exactly when `rw` is 1. -/
theorem C20_address_match (a o rw b : Nat) (ha : a < 0x80) (hrw : rw ≤ 1) :
    (TargetBase.address_match a o = true ↔ o >>> 1 = a) ∧
    (TargetBase.read_operation o = true ↔ o % 2 = 1) ∧
    (a <<< 1 ||| rw) < 256 ∧
    TargetBase.address_match a (a <<< 1 ||| rw) = true ∧
    (TargetBase.address_match b (a <<< 1 ||| rw) = true ↔ b = a) ∧
    (TargetBase.read_operation (a <<< 1 ||| rw) = true ↔ rw = 1) := by
  have hall := TargetBase.address_octet_facts a ha rw (Nat.lt_succ_of_le hrw)
  have hshift : (a <<< 1 ||| rw) >>> 1 = a := hall.1
  have hbit : (a <<< 1 ||| rw) % 2 = rw := hall.2.1
  have hlt : (a <<< 1 ||| rw) < 256 := hall.2.2
  refine ⟨?_, ?_, hlt, ?_, ?_, ?_⟩
  · simp [TargetBase.address_match]
  · simp [TargetBase.read_operation, Nat.and_one_is_mod]
  · simp [TargetBase.address_match, hshift]
  · simp only [TargetBase.address_match, hshift, decide_eq_true_eq]
    exact eq_comm
  · simp only [TargetBase.read_operation, Nat.and_one_is_mod, hbit]
    constructor
    · intro h
      simp at h
      omega
    · intro h
      simp [h]

/-- C20 for the address `0x51` written by the test `test_write_simple`. -/
theorem C20_address_match_witness :
    TargetBase.address_match 0x51 0xA2 = true ∧ TargetBase.address_match 0x52 0xA2 = false ∧
    TargetBase.read_operation 0xA2 = false :=
  ⟨(C20_address_match 0x51 0xA2 0 0x52 (by decide) (by decide)).2.2.2.1, by decide, by decide⟩

/-! ## One entry per handle -/

theorem Clients.keys_upsert (m : List (Nat × ClientState)) (k : Nat)
    (f : ClientState → ClientState) :
    Clients.keys (Clients.upsert m k f) =
      if k ∈ Clients.keys m then Clients.keys m else Clients.keys m ++ [k] := by
  induction m with
  | nil => simp [Clients.keys, Clients.upsert]
  | cons e rest ih =>
    obtain ⟨k1, v⟩ := e
    by_cases h1 : k1 = k
    · simp [Clients.keys, Clients.upsert, h1]
    · have h2 : ¬ k = k1 := fun e => h1 e.symm
      have ih1 : List.map Prod.fst (Clients.upsert rest k f) =
          if k ∈ List.map Prod.fst rest then List.map Prod.fst rest
          else List.map Prod.fst rest ++ [k] := ih
      simp only [Clients.keys, Clients.upsert, h1, if_false, List.map_cons, List.mem_cons, h2,
        false_or, ih1]
      split <;> simp

theorem Clients.mem_keys_iff (m : List (Nat × ClientState)) (k : Nat) :
    k ∈ Clients.keys m ↔ Clients.Has m k := by
  induction m with
  | nil => simp [Clients.keys, Clients.Has, Clients.find]
  | cons e rest ih =>
    obtain ⟨k1, v⟩ := e
    by_cases h1 : k1 = k
    · simp [Clients.keys, Clients.Has, Clients.find, h1]
    · have h2 : ¬ k = k1 := fun e => h1 e.symm
      have ih1 : k ∈ List.map Prod.fst rest ↔ Clients.Has rest k := ih
      simp only [Clients.keys, List.map_cons, List.mem_cons, h2, false_or, ih1]
      simp [Clients.Has, Clients.find, h1]

theorem Clients.keys_upsert_attached (m : List (Nat × ClientState)) (k : Nat)
    (f : ClientState → ClientState) (h : Clients.Has m k) :
    Clients.keys (Clients.upsert m k f) = Clients.keys m := by
  rw [Clients.keys_upsert, if_pos ((Clients.mem_keys_iff m k).mpr h)]

theorem Clients.distinct_upsert (m : List (Nat × ClientState)) (k : Nat)
    (f : ClientState → ClientState) (h : Clients.Distinct m) :
    Clients.Distinct (Clients.upsert m k f) := by
  unfold Clients.Distinct at h ⊢
  rw [Clients.keys_upsert]
  split
  · exact h
  · rename_i hk
    exact List.Nodup.append h (List.nodup_singleton k) (by simpa using hk)

theorem Clients.distinct_erase (m : List (Nat × ClientState)) (k : Nat)
    (h : Clients.Distinct m) : Clients.Distinct (Clients.erase m k) := by
  unfold Clients.Distinct Clients.keys Clients.erase at *
  exact (List.Nodup.sublist (List.Sublist.map _ (List.filter_sublist _)) h)

theorem Clients.find_of_mem_distinct (m : List (Nat × ClientState)) (e : Nat × ClientState)
    (h : Clients.Distinct m) (he : e ∈ m) : Clients.find m e.1 = some e.2 := by
  induction m with
  | nil => simp at he
  | cons e1 rest ih =>
    obtain ⟨k1, v1⟩ := e1
    have hn : k1 ∉ Clients.keys rest ∧ Clients.Distinct rest := by
      simpa [Clients.Distinct, Clients.keys] using h
    rcases List.mem_cons.mp he with h1 | h1
    · rw [h1]
      simp [Clients.find]
    · have hk : e.1 ∈ Clients.keys rest := List.mem_map_of_mem _ h1
      have hne : k1 ≠ e.1 := by
        intro e2
        rw [e2] at hn
        exact hn.1 hk
      simp only [Clients.find, hne, if_false]
      exact ih hn.2 h1

/-- A property of the progress table that no assignment through `clients_[k]` and no
`erase` can break holds after the barrier loop. -/
theorem Bus.barrier_loop_table (P : List (Nat × ClientState) → Prop)
    (hu : ∀ m k f, P m → P (Clients.upsert m k f)) (node r : Nat) (b : Bus)
    (h : P b.clients_) : P (Bus.barrier_loop node r b).1.clients_ := by
  induction r generalizing b with
  | zero => exact h
  | succ r ih =>
    unfold Bus.barrier_loop
    by_cases hs : (b.advance node).all_clients_synchronized = true
    · rw [if_pos hs]
      exact ih _ (hu _ _ _ h)
    · rw [if_neg hs]
      exact hu _ _ _ h

theorem Bus.locked_sync_table (P : List (Nat × ClientState) → Prop)
    (hu : ∀ m k f, P m → P (Clients.upsert m k f)) (b : Bus) (node : Nat)
    (h : P b.clients_) : P (b.locked_sync node).clients_ := by
  unfold Bus.locked_sync
  split
  · exact hu _ _ _ h
  · exact hu _ _ _ h

theorem Bus.transaction_table (P : List (Nat × ClientState) → Prop)
    (hu : ∀ m k f, P m → P (Clients.upsert m k f)) (b : Bus) (node : Nat)
    (h : P b.clients_) : P (b.transaction node).1.clients_ := by
  unfold Bus.transaction
  apply Bus.barrier_loop_table P hu
  rw [Bus.drain_eq]
  have hfold : ∀ (ts : List Transaction) (acc : Bus), P acc.clients_ →
      P (ts.foldl Bus.drainStep acc).clients_ := by
    intro ts
    induction ts with
    | nil => intro acc ha; exact ha
    | cons t rest ih =>
      intro acc ha
      apply ih
      rw [(Bus.drainStep_frame acc t).2.2.2.2.2]
      exact hu _ _ _ ha
  exact hfold _ _ h

theorem Bus.pending_wake_table (P : List (Nat × ClientState) → Prop)
    (hu : ∀ m k f, P m → P (Clients.upsert m k f)) (b : Bus) (node : Nat)
    (h : P b.clients_) : P (b.pending_wake node).1.clients_ := by
  have h1 : P (Clients.touch b.clients_ node) := hu _ _ _ h
  have h2 := Bus.locked_sync_table P hu { b with clients_ := Clients.touch b.clients_ node } node h1
  unfold Bus.pending_wake Bus.pending_pred
  by_cases hp : (Clients.at_ b.clients_ node).pending = true
  · simp only [hp, Bool.not_true, Bool.false_eq_true, if_false]
    split
    · exact h2
    · split
      · exact h2
      · split
        · exact h2
        · split
          · exact h2
          · exact Bus.transaction_table P hu _ _ h2
  · simp only [Bool.not_eq_true] at hp
    simp only [hp, Bool.not_false, if_true, Bool.not_true, Bool.false_eq_true, if_false]
    split
    · exact h1
    · split
      · exact h1
      · split
        · exact h1
        · exact Bus.transaction_table P hu _ _ h1

theorem Bus.publish_table (P : List (Nat × ClientState) → Prop)
    (hu : ∀ m k f, P m → P (Clients.upsert m k f)) (b : Bus) (node : Nat) (e : Event)
    (h : P b.clients_) : P (b.publish node e).1.clients_ := by
  unfold Bus.publish
  simp only
  split
  · exact Bus.pending_wake_table P hu _ _ (hu _ _ _ h)
  · exact Bus.transaction_table P hu _ _ h

/-- A property of the progress table that no assignment through `clients_[k]` and no
`erase` can break is kept by every step. -/
theorem Sys.step_table (P : List (Nat × ClientState) → Prop)
    (hu : ∀ m k f, P m → P (Clients.upsert m k f)) (he : ∀ m k, P m → P (Clients.erase m k))
    (s : Sys) (a : Action) (h : P s.bus.clients_) : P (s.step a).bus.clients_ := by
  cases a with
  | attach p => exact hu _ _ _ h
  | detach p => exact he _ _ h
  | get p =>
    cases hp : s.pc p with
    | idle => rw [Sys.step_get_idle s p hp]; exact Bus.locked_sync_table P hu _ _ h
    | pendingWait => rw [Sys.step_get_busy s p (by simp [hp])]; exact h
    | barrierWait i => rw [Sys.step_get_busy s p (by simp [hp])]; exact h
  | set p e =>
    cases hp : s.pc p with
    | idle => rw [Sys.step_set_idle s p e hp]; exact Bus.publish_table P hu _ _ _ h
    | pendingWait => rw [Sys.step_set_busy s p e (by simp [hp])]; exact h
    | barrierWait i => rw [Sys.step_set_busy s p e (by simp [hp])]; exact h
  | wake p =>
    cases hp : s.pc p with
    | idle => rw [Sys.step_wake_idle s p hp]; exact h
    | pendingWait => rw [Sys.step_wake_pending s p hp]; exact Bus.pending_wake_table P hu _ _ h
    | barrierWait i =>
      rw [Sys.step_wake_barrier s p i hp]
      unfold Bus.barrier_wake
      split
      · exact Bus.barrier_loop_table P hu _ _ _ h
      · exact h

theorem Sys.distinct_runs (s : Sys) (acts : List Action)
    (h : Clients.Distinct s.bus.clients_) : Clients.Distinct (s.runs acts).bus.clients_ := by
  induction acts generalizing s with
  | nil => exact h
  | cons a rest ih =>
    exact ih (s.step a)
      (Sys.step_table Clients.Distinct Clients.distinct_upsert Clients.distinct_erase s a h)

theorem Sys.distinct_of_reachable (s : Sys) (h : s.Reachable) :
    Clients.Distinct s.bus.clients_ := by
  obtain ⟨acts, rfl⟩ := h
  apply Sys.distinct_runs
  simp [Clients.Distinct, Clients.keys, Sys.init, Bus.init]

/-! ## The publisher's own entry -/

theorem Clients.at_congr (m m1 : List (Nat × ClientState)) (k : Nat)
    (h : Clients.find m1 k = Clients.find m k) : Clients.at_ m1 k = Clients.at_ m k := by
  simp [Clients.at_, h]

theorem Bus.locked_sync_find_ne (b : Bus) (q r : Nat) (h : r ≠ q) :
    Clients.find (b.locked_sync q).clients_ r = Clients.find b.clients_ r := by
  unfold Bus.locked_sync
  split <;> simp [Clients.find_upsert, Clients.touch, h]

/-- An attached participant that is at most one epoch behind is at the kernel sequence
after `locked_sync`. -/
theorem Bus.locked_sync_catch (b : Bus) (q : Nat) (hq : Clients.Has b.clients_ q)
    (hg : b.Gap) : (Clients.at_ (b.locked_sync q).clients_ q).sequence = b.sequence_ := by
  have h1 := hg _ (Clients.has_at _ _ hq)
  simp only at h1
  unfold Bus.locked_sync
  by_cases hlt : (Clients.at_ b.clients_ q).sequence < b.sequence_
  · rw [if_pos hlt]
    simp only [Clients.at_upsert_self]
    omega
  · rw [if_neg hlt]
    simp only [Clients.touch, Clients.at_upsert_self, id]
    omega

theorem Bus.locked_sync_keys (b : Bus) (q : Nat) (hq : Clients.Has b.clients_ q) :
    Clients.keys (b.locked_sync q).clients_ = Clients.keys b.clients_ := by
  unfold Bus.locked_sync
  split
  · exact Clients.keys_upsert_attached _ _ _ hq
  · exact Clients.keys_upsert_attached _ _ _ hq

/-- When the barrier loop blocks, the last thing it did was to set the publisher's entry
to the kernel sequence. -/
theorem Bus.barrier_loop_current (node r : Nat) (b : Bus) (i : Nat)
    (h : (Bus.barrier_loop node r b).2 = PC.barrierWait i) :
    (Clients.at_ (Bus.barrier_loop node r b).1.clients_ node).sequence =
      (Bus.barrier_loop node r b).1.sequence_ := by
  induction r generalizing b with
  | zero =>
    simp [Bus.barrier_loop] at h
  | succ r ih =>
    unfold Bus.barrier_loop at h ⊢
    by_cases hs : (b.advance node).all_clients_synchronized = true
    · rw [if_pos hs] at h ⊢
      exact ih _ h
    · rw [if_neg hs]
      show (Clients.at_ (Clients.upsert b.clients_ node _) node).sequence = b.sequence_ + 1
      rw [Clients.at_upsert_self]

theorem Sys.pc_of_goto_ne (s : Sys) (q p : Nat) (c x : PC) (hne : p ≠ q)
    (h : Sys.goto s.pc q c p = x) : s.pc p = x := by
  rw [Sys.goto_ne _ _ _ _ hne] at h
  exact h

/-- A disciplined step keeps the entry of a participant blocked in the barrier at the
kernel sequence. -/
theorem Sys.current_step (s : Sys) (a : Action) (hc : s.Coherent) (hcur : s.Current)
    (hw : s.wellBehaved a = true) : (s.step a).Current := by
  have hnone : s.bus.publisher_ = none → ∀ p i, s.pc p ≠ PC.barrierWait i := by
    intro hn p i hp
    have := hc.owned p i hp
    rw [hn] at this
    cases this
  cases a with
  | attach q =>
    have hseq : s.bus.sequence_ = 0 := by simpa [Sys.wellBehaved] using hw
    intro p i hp
    exact absurd hp (hnone (hc.fresh hseq).2 p i)
  | detach q =>
    have hq : s.pc q = PC.idle := by simpa [Sys.wellBehaved] using hw
    intro p i hp
    have hp1 : s.pc p = PC.barrierWait i := hp
    have hne : p ≠ q := by
      intro e
      rw [e, hq] at hp1
      cases hp1
    have := hcur p i hp1
    show (Clients.at_ (Clients.erase s.bus.clients_ q) p).sequence = s.bus.sequence_
    rw [Clients.at_congr s.bus.clients_ (Clients.erase s.bus.clients_ q) p
      (by rw [Clients.find_erase, if_neg hne])]
    exact this
  | get q =>
    cases hq : s.pc q with
    | idle =>
      rw [Sys.step_get_idle s q hq]
      intro p i hp
      have hp1 : s.pc p = PC.barrierWait i := hp
      have hne : p ≠ q := by
        intro e
        rw [e, hq] at hp1
        cases hp1
      show (Clients.at_ (s.bus.locked_sync q).clients_ p).sequence = (s.bus.locked_sync q).sequence_
      rw [Clients.at_congr _ _ _ (Bus.locked_sync_find_ne s.bus q p hne),
        (Bus.locked_sync_frame s.bus q).2.2.1]
      exact hcur p i hp1
    | pendingWait => rw [Sys.step_get_busy s q (by simp [hq])]; exact hcur
    | barrierWait j => rw [Sys.step_get_busy s q (by simp [hq])]; exact hcur
  | set q e =>
    cases hq : s.pc q with
    | idle =>
      rw [Sys.step_set_idle s q e hq]
      cases hpub : s.bus.publisher_ with
      | some x =>
        rw [Bus.publish_pending s.bus q x e hpub]
        intro p i hp
        have hne : p ≠ q := by
          intro e1
          have hp2 : Sys.goto s.pc q PC.pendingWait p = PC.barrierWait i := hp
          rw [e1, Sys.goto_self] at hp2
          cases hp2
        have hp1 : s.pc p = PC.barrierWait i := Sys.pc_of_goto_ne s q p _ _ hne hp
        have hf := Bus.locked_sync_frame ⟨s.bus.sda_, s.bus.scl_, s.bus.sequence_,
          Clients.upsert s.bus.clients_ q (fun c => { c with pending := true }),
          s.bus.publisher_, s.bus.queue_ ++ [Transaction.mk q e]⟩ q
        show (Clients.at_ (Bus.locked_sync _ q).clients_ p).sequence = (Bus.locked_sync _ q).sequence_
        rw [Clients.at_congr _ _ _ (Bus.locked_sync_find_ne _ q p hne), hf.2.2.1]
        show (Clients.at_ (Clients.upsert s.bus.clients_ q _) p).sequence = s.bus.sequence_
        rw [Clients.at_upsert_ne _ _ _ _ hne]
        exact hcur p i hp1
      | none =>
        rw [Bus.publish_claim s.bus q e hpub]
        intro p i hp
        by_cases hne : p = q
        · subst hne
          have hp2 : Sys.goto s.pc p (Bus.transaction _ p).2 p = PC.barrierWait i := hp
          rw [Sys.goto_self] at hp2
          exact Bus.barrier_loop_current p 2 _ i hp2
        · exact absurd (Sys.pc_of_goto_ne s q p _ _ hne hp) (hnone hpub p i)
    | pendingWait => rw [Sys.step_set_busy s q e (by simp [hq])]; exact hcur
    | barrierWait j => rw [Sys.step_set_busy s q e (by simp [hq])]; exact hcur
  | wake q =>
    cases hq : s.pc q with
    | idle => rw [Sys.step_wake_idle s q hq]; exact hcur
    | pendingWait =>
      have hhas : Clients.Has s.bus.clients_ q := hc.inside q (by simp [hq])
      rw [Sys.step_wake_pending s q hq]
      cases hpend : (Clients.at_ s.bus.clients_ q).pending with
      | false =>
        rw [Bus.pending_wake_cleared s.bus q hhas hpend]
        intro p i hp
        have hne : p ≠ q := by
          intro e1
          have hp2 : Sys.goto s.pc q PC.idle p = PC.barrierWait i := hp
          rw [e1, Sys.goto_self] at hp2
          cases hp2
        exact hcur p i (Sys.pc_of_goto_ne s q p _ _ hne hp)
      | true =>
        cases hpub : s.bus.publisher_ with
        | some x =>
          rw [Bus.pending_wake_wait s.bus q x hhas hpend hpub]
          intro p i hp
          have hne : p ≠ q := by
            intro e1
            have hp2 : Sys.goto s.pc q PC.pendingWait p = PC.barrierWait i := hp
            rw [e1, Sys.goto_self] at hp2
            cases hp2
          show (Clients.at_ (s.bus.locked_sync q).clients_ p).sequence =
            (s.bus.locked_sync q).sequence_
          rw [Clients.at_congr _ _ _ (Bus.locked_sync_find_ne s.bus q p hne),
            (Bus.locked_sync_frame s.bus q).2.2.1]
          exact hcur p i (Sys.pc_of_goto_ne s q p _ _ hne hp)
        | none =>
          by_cases hqe : s.bus.queue_ = []
          · rw [Bus.pending_wake_empty s.bus q hhas hpend hpub hqe]
            intro p i hp
            have hne : p ≠ q := by
              intro e1
              have hp2 : Sys.goto s.pc q PC.idle p = PC.barrierWait i := hp
              rw [e1, Sys.goto_self] at hp2
              cases hp2
            exact absurd (Sys.pc_of_goto_ne s q p _ _ hne hp) (hnone hpub p i)
          · rw [Bus.pending_wake_claim_attached s.bus q hhas hpend hpub hqe]
            intro p i hp
            by_cases hne : p = q
            · subst hne
              have hp2 : Sys.goto s.pc p (Bus.transaction _ p).2 p = PC.barrierWait i := hp
              rw [Sys.goto_self] at hp2
              exact Bus.barrier_loop_current p 2 _ i hp2
            · exact absurd (Sys.pc_of_goto_ne s q p _ _ hne hp) (hnone hpub p i)
    | barrierWait j =>
      have hpub : s.bus.publisher_ = some q := hc.owned q j hq
      rw [Sys.step_wake_barrier s q j hq]
      unfold Bus.barrier_wake
      by_cases hs : s.bus.all_clients_synchronized = true
      · rw [if_pos hs]
        intro p i hp
        by_cases hne : p = q
        · subst hne
          have hp2 : Sys.goto s.pc p (Bus.barrier_loop p (2 - j) s.bus).2 p = PC.barrierWait i := hp
          rw [Sys.goto_self] at hp2
          exact Bus.barrier_loop_current p (2 - j) _ i hp2
        · have h1 := hc.owned p i (Sys.pc_of_goto_ne s q p _ _ hne hp)
          rw [hpub] at h1
          exact absurd (Option.some.inj h1).symm hne
      · rw [if_neg hs]
        intro p i hp
        by_cases hne : p = q
        · subst hne
          exact hcur p j hq
        · exact hcur p i (Sys.pc_of_goto_ne s q p _ _ hne hp)

theorem Sys.current_runs (s : Sys) (acts : List Action) (hc : s.Coherent) (hcur : s.Current)
    (hd : s.disciplined acts = true) : (s.runs acts).Current := by
  induction acts generalizing s with
  | nil => exact hcur
  | cons a rest ih =>
    simp only [Sys.disciplined, Bool.and_eq_true] at hd
    exact ih (s.step a) (Sys.coherent_step s a hc hd.1) (Sys.current_step s a hc hcur hd.1) hd.2

theorem Sys.current_init : Sys.init.Current := by
  intro p i hp
  cases hp

/-! ## The barrier can always complete -/

theorem Sys.caughtUp_of_locked_sync (s : Sys) (q : Nat) (pc1 : Nat → PC)
    (hg : s.bus.Gap) (hq : Clients.Has s.bus.clients_ q)
    (hpc : ∀ r, r ≠ q → pc1 r = s.pc r) :
    Sys.CaughtUp q s ⟨s.bus.locked_sync q, pc1⟩ := by
  have hf := Bus.locked_sync_frame s.bus q
  exact ⟨hf.2.2.1, hf.2.2.2.1, hf.1, hf.2.1, hf.2.2.2.2, hpc,
    fun r hr => Bus.locked_sync_find_ne s.bus q r hr, Bus.locked_sync_keys s.bus q hq,
    Bus.locked_sync_catch s.bus q hq hg⟩

/-- While `p` holds the publisher slot, another attached participant `q` reaches the kernel
sequence by its catch-up steps, which touch nothing but its own entry and thread. -/
theorem Sys.catchUp_spec (s : Sys) (p q : Nat) (hc : s.Coherent)
    (hpub : s.bus.publisher_ = some p) (hne : q ≠ p) (hq : Clients.Has s.bus.clients_ q) :
    Sys.CaughtUp q s (s.runs (s.catchUp q)) ∧ (s.runs (s.catchUp q)).Coherent := by
  cases hpc : s.pc q with
  | idle =>
    have e : s.catchUp q = [Action.get q] := by simp [Sys.catchUp, hpc]
    rw [e]
    show Sys.CaughtUp q s (s.step (Action.get q)) ∧ (s.step (Action.get q)).Coherent
    refine ⟨?_, Sys.coherent_get s q hc hq⟩
    rw [Sys.step_get_idle s q hpc]
    exact Sys.caughtUp_of_locked_sync s q s.pc hc.gap hq (fun _ _ => rfl)
  | pendingWait =>
    cases hpend : (Clients.at_ s.bus.clients_ q).pending with
    | true =>
      have e : s.catchUp q = [Action.wake q] := by simp [Sys.catchUp, hpc, hpend]
      rw [e]
      show Sys.CaughtUp q s (s.step (Action.wake q)) ∧ (s.step (Action.wake q)).Coherent
      refine ⟨?_, Sys.coherent_wake_pending s q hc hpc⟩
      rw [Sys.step_wake_pending s q hpc, Bus.pending_wake_wait s.bus q p hq hpend hpub]
      exact Sys.caughtUp_of_locked_sync s q _ hc.gap hq
        (fun r hr => Sys.goto_ne _ _ _ _ hr)
    | false =>
      have e : s.catchUp q = [Action.wake q, Action.get q] := by
        simp [Sys.catchUp, hpc, hpend]
      rw [e]
      show Sys.CaughtUp q s ((s.step (Action.wake q)).step (Action.get q)) ∧
        ((s.step (Action.wake q)).step (Action.get q)).Coherent
      have hc1 : (s.step (Action.wake q)).Coherent := Sys.coherent_wake_pending s q hc hpc
      have e1 : s.step (Action.wake q) = ⟨s.bus, Sys.goto s.pc q PC.idle⟩ := by
        rw [Sys.step_wake_pending s q hpc, Bus.pending_wake_cleared s.bus q hq hpend]
      rw [e1] at hc1 ⊢
      refine ⟨?_, Sys.coherent_get _ q hc1 hq⟩
      rw [Sys.step_get_idle _ q (Sys.goto_self _ _ _)]
      exact Sys.caughtUp_of_locked_sync s q _ hc.gap hq
        (fun r hr => Sys.goto_ne _ _ _ _ hr)
  | barrierWait j =>
    have h1 := hc.owned q j hpc
    rw [hpub] at h1
    exact absurd (Option.some.inj h1).symm hne

theorem Clients.has_of_keys (m m1 : List (Nat × ClientState)) (k : Nat)
    (hk : Clients.keys m1 = Clients.keys m) (h : Clients.Has m k) : Clients.Has m1 k := by
  rw [← Clients.mem_keys_iff] at h ⊢
  rw [hk]
  exact h

/-- After the participants `qs` have caught up in turn, each of them other than the
publisher is at the kernel sequence and nothing else has changed. -/
theorem Sys.catchUpAll_spec (s : Sys) (p i : Nat) (qs : List Nat) (hc : s.Coherent)
    (hpc : s.pc p = PC.barrierWait i) (hqs : ∀ q ∈ qs, Clients.Has s.bus.clients_ q) :
    (s.catchUpAll qs).Coherent ∧ (s.catchUpAll qs).pc p = PC.barrierWait i ∧
    (s.catchUpAll qs).bus.sequence_ = s.bus.sequence_ ∧
    (s.catchUpAll qs).bus.publisher_ = s.bus.publisher_ ∧
    (s.catchUpAll qs).bus.sda_ = s.bus.sda_ ∧ (s.catchUpAll qs).bus.scl_ = s.bus.scl_ ∧
    (s.catchUpAll qs).bus.queue_ = s.bus.queue_ ∧
    Clients.keys (s.catchUpAll qs).bus.clients_ = Clients.keys s.bus.clients_ ∧
    Clients.find (s.catchUpAll qs).bus.clients_ p = Clients.find s.bus.clients_ p ∧
    (∀ r, (Clients.at_ s.bus.clients_ r).sequence = s.bus.sequence_ →
      (Clients.at_ (s.catchUpAll qs).bus.clients_ r).sequence = s.bus.sequence_) ∧
    (∀ q ∈ qs, q ≠ p →
      (Clients.at_ (s.catchUpAll qs).bus.clients_ q).sequence = s.bus.sequence_) := by
  induction qs generalizing s with
  | nil =>
    exact ⟨hc, hpc, rfl, rfl, rfl, rfl, rfl, rfl, rfl, fun _ h => h,
      fun q hq => absurd hq (List.not_mem_nil q)⟩
  | cons q rest ih =>
    have hstep : s.catchUpAll (q :: rest) = Sys.catchUpAll (s.runs (s.catchUp q)) rest := rfl
    rw [hstep]
    by_cases hqp : q = p
    · have e : s.catchUp q = [] := by
        rw [hqp]
        simp [Sys.catchUp, hpc]
      have e2 : s.runs (s.catchUp q) = s := by
        rw [e]
        rfl
      rw [e2]
      have ih1 := ih s hc hpc (fun r hr => hqs r (List.mem_cons_of_mem _ hr))
      refine ⟨ih1.1, ih1.2.1, ih1.2.2.1, ih1.2.2.2.1, ih1.2.2.2.2.1, ih1.2.2.2.2.2.1,
        ih1.2.2.2.2.2.2.1, ih1.2.2.2.2.2.2.2.1, ih1.2.2.2.2.2.2.2.2.1,
        ih1.2.2.2.2.2.2.2.2.2.1, ?_⟩
      intro r hr hrp
      rcases List.mem_cons.mp hr with h1 | h1
      · exact absurd (h1.trans hqp) hrp
      · exact ih1.2.2.2.2.2.2.2.2.2.2 r h1 hrp
    · have hpub : s.bus.publisher_ = some p := hc.owned p i hpc
      obtain ⟨⟨c1, c2, c3, c4, c5, c6, c7, c8, c9⟩, hc1⟩ :=
        Sys.catchUp_spec s p q hc hpub hqp (hqs q (List.mem_cons_self _ _))
      have hpc1 : (s.runs (s.catchUp q)).pc p = PC.barrierWait i := by
        rw [c6 p (fun e => hqp e.symm)]
        exact hpc
      have ih1 := ih (s.runs (s.catchUp q)) hc1 hpc1
        (fun r hr => Clients.has_of_keys _ _ r c8 (hqs r (List.mem_cons_of_mem _ hr)))
      rw [c1] at ih1
      have hkeep : ∀ r, (Clients.at_ s.bus.clients_ r).sequence = s.bus.sequence_ →
          (Clients.at_ (s.runs (s.catchUp q)).bus.clients_ r).sequence = s.bus.sequence_ := by
        intro r hr
        by_cases hrq : r = q
        · rw [hrq]
          exact c9
        · rw [Clients.at_congr _ _ _ (c7 r hrq)]
          exact hr
      refine ⟨ih1.1, ih1.2.1, ih1.2.2.1, ih1.2.2.2.1.trans c2, ih1.2.2.2.2.1.trans c3,
        ih1.2.2.2.2.2.1.trans c4, ih1.2.2.2.2.2.2.1.trans c5, ih1.2.2.2.2.2.2.2.1.trans c8,
        ih1.2.2.2.2.2.2.2.2.1.trans (c7 p (fun e => hqp e.symm)), ?_, ?_⟩
      · intro r hr
        exact ih1.2.2.2.2.2.2.2.2.2.1 r (hkeep r hr)
      · intro r hr hrp
        rcases List.mem_cons.mp hr with h1 | h1
        · rw [h1]
          exact ih1.2.2.2.2.2.2.2.2.2.1 q c9
        · exact ih1.2.2.2.2.2.2.2.2.2.2 r h1 hrp

/-- The barrier loop returns or raises the kernel sequence. -/
theorem Bus.barrier_loop_progress (node r : Nat) (b : Bus) :
    (Bus.barrier_loop node r b).2 = PC.idle ∨
      b.sequence_ < (Bus.barrier_loop node r b).1.sequence_ := by
  cases r with
  | zero => exact Or.inl rfl
  | succ r =>
    right
    have ha : (b.advance node).sequence_ = b.sequence_ + 1 := (Bus.advance_frame b node).2.2.2.2
    unfold Bus.barrier_loop
    by_cases hs : (b.advance node).all_clients_synchronized = true
    · rw [if_pos hs]
      have := Bus.barrier_loop_sequence node r (b.advance node)
      omega
    · rw [if_neg hs]
      show b.sequence_ < (b.advance node).sequence_
      omega

/-- C15 (as stated, refuted).  First run: 2 holds the publisher role in its first barrier
pass at kernel sequence 3, having drained the transaction of 3; participant 3 is attached,
at sequence 2, and blocked in its pending wait with its pending flag cleared.  Its `get` is
not enabled, and its wake-up returns from `set` without `locked_sync`: neither step raises
its sequence.  Second run: 3 is attached when the kernel sequence is already 2, so when 1
waits in its next barrier pass at sequence 3 a `get` of 3 raises it to 1 only. -/
theorem C15_counterexample :
    (Sys.init.runs [Action.attach 1, Action.attach 2, Action.attach 3,
      Action.set 1 Event.Delay, Action.set 2 Event.ClockLow, Action.set 3 Event.DataLow,
      Action.wake 1, Action.wake 2, Action.wake 3, Action.wake 1,
      Action.wake 2]).pc 2 = PC.barrierWait 1 ∧
    (Sys.init.runs [Action.attach 1, Action.attach 2, Action.attach 3,
      Action.set 1 Event.Delay, Action.set 2 Event.ClockLow, Action.set 3 Event.DataLow,
      Action.wake 1, Action.wake 2, Action.wake 3, Action.wake 1,
      Action.wake 2]).bus.sequence_ = 3 ∧
    Clients.find (Sys.init.runs [Action.attach 1, Action.attach 2, Action.attach 3,
      Action.set 1 Event.Delay, Action.set 2 Event.ClockLow, Action.set 3 Event.DataLow,
      Action.wake 1, Action.wake 2, Action.wake 3, Action.wake 1,
      Action.wake 2]).bus.clients_ 3 = some ⟨2, false⟩ ∧
    Clients.find ((Sys.init.runs [Action.attach 1, Action.attach 2, Action.attach 3,
      Action.set 1 Event.Delay, Action.set 2 Event.ClockLow, Action.set 3 Event.DataLow,
      Action.wake 1, Action.wake 2, Action.wake 3, Action.wake 1,
      Action.wake 2]).step (Action.get 3)).bus.clients_ 3 = some ⟨2, false⟩ ∧
    Clients.find ((Sys.init.runs [Action.attach 1, Action.attach 2, Action.attach 3,
      Action.set 1 Event.Delay, Action.set 2 Event.ClockLow, Action.set 3 Event.DataLow,
      Action.wake 1, Action.wake 2, Action.wake 3, Action.wake 1,
      Action.wake 2]).step (Action.wake 3)).bus.clients_ 3 = some ⟨2, false⟩ ∧
    (Sys.init.runs [Action.attach 1, Action.set 1 Event.Delay, Action.attach 3,
      Action.set 1 Event.Delay]).pc 1 = PC.barrierWait 1 ∧
    (Sys.init.runs [Action.attach 1, Action.set 1 Event.Delay, Action.attach 3,
      Action.set 1 Event.Delay]).bus.sequence_ = 3 ∧
    Clients.find ((Sys.init.runs [Action.attach 1, Action.set 1 Event.Delay, Action.attach 3,
      Action.set 1 Event.Delay]).step (Action.get 3)).bus.clients_ 3 = some ⟨1, false⟩ := by
  decide

/-- C15 (amended): on a run that follows the discipline (participants attached at kernel
sequence 0, `get` and `set` only for attached participants, no detach during a `set`), in
every state in which the publisher `p` waits in a barrier pass, each other attached
participant reaches the kernel sequence by its catch-up steps: a `get` when it is outside
`set`, the wake-up of its pending wait when it is still pending, and that wake-up followed
by a `get` when its transaction was drained on its behalf.  These steps change nothing but
that participant's entry and thread position.  When every attached participant has taken
them, the publisher's barrier predicate holds with the publisher still waiting in the same
pass, and its next wake-up returns from `set` or starts the next pass. -/
theorem C15_barrier_can_complete (acts : List Action) (p i : Nat)
    (hd : Sys.init.disciplined acts = true)
    (hpc : (Sys.init.runs acts).pc p = PC.barrierWait i) :
    (∀ q, q ≠ p → Clients.Has (Sys.init.runs acts).bus.clients_ q →
      Sys.CaughtUp q (Sys.init.runs acts)
        ((Sys.init.runs acts).runs ((Sys.init.runs acts).catchUp q))) ∧
    ((Sys.init.runs acts).catchUpAll
      (Clients.keys (Sys.init.runs acts).bus.clients_)).bus.all_clients_synchronized = true ∧
    ((Sys.init.runs acts).catchUpAll
      (Clients.keys (Sys.init.runs acts).bus.clients_)).pc p = PC.barrierWait i ∧
    ((Sys.init.runs acts).catchUpAll
      (Clients.keys (Sys.init.runs acts).bus.clients_)).bus.sequence_ =
        (Sys.init.runs acts).bus.sequence_ ∧
    ((((Sys.init.runs acts).catchUpAll
        (Clients.keys (Sys.init.runs acts).bus.clients_)).step (Action.wake p)).pc p = PC.idle ∨
      (Sys.init.runs acts).bus.sequence_ <
        (((Sys.init.runs acts).catchUpAll
          (Clients.keys (Sys.init.runs acts).bus.clients_)).step
            (Action.wake p)).bus.sequence_) := by
  generalize hs : Sys.init.runs acts = s at hpc ⊢
  have hc : s.Coherent := by
    rw [← hs]
    exact Sys.coherent_runs Sys.init acts Sys.coherent_init hd
  have hcur : s.Current := by
    rw [← hs]
    exact Sys.current_runs Sys.init acts Sys.coherent_init Sys.current_init hd
  have hdist : Clients.Distinct s.bus.clients_ := Sys.distinct_of_reachable s ⟨acts, hs.symm⟩
  have hpub : s.bus.publisher_ = some p := hc.owned p i hpc
  obtain ⟨k1, k2, k3, _, _, _, _, k8, k9, _, k11⟩ := Sys.catchUpAll_spec s p i
    (Clients.keys s.bus.clients_) hc hpc (fun q hq => (Clients.mem_keys_iff _ _).mp hq)
  have hsync : (s.catchUpAll (Clients.keys s.bus.clients_)).bus.all_clients_synchronized
      = true := by
    rw [Bus.all_sync_iff]
    intro c hcm
    have hd1 : Clients.Distinct (s.catchUpAll (Clients.keys s.bus.clients_)).bus.clients_ := by
      unfold Clients.Distinct
      rw [k8]
      exact hdist
    have hf := Clients.find_of_mem_distinct _ c hd1 hcm
    have hat : Clients.at_ (s.catchUpAll (Clients.keys s.bus.clients_)).bus.clients_ c.1
        = c.2 := by
      simp [Clients.at_, hf]
    have hk : c.1 ∈ Clients.keys s.bus.clients_ := by
      rw [← k8]
      exact List.mem_map_of_mem _ hcm
    rw [k3, ← hat]
    by_cases hcp : c.1 = p
    · rw [hcp, Clients.at_congr _ _ _ k9]
      exact hcur p i hpc
    · exact k11 c.1 hk hcp
  refine ⟨?_, hsync, k2, k3, ?_⟩
  · intro q hq hhas
    exact (Sys.catchUp_spec s p q hc hpub hq hhas).1
  · rw [Sys.step_wake_barrier _ p i k2]
    unfold Bus.barrier_wake
    rw [if_pos hsync, ← k3]
    rcases Bus.barrier_loop_progress p (2 - i)
      (s.catchUpAll (Clients.keys s.bus.clients_)).bus with h1 | h1
    · left
      exact (Sys.goto_self _ _ _).trans h1
    · right
      exact h1

/-- C15 (amended) in the state of the first run above: the run follows the discipline, the
two steps of participant 3 bring it to the kernel sequence 3, and once 1 and 3 have caught
up the barrier predicate of publisher 2 holds. -/
theorem C15_barrier_can_complete_witness :
    Sys.init.disciplined [Action.attach 1, Action.attach 2, Action.attach 3,
      Action.set 1 Event.Delay, Action.set 2 Event.ClockLow, Action.set 3 Event.DataLow,
      Action.wake 1, Action.wake 2, Action.wake 3, Action.wake 1, Action.wake 2] = true ∧
    (Sys.init.runs [Action.attach 1, Action.attach 2, Action.attach 3,
      Action.set 1 Event.Delay, Action.set 2 Event.ClockLow, Action.set 3 Event.DataLow,
      Action.wake 1, Action.wake 2, Action.wake 3, Action.wake 1, Action.wake 2]).catchUp 3
      = [Action.wake 3, Action.get 3] ∧
    ((Sys.init.runs [Action.attach 1, Action.attach 2, Action.attach 3,
      Action.set 1 Event.Delay, Action.set 2 Event.ClockLow, Action.set 3 Event.DataLow,
      Action.wake 1, Action.wake 2, Action.wake 3, Action.wake 1, Action.wake 2]).catchUpAll
      (Clients.keys (Sys.init.runs [Action.attach 1, Action.attach 2, Action.attach 3,
        Action.set 1 Event.Delay, Action.set 2 Event.ClockLow, Action.set 3 Event.DataLow,
        Action.wake 1, Action.wake 2, Action.wake 3, Action.wake 1,
        Action.wake 2]).bus.clients_)).bus.all_clients_synchronized = true :=
  ⟨by decide, by decide,
    (C15_barrier_can_complete [Action.attach 1, Action.attach 2, Action.attach 3,
      Action.set 1 Event.Delay, Action.set 2 Event.ClockLow, Action.set 3 Event.DataLow,
      Action.wake 1, Action.wake 2, Action.wake 3, Action.wake 1, Action.wake 2] 2 1
      (by decide) (by decide)).2.1⟩

/-! ## Bus recovery -/

theorem ControllerBase.flatten_replicate_succ (n : Nat) (xs : List Event) :
    (List.replicate (n + 1) xs).flatten = xs ++ (List.replicate n xs).flatten := by
  rfl

/-- The loop of `recover` from the `n`-th sample on, `counter` being the length of the run
of `High` samples that ends just before it: it stops after sample `k`. -/
theorem ControllerBase.recover_loop_spec (env : Samples) (fuel : Nat) (base k : Nat)
    (hrel : env.Released fuel) (hk8 : 8 ≤ k)
    (hrun : ∀ j, k - 8 ≤ j → j ≤ k → env.sda (base + j) = Level.High)
    (hfirst : ∀ m, 8 ≤ m → m < k →
      ∃ j, m - 8 ≤ j ∧ j ≤ m ∧ env.sda (base + j) = Level.Low)
    (d : Nat) :
    ∀ (n counter rounds : Nat) (c : Ctl), k = n + d → d < rounds → c.sdaReads = base + n →
      counter ≤ 8 → counter ≤ n →
      (∀ j, n - counter ≤ j → j < n → env.sda (base + j) = Level.High) →
      (counter < n → env.sda (base + (n - counter - 1)) = Level.Low) →
      ∃ scl, ControllerBase.recover_loop env fuel rounds counter c =
        some ⟨false, base + (k + 1), scl,
          c.emitted ++ (List.replicate (d + 1) ControllerBase.read_bit_events).flatten ++
            ControllerBase.stop_events⟩ := by
  induction d with
  | zero =>
    intro n counter rounds c hk hr hc h8 hn hhigh hlow
    obtain ⟨r, rfl⟩ : ∃ r, rounds = r + 1 := ⟨rounds - 1, by omega⟩
    obtain ⟨s1, e1⟩ := ControllerBase.read_bit_spec env fuel c hrel
    have hkn : k = n := by omega
    subst hkn
    have hh : env.sda c.sdaReads = Level.High := by
      rw [hc]
      exact hrun k (by omega) (by omega)
    have hcnt : counter = 8 := by
      by_contra hne
      by_cases hlt : counter < k
      · have h1 := hlow hlt
        have h2 := hrun (k - counter - 1) (by omega) (by omega)
        rw [h1] at h2
        cases h2
      · omega
    subst hcnt
    obtain ⟨s2, e2⟩ := ControllerBase.write_stop_condition_spec env fuel
      ⟨c.started_, c.sdaReads + 1, s1,
        c.emitted ++ [Event.DataHigh, Event.Delay, Event.ClockHigh, Event.Delay,
          Event.ClockLow]⟩ hrel
    refine ⟨s2, ?_⟩
    unfold ControllerBase.recover_loop
    rw [e1]
    simp only [Option.some_bind, hh, if_true]
    rw [e2, hc]
    simp [ControllerBase.read_bit_events, ControllerBase.stop_events, Nat.add_assoc]
  | succ d ih =>
    intro n counter rounds c hk hr hc h8 hn hhigh hlow
    obtain ⟨r, rfl⟩ : ∃ r, rounds = r + 1 := ⟨rounds - 1, by omega⟩
    obtain ⟨s1, e1⟩ := ControllerBase.read_bit_spec env fuel c hrel
    unfold ControllerBase.recover_loop
    rw [e1]
    simp only [Option.some_bind]
    rw [ControllerBase.flatten_replicate_succ]
    by_cases hh : env.sda c.sdaReads = Level.High
    · rw [if_pos hh]
      have hne : ¬ counter + 1 = 9 := by
        intro h9
        have hc8 : counter = 8 := by omega
        subst hc8
        obtain ⟨j, hj1, hj2, hj3⟩ := hfirst n (by omega) (by omega)
        by_cases hjn : j = n
        · subst hjn
          rw [← hc, hh] at hj3
          cases hj3
        · have := hhigh j (by omega) (by omega)
          rw [this] at hj3
          cases hj3
      rw [if_neg hne]
      obtain ⟨scl, e⟩ := ih (n + 1) (counter + 1) r
        ⟨c.started_, c.sdaReads + 1, s1,
          c.emitted ++ [Event.DataHigh, Event.Delay, Event.ClockHigh, Event.Delay,
            Event.ClockLow]⟩ (by omega) (by omega) (by simp only; omega) (by omega) (by omega)
        (by
          intro j hj1 hj2
          by_cases hjn : j = n
          · subst hjn
            rw [← hc]
            exact hh
          · exact hhigh j (by omega) (by omega))
        (by
          intro hlt
          have := hlow (by omega)
          have e : n + 1 - (counter + 1) - 1 = n - counter - 1 := by omega
          rw [e]
          exact this)
      refine ⟨scl, ?_⟩
      rw [e]
      simp [ControllerBase.read_bit_events]
    · rw [if_neg hh]
      have hl : env.sda c.sdaReads = Level.Low := by
        cases hx : env.sda c.sdaReads
        · rfl
        · exact absurd hx hh
      obtain ⟨scl, e⟩ := ih (n + 1) 0 r
        ⟨c.started_, c.sdaReads + 1, s1,
          c.emitted ++ [Event.DataHigh, Event.Delay, Event.ClockHigh, Event.Delay,
            Event.ClockLow]⟩ (by omega) (by omega) (by simp only; omega) (by omega) (by omega)
        (by
          intro j hj1 hj2
          omega)
        (by
          intro _
          have e : n + 1 - 0 - 1 = n := by omega
          rw [e, ← hc]
          exact hl)
      refine ⟨scl, ?_⟩
      rw [e]
      simp [ControllerBase.read_bit_events]

theorem ControllerBase.count_read_bit_events (n : Nat) :
    (List.replicate n ControllerBase.read_bit_events).flatten.count Event.DataLow = 0 ∧
    sdaLevels (List.replicate n ControllerBase.read_bit_events).flatten =
      List.replicate n Level.High := by
  induction n with
  | zero => exact ⟨rfl, rfl⟩
  | succ n ih =>
    rw [ControllerBase.flatten_replicate_succ, List.count_append, ih.1, sdaLevels_append, ih.2]
    exact ⟨rfl, rfl⟩

/-- C22: `recover` sets SCL `Low`, then reads bits until nine consecutive SDA samples are
`High`, a `Low` sample resetting the count, sets the STOP condition once and returns 0.
When the first run of nine consecutive `High` samples ends at sample `k` (counted from 0
at the first `read_bit`), and SCL is always released in time, the call returns 0 after
exactly `k + 1` SDA samples, and what it has set is `ClockLow`, a delay, the events of
`k + 1` calls of `read_bit` and then the STOP events, whose `DataLow` is the only one. -/
theorem C22_recover (env : Samples) (fuel rounds k : Nat) (c : Ctl)
    (hrel : env.Released fuel) (hk : 8 ≤ k)
    (hrun : ∀ j, k - 8 ≤ j → j ≤ k → env.sda (c.sdaReads + j) = Level.High)
    (hfirst : ∀ m, 8 ≤ m → m < k →
      ∃ j, m - 8 ≤ j ∧ j ≤ m ∧ env.sda (c.sdaReads + j) = Level.Low)
    (hrounds : k < rounds) :
    ∃ c1, ControllerBase.recover env fuel rounds c = some (0, c1) ∧
      c1.sdaReads = c.sdaReads + (k + 1) ∧
      c1.emitted = c.emitted ++ [Event.ClockLow, Event.Delay] ++
        (List.replicate (k + 1) ControllerBase.read_bit_events).flatten ++
        ControllerBase.stop_events ∧
      (c1.emitted.drop c.emitted.length).count Event.DataLow = 1 := by
  obtain ⟨scl, e⟩ := ControllerBase.recover_loop_spec env fuel c.sdaReads k hrel hk hrun hfirst
    k 0 0 rounds ((c.emit (Node.sclEvent Level.Low)).emit Event.Delay) (by omega) hrounds rfl
    (by omega) (by omega) (fun j h1 h2 => by omega) (fun h => by omega)
  refine ⟨⟨false, c.sdaReads + (k + 1), scl,
    ((c.emit (Node.sclEvent Level.Low)).emit Event.Delay).emitted ++
      (List.replicate (k + 1) ControllerBase.read_bit_events).flatten ++
        ControllerBase.stop_events⟩, ?_, ?_, ?_, ?_⟩
  · unfold ControllerBase.recover
    rw [e]
    rfl
  · rfl
  · simp [Ctl.emit, Node.sclEvent]
  · have hc := (ControllerBase.count_read_bit_events (k + 1)).1
    simp only [Ctl.emit, Node.sclEvent, List.append_assoc, List.drop_left, List.count_append,
      hc]
    rfl

/-- C22 on the samples `High, Low` and then `High` for ever: the first run of nine ends at
sample 10, so eleven bits are read. -/
theorem C22_recover_witness :
    (ControllerBase.recover
      ⟨fun j => if j = 1 then Level.Low else Level.High, fun _ => Level.High⟩ 1 11
      ⟨false, 0, 0, []⟩).map (fun r => (r.1, r.2.sdaReads)) = some (0, 11) := by
  obtain ⟨c1, h1, h2, _⟩ := C22_recover
    ⟨fun j => if j = 1 then Level.Low else Level.High, fun _ => Level.High⟩ 1 11 10
    ⟨false, 0, 0, []⟩ (fun _ => ⟨0, by decide, rfl⟩) (by decide)
    (fun j h1 h2 => by
      have : ¬ j = 1 := by omega
      simp [this])
    (fun m h1 h2 => ⟨1, by omega, by omega, by simp⟩) (by decide)
  rw [h1]
  simp [h2]

/-! ## The lines after a STOP condition -/

theorem ControllerBase.clock_stretching_emitted (env : Samples) (fuel : Nat) (c c1 : Ctl)
    (h : ControllerBase.clock_stretching env fuel c = some c1) :
    c1.emitted = c.emitted := by
  induction fuel generalizing c with
  | zero => cases h
  | succ fuel ih =>
    unfold ControllerBase.clock_stretching at h
    by_cases hl : env.scl c.sclReads = Level.Low
    · rw [if_pos hl] at h
      have e := ih _ h
      exact e
    · rw [if_neg hl] at h
      cases h
      rfl

theorem ControllerBase.write_stop_condition_emitted (env : Samples) (fuel : Nat) (c c1 : Ctl)
    (h : ControllerBase.write_stop_condition env fuel c = some c1) :
    c1.emitted = c.emitted ++ ControllerBase.stop_events := by
  unfold ControllerBase.write_stop_condition at h
  obtain ⟨c0, h0, rfl⟩ := Option.map_eq_some'.mp h
  have e := ControllerBase.clock_stretching_emitted env fuel _ c0 h0
  simp [Ctl.emit, e, ControllerBase.stop_events, Node.sdaEvent, Node.sclEvent]

theorem ControllerBase.write_bit_emitted (env : Samples) (fuel : Nat) (bit : Level)
    (c c1 : Ctl) (h : ControllerBase.write_bit env fuel bit c = some c1) :
    ∃ evs, c1.emitted = c.emitted ++ evs := by
  unfold ControllerBase.write_bit at h
  obtain ⟨c0, h0, rfl⟩ := Option.map_eq_some'.mp h
  have e := ControllerBase.clock_stretching_emitted env fuel _ c0 h0
  exact ⟨_, by simp only [Ctl.emit, e, List.append_assoc]; rfl⟩

theorem ControllerBase.read_bit_emitted (env : Samples) (fuel : Nat) (c : Ctl)
    (r : Level × Ctl) (h : ControllerBase.read_bit env fuel c = some r) :
    ∃ evs, r.2.emitted = c.emitted ++ evs := by
  unfold ControllerBase.read_bit at h
  obtain ⟨c0, h0, rfl⟩ := Option.map_eq_some'.mp h
  have e := ControllerBase.clock_stretching_emitted env fuel _ c0 h0
  exact ⟨_, by simp only [Ctl.emit, e, List.append_assoc]; rfl⟩

theorem ControllerBase.write_start_condition_emitted (env : Samples) (fuel : Nat)
    (c c1 : Ctl) (h : ControllerBase.write_start_condition env fuel c = some c1) :
    ∃ evs, c1.emitted = c.emitted ++ evs := by
  unfold ControllerBase.write_start_condition at h
  obtain ⟨c2, h2, rfl⟩ := Option.map_eq_some'.mp h
  by_cases hs : c.started_ = true
  · rw [if_pos hs] at h2
    obtain ⟨c0, h0, rfl⟩ := Option.map_eq_some'.mp h2
    have e := ControllerBase.clock_stretching_emitted env fuel _ c0 h0
    exact ⟨_, by simp only [Ctl.emit, e, List.append_assoc]; rfl⟩
  · rw [if_neg hs] at h2
    cases h2
    exact ⟨_, by simp only [Ctl.emit, List.append_assoc]; rfl⟩

theorem ControllerBase.read_bits_emitted (env : Samples) (fuel n octet : Nat) (c : Ctl)
    (r : Nat × Ctl) (h : ControllerBase.read_bits env fuel n octet c = some r) :
    ∃ evs, r.2.emitted = c.emitted ++ evs := by
  induction n generalizing octet c with
  | zero =>
    cases h
    exact ⟨[], by simp⟩
  | succ n ih =>
    unfold ControllerBase.read_bits at h
    obtain ⟨r1, h1, h2⟩ := Option.bind_eq_some.mp h
    obtain ⟨e1, he1⟩ := ControllerBase.read_bit_emitted env fuel c r1 h1
    obtain ⟨e2, he2⟩ := ih _ _ h2
    exact ⟨e1 ++ e2, by rw [he2, he1, List.append_assoc]⟩

theorem ControllerBase.write_bits_emitted (env : Samples) (fuel n octet : Nat) (c c1 : Ctl)
    (h : ControllerBase.write_bits env fuel n octet c = some c1) :
    ∃ evs, c1.emitted = c.emitted ++ evs := by
  induction n generalizing octet c with
  | zero =>
    cases h
    exact ⟨[], by simp⟩
  | succ n ih =>
    unfold ControllerBase.write_bits at h
    obtain ⟨r1, h1, h2⟩ := Option.bind_eq_some.mp h
    obtain ⟨e1, he1⟩ := ControllerBase.write_bit_emitted env fuel _ c r1 h1
    obtain ⟨e2, he2⟩ := ih _ _ h2
    exact ⟨e1 ++ e2, by rw [he2, he1, List.append_assoc]⟩

/-- A `write` with the STOP flag that returns has set the STOP events last. -/
theorem ControllerBase.write_stop_emitted (env : Samples) (fuel octet flags : Nat)
    (c : Ctl) (r : Bool × Ctl) (hf : flags &&& ControllerBase.flagBit1 ≠ 0)
    (h : ControllerBase.write env fuel octet flags c = some r) :
    ∃ pre, r.2.emitted = c.emitted ++ (pre ++ ControllerBase.stop_events) := by
  unfold ControllerBase.write at h
  obtain ⟨c1, h1, h⟩ := Option.bind_eq_some.mp h
  obtain ⟨c2, h2, h⟩ := Option.bind_eq_some.mp h
  obtain ⟨r3, h3, h⟩ := Option.bind_eq_some.mp h
  rw [if_pos hf] at h
  obtain ⟨c4, h4, rfl⟩ := Option.map_eq_some'.mp h
  have e4 := ControllerBase.write_stop_condition_emitted env fuel _ _ h4
  obtain ⟨e3, he3⟩ := ControllerBase.read_bit_emitted env fuel _ _ h3
  obtain ⟨e2, he2⟩ := ControllerBase.write_bits_emitted env fuel _ _ _ _ h2
  have he1 : ∃ evs, c1.emitted = c.emitted ++ evs := by
    by_cases hs : flags &&& ControllerBase.flagBit0 ≠ 0
    · rw [if_pos hs] at h1
      exact ControllerBase.write_start_condition_emitted env fuel _ _ h1
    · rw [if_neg hs] at h1
      cases h1
      exact ⟨[], by simp⟩
  obtain ⟨e1, he1⟩ := he1
  exact ⟨e1 ++ e2 ++ e3, by
    show c4.emitted = _
    rw [e4, he3, he2, he1]
    simp only [List.append_assoc]⟩

/-- A `read` with the STOP flag that returns has set the STOP events last. -/
theorem ControllerBase.read_stop_emitted (env : Samples) (fuel flags : Nat)
    (c : Ctl) (r : Nat × Ctl) (hf : flags &&& ControllerBase.flagBit1 ≠ 0)
    (h : ControllerBase.read env fuel flags c = some r) :
    ∃ pre, r.2.emitted = c.emitted ++ (pre ++ ControllerBase.stop_events) := by
  unfold ControllerBase.read at h
  obtain ⟨r1, h1, h⟩ := Option.bind_eq_some.mp h
  obtain ⟨c2, h2, h⟩ := Option.bind_eq_some.mp h
  rw [if_pos hf] at h
  obtain ⟨c3, h3, rfl⟩ := Option.map_eq_some'.mp h
  have e3 := ControllerBase.write_stop_condition_emitted env fuel _ _ h3
  obtain ⟨e2, he2⟩ := ControllerBase.write_bit_emitted env fuel _ _ _ h2
  obtain ⟨e1, he1⟩ := ControllerBase.read_bits_emitted env fuel _ _ _ _ h1
  exact ⟨e1 ++ e2, by
    show c3.emitted = _
    rw [e3, he2, he1]
    simp only [List.append_assoc]⟩

theorem ControllerBase.recover_loop_emitted (env : Samples) (fuel rounds counter : Nat)
    (c c1 : Ctl) (h : ControllerBase.recover_loop env fuel rounds counter c = some c1) :
    ∃ pre, c1.emitted = c.emitted ++ (pre ++ ControllerBase.stop_events) := by
  induction rounds generalizing counter c with
  | zero => cases h
  | succ rounds ih =>
    unfold ControllerBase.recover_loop at h
    obtain ⟨r, h1, h⟩ := Option.bind_eq_some.mp h
    obtain ⟨e1, he1⟩ := ControllerBase.read_bit_emitted env fuel _ _ h1
    have hrec : ∀ n, ControllerBase.recover_loop env fuel rounds n r.2 = some c1 →
        ∃ pre, c1.emitted = c.emitted ++ (pre ++ ControllerBase.stop_events) := by
      intro n hn
      obtain ⟨p, hp⟩ := ih _ _ hn
      exact ⟨e1 ++ p, by rw [hp, he1]; simp only [List.append_assoc]⟩
    by_cases hh : r.1 = Level.High
    · rw [if_pos hh] at h
      by_cases h9 : counter + 1 = 9
      · rw [if_pos h9] at h
        have e := ControllerBase.write_stop_condition_emitted env fuel _ _ h
        exact ⟨e1, by rw [e, he1]; simp only [List.append_assoc]⟩
      · rw [if_neg h9] at h
        exact hrec _ h
    · rw [if_neg hh] at h
      exact hrec _ h

/-- A `recover` that returns has set the STOP events last, and returns 0. -/
theorem ControllerBase.recover_emitted (env : Samples) (fuel rounds : Nat)
    (c : Ctl) (r : Int × Ctl) (h : ControllerBase.recover env fuel rounds c = some r) :
    r.1 = 0 ∧ ∃ pre, r.2.emitted = c.emitted ++ (pre ++ ControllerBase.stop_events) := by
  unfold ControllerBase.recover at h
  obtain ⟨c1, h1, rfl⟩ := Option.map_eq_some'.mp h
  obtain ⟨p, hp⟩ := ControllerBase.recover_loop_emitted env fuel _ _ _ _ h1
  exact ⟨rfl, [Event.ClockLow, Event.Delay] ++ p, by
    show c1.emitted = _
    rw [hp]
    simp [Ctl.emit, Node.sclEvent]⟩

theorem ownEvents_append (node : Nat) (ts : List Transaction) (t : Transaction) :
    ownEvents node (ts ++ [t]) =
      ownEvents node ts ++ (if t.node = node then [t.event] else []) := by
  unfold ownEvents
  rw [List.filter_append, List.map_append]
  by_cases h : t.node = node
  · simp [h]
  · simp [h]

theorem sclLevels_append (xs ys : List Event) :
    sclLevels (xs ++ ys) = sclLevels xs ++ sclLevels ys := by
  induction xs with
  | nil => rfl
  | cons e rest ih =>
    cases e <;> simp [sclLevels, ih]

theorem Bus.process_other (b : Bus) (t : Transaction) (node : Nat) (h : t.node ≠ node) :
    (node ∈ (b.process t).sda_.low_ ↔ node ∈ b.sda_.low_) ∧
    (node ∈ (b.process t).scl_.low_ ↔ node ∈ b.scl_.low_) := by
  have hn : ¬ node = t.node := fun e => h e.symm
  unfold Bus.process
  cases t.event <;> simp [Line.set, hn]

/-- After the transactions `ts`, a participant whose last SDA event among them is
`DataHigh` is not in SDA's low-set, whatever the bus was and whatever the others set. -/
theorem Bus.released_sda (node : Nat) (ts : List Transaction) (b : Bus)
    (h : (sdaLevels (ownEvents node ts)).getLast? = some Level.High) :
    node ∉ (ts.foldl Bus.process b).sda_.low_ := by
  induction ts using List.reverseRecOn with
  | nil => cases h
  | append_singleton ts t ih =>
    rw [List.foldl_append]
    show node ∉ ((ts.foldl Bus.process b).process t).sda_.low_
    rw [ownEvents_append, sdaLevels_append] at h
    by_cases hn : t.node = node
    · rw [if_pos hn] at h
      unfold Bus.process
      cases he : t.event
      · rw [he] at h
        simp [sdaLevels] at h
      · simp [Line.set, hn]
      · rw [he] at h
        simp only [sdaLevels, List.append_nil] at h
        exact ih h
      · rw [he] at h
        simp only [sdaLevels, List.append_nil] at h
        exact ih h
      · rw [he] at h
        simp only [sdaLevels, List.append_nil] at h
        exact ih h
    · rw [if_neg hn] at h
      simp only [sdaLevels, List.append_nil] at h
      rw [(Bus.process_other _ t node hn).1]
      exact ih h

/-- After the transactions `ts`, a participant whose last SCL event among them is
`ClockHigh` is not in SCL's low-set. -/
theorem Bus.released_scl (node : Nat) (ts : List Transaction) (b : Bus)
    (h : (sclLevels (ownEvents node ts)).getLast? = some Level.High) :
    node ∉ (ts.foldl Bus.process b).scl_.low_ := by
  induction ts using List.reverseRecOn with
  | nil => cases h
  | append_singleton ts t ih =>
    rw [List.foldl_append]
    show node ∉ ((ts.foldl Bus.process b).process t).scl_.low_
    rw [ownEvents_append, sclLevels_append] at h
    by_cases hn : t.node = node
    · rw [if_pos hn] at h
      unfold Bus.process
      cases he : t.event
      · rw [he] at h
        simp only [sclLevels, List.append_nil] at h
        exact ih h
      · rw [he] at h
        simp only [sclLevels, List.append_nil] at h
        exact ih h
      · rw [he] at h
        simp [sclLevels] at h
      · simp [Line.set, hn]
      · rw [he] at h
        simp only [sclLevels, List.append_nil] at h
        exact ih h
    · rw [if_neg hn] at h
      simp only [sclLevels, List.append_nil] at h
      rw [(Bus.process_other _ t node hn).2]
      exact ih h

theorem ControllerBase.stop_events_last (pre : List Event) :
    (sdaLevels (pre ++ ControllerBase.stop_events)).getLast? = some Level.High ∧
    (sclLevels (pre ++ ControllerBase.stop_events)).getLast? = some Level.High := by
  rw [sdaLevels_append, sclLevels_append]
  constructor
  · show (sdaLevels pre ++ [Level.Low, Level.High]).getLast? = some Level.High
    simp [List.getLast?_append]
  · show (sclLevels pre ++ [Level.High]).getLast? = some Level.High
    simp

/-- C24: when `write` or `read` with the STOP flag, or `recover`, returns, the controller
has released both lines, whatever the bus was before the call.  Let `c1` be the state in
which the call returns and `ts` any sequence of transactions, of any participants, in which
those of the controller's handle are the events the call has set, in order: they end with
`DataLow`, `ClockHigh` and `DataHigh` in this order, with delays between, and after `ts` is
processed on any bus the handle is in neither SDA's nor SCL's low-set. -/
theorem C24_stop_releases_lines (env : Samples) (fuel octet flags rounds : Nat)
    (c c1 : Ctl) (handle : Nat) (b : Bus) (ts : List Transaction)
    (hret : (flags &&& ControllerBase.flagBit1 ≠ 0 ∧
        ((∃ nack, ControllerBase.write env fuel octet flags c = some (nack, c1)) ∨
          ∃ v, ControllerBase.read env fuel flags c = some (v, c1))) ∨
      ∃ v, ControllerBase.recover env fuel rounds c = some (v, c1))
    (hown : c1.emitted = c.emitted ++ ownEvents handle ts) :
    handle ∉ (ts.foldl Bus.process b).sda_.low_ ∧
    handle ∉ (ts.foldl Bus.process b).scl_.low_ ∧
    ∃ pre, ownEvents handle ts = pre ++ [Event.DataLow, Event.Delay, Event.ClockHigh,
      Event.Delay, Event.DataHigh, Event.Delay] := by
  have hpre : ∃ pre, c1.emitted = c.emitted ++ (pre ++ ControllerBase.stop_events) := by
    rcases hret with ⟨hf, ⟨nack, hw⟩ | ⟨v, hr⟩⟩ | ⟨v, hr⟩
    · exact ControllerBase.write_stop_emitted env fuel octet flags c (nack, c1) hf hw
    · exact ControllerBase.read_stop_emitted env fuel flags c (v, c1) hf hr
    · exact (ControllerBase.recover_emitted env fuel rounds c (v, c1) hr).2
  obtain ⟨pre, hp⟩ := hpre
  have hev : ownEvents handle ts = pre ++ ControllerBase.stop_events :=
    List.append_cancel_left (hown.symm.trans hp)
  have hlast := ControllerBase.stop_events_last pre
  rw [← hev] at hlast
  exact ⟨Bus.released_sda handle ts b hlast.1, Bus.released_scl handle ts b hlast.2,
    pre, hev⟩

/-- C24 for a `write` of `0x00` with STOP by handle 7, on a bus where 7 and 9 held both
lines `Low` before the call: afterwards 7 is in neither low-set. -/
theorem C24_stop_releases_lines_witness :
    7 ∉ ((((ControllerBase.write ⟨fun _ => Level.High, fun _ => Level.High⟩ 1 0 2
        ⟨false, 0, 0, []⟩).getD (false, ⟨false, 0, 0, []⟩)).2.emitted.map
          (Transaction.mk 7)).foldl Bus.process
        ⟨⟨{7, 9}⟩, ⟨{7, 9}⟩, 0, [], none, []⟩).sda_.low_ ∧
    7 ∉ ((((ControllerBase.write ⟨fun _ => Level.High, fun _ => Level.High⟩ 1 0 2
        ⟨false, 0, 0, []⟩).getD (false, ⟨false, 0, 0, []⟩)).2.emitted.map
          (Transaction.mk 7)).foldl Bus.process
        ⟨⟨{7, 9}⟩, ⟨{7, 9}⟩, 0, [], none, []⟩).scl_.low_ :=
  have h := C24_stop_releases_lines ⟨fun _ => Level.High, fun _ => Level.High⟩ 1 0 2 0
    ⟨false, 0, 0, []⟩
    ((ControllerBase.write ⟨fun _ => Level.High, fun _ => Level.High⟩ 1 0 2
      ⟨false, 0, 0, []⟩).getD (false, ⟨false, 0, 0, []⟩)).2
    7 ⟨⟨{7, 9}⟩, ⟨{7, 9}⟩, 0, [], none, []⟩
    (((ControllerBase.write ⟨fun _ => Level.High, fun _ => Level.High⟩ 1 0 2
      ⟨false, 0, 0, []⟩).getD (false, ⟨false, 0, 0, []⟩)).2.emitted.map (Transaction.mk 7))
    (Or.inl ⟨by decide, Or.inl ⟨true, rfl⟩⟩) rfl
  ⟨h.1, h.2.1⟩

/-! ## The queue and the pending flags -/

theorem Clients.pending_of_upsert (m : List (Nat × ClientState)) (k : Nat)
    (f : ClientState → ClientState) (q : Nat)
    (hf : ∀ c, (f c).pending = true → c.pending = true)
    (h : Clients.Pending (Clients.upsert m k f) q) : Clients.Pending m q := by
  obtain ⟨c, h1, h2⟩ := h
  rw [Clients.find_upsert] at h1
  by_cases hq : q = k
  · rw [if_pos hq] at h1
    cases h1
    have h3 := hf _ h2
    subst hq
    cases hfind : Clients.find m q with
    | none =>
      have : Clients.at_ m q = default := by simp [Clients.at_, hfind]
      rw [this] at h3
      cases h3
    | some v =>
      have : Clients.at_ m q = v := by simp [Clients.at_, hfind]
      rw [this] at h3
      exact ⟨v, hfind, h3⟩
  · rw [if_neg hq] at h1
    exact ⟨c, h1, h2⟩

theorem Clients.not_pending_upsert_clear (m : List (Nat × ClientState)) (k : Nat) :
    ¬ Clients.Pending (Clients.upsert m k (fun c => { c with pending := false })) k := by
  rintro ⟨c, h1, h2⟩
  rw [Clients.find_upsert, if_pos rfl] at h1
  cases h1
  cases h2

theorem Bus.locked_sync_pending_rev (b : Bus) (p q : Nat)
    (h : Clients.Pending (b.locked_sync p).clients_ q) : Clients.Pending b.clients_ q := by
  unfold Bus.locked_sync at h
  split at h
  · exact Clients.pending_of_upsert b.clients_ p
      (fun c => { c with sequence := c.sequence + 1 }) q (fun _ hc => hc) h
  · exact Clients.pending_of_upsert b.clients_ p id q (fun _ hc => hc) h

theorem Bus.advance_pending_rev (b : Bus) (node q : Nat)
    (h : Clients.Pending (b.advance node).clients_ q) : Clients.Pending b.clients_ q :=
  Clients.pending_of_upsert b.clients_ node
    (fun c => { c with sequence := b.sequence_ + 1 }) q (fun _ hc => hc) h

theorem Bus.barrier_loop_pending_rev (node r : Nat) (b : Bus) (q : Nat)
    (h : Clients.Pending (Bus.barrier_loop node r b).1.clients_ q) :
    Clients.Pending b.clients_ q := by
  induction r generalizing b with
  | zero => exact h
  | succ r ih =>
    unfold Bus.barrier_loop at h
    by_cases h1 : (b.advance node).all_clients_synchronized = true
    · rw [if_pos h1] at h
      exact Bus.advance_pending_rev b node q (ih _ h)
    · rw [if_neg h1] at h
      exact Bus.advance_pending_rev b node q h

theorem Bus.foldl_drainStep_pending_rev (ts : List Transaction) (acc : Bus) (q : Nat)
    (h : Clients.Pending (ts.foldl Bus.drainStep acc).clients_ q) :
    Clients.Pending acc.clients_ q ∧ ∀ t ∈ ts, t.node ≠ q := by
  induction ts generalizing acc with
  | nil => exact ⟨h, fun t ht => by cases ht⟩
  | cons t rest ih =>
    simp only [List.foldl_cons] at h
    obtain ⟨h1, h2⟩ := ih _ h
    rw [(Bus.drainStep_frame acc t).2.2.2.2.2] at h1
    refine ⟨Clients.pending_of_upsert _ _ _ _ (fun _ hc => by cases hc) h1, ?_⟩
    intro t1 ht1
    rcases List.mem_cons.mp ht1 with e | hmem
    · intro hq
      rw [e] at hq
      rw [← hq] at h1
      exact Clients.not_pending_upsert_clear _ _ h1
    · exact h2 t1 hmem

/-- When every set pending flag has its transaction in the queue, a transaction leaves no
pending flag set. -/
theorem Bus.transaction_no_pending (b : Bus) (node : Nat)
    (h : ∀ q, Clients.Pending b.clients_ q → ∃ t ∈ b.queue_, t.node = q) (q : Nat) :
    ¬ Clients.Pending (b.transaction node).1.clients_ q := by
  intro hp
  unfold Bus.transaction at hp
  have h1 := Bus.barrier_loop_pending_rev _ _ _ _ hp
  rw [Bus.drain_eq] at h1
  obtain ⟨h2, h3⟩ := Bus.foldl_drainStep_pending_rev _ _ _ h1
  obtain ⟨t, ht, hq⟩ := h q h2
  exact h3 t ht hq

theorem Clients.pending_of_at (m : List (Nat × ClientState)) (q : Nat)
    (h : (Clients.at_ m q).pending = true) : Clients.Pending m q := by
  cases hfind : Clients.find m q with
  | none =>
    have : Clients.at_ m q = default := by simp [Clients.at_, hfind]
    rw [this] at h
    cases h
  | some v =>
    have : Clients.at_ m q = v := by simp [Clients.at_, hfind]
    rw [this] at h
    exact ⟨v, hfind, h⟩

theorem Sys.tidy_init : Sys.init.Tidy := by
  refine ⟨?_, ?_, ?_, ?_⟩
  · intro t ht
    simp [Sys.init, Bus.init] at ht
  · rintro q ⟨c, h1, _⟩
    simp [Sys.init, Bus.init, Clients.find] at h1
  · simp [Sys.init, Bus.init]
  · intro p hp
    exact absurd rfl hp

theorem Sys.tidy_attach (s : Sys) (p : Nat) (h : s.Tidy) (hpc : s.pc p = PC.idle) :
    (s.step (Action.attach p)).Tidy := by
  refine ⟨?_, ?_, h.single, ?_⟩
  · intro t ht
    obtain ⟨h1, h2⟩ := h.queued t ht
    have hne : t.node ≠ p := by
      intro e
      rw [e, hpc] at h1
      cases h1
    exact ⟨h1, Clients.pending_upsert_ne _ _ _ _ hne h2⟩
  · intro q hq
    exact h.flagged q
      (Clients.pending_of_upsert s.bus.clients_ p (fun _ => default) q
        (fun _ hc => by cases hc) hq)
  · intro q hqi
    exact Clients.has_upsert _ _ _ _ (h.inside q hqi)

theorem Sys.tidy_detach (s : Sys) (p : Nat) (h : s.Tidy) (hpc : s.pc p = PC.idle) :
    (s.step (Action.detach p)).Tidy := by
  refine ⟨?_, ?_, h.single, ?_⟩
  · intro t ht
    obtain ⟨h1, h2⟩ := h.queued t ht
    have hne : t.node ≠ p := by
      intro e
      rw [e, hpc] at h1
      cases h1
    exact ⟨h1, Clients.pending_erase_ne _ _ _ hne h2⟩
  · rintro q ⟨c, h1, h2⟩
    have h3 : Clients.find (Clients.erase s.bus.clients_ p) q = some c := h1
    rw [Clients.find_erase] at h3
    by_cases hq : q = p
    · rw [if_pos hq] at h3
      cases h3
    · rw [if_neg hq] at h3
      exact h.flagged q ⟨c, h3, h2⟩
  · intro q hqi
    have hne : q ≠ p := by
      intro e
      rw [e] at hqi
      exact hqi hpc
    exact Clients.has_erase_ne _ _ _ hne (h.inside q hqi)

theorem Sys.tidy_get (s : Sys) (p : Nat) (h : s.Tidy) : (s.step (Action.get p)).Tidy := by
  cases hpc : s.pc p with
  | idle =>
    rw [Sys.step_get_idle s p hpc]
    have hf := Bus.locked_sync_frame s.bus p
    refine ⟨?_, ?_, ?_, ?_⟩
    · intro t ht
      have ht1 : t ∈ s.bus.queue_ := by
        rw [← hf.2.2.2.2]
        exact ht
      exact ⟨(h.queued t ht1).1, Bus.locked_sync_pending _ _ _ (h.queued t ht1).2⟩
    · intro q hq
      obtain ⟨t, ht, e⟩ := h.flagged q (Bus.locked_sync_pending_rev s.bus p q hq)
      refine ⟨t, ?_, e⟩
      show t ∈ (s.bus.locked_sync p).queue_
      rw [hf.2.2.2.2]
      exact ht
    · show ((s.bus.locked_sync p).queue_.map (fun t => t.node)).Nodup
      rw [hf.2.2.2.2]
      exact h.single
    · intro q hqi
      exact Bus.locked_sync_has _ _ _ (h.inside q hqi)
  | pendingWait => rw [Sys.step_get_busy s p (by simp [hpc])]; exact h
  | barrierWait i => rw [Sys.step_get_busy s p (by simp [hpc])]; exact h

/-- The state after a transaction by `p` on a bus whose set pending flags all have their
transaction queued. -/
theorem Sys.tidy_transaction (s : Sys) (p : Nat) (b : Bus) (h : s.Tidy)
    (hflag : ∀ q, Clients.Pending b.clients_ q → ∃ t ∈ b.queue_, t.node = q)
    (hhas : ∀ q, Clients.Has s.bus.clients_ q → Clients.Has b.clients_ q)
    (hp : Clients.Has b.clients_ p ∨ ∃ t ∈ b.queue_, t.node = p) :
    Sys.Tidy ⟨(b.transaction p).1, Sys.goto s.pc p (b.transaction p).2⟩ := by
  have hd := Bus.transaction_drains b p
  refine ⟨?_, ?_, ?_, ?_⟩
  · intro t ht
    have ht1 : t ∈ (b.transaction p).1.queue_ := ht
    rw [hd.1] at ht1
    cases ht1
  · intro q hq
    exact absurd hq (Bus.transaction_no_pending b p hflag q)
  · show ((b.transaction p).1.queue_.map (fun t => t.node)).Nodup
    rw [hd.1]
    exact List.nodup_nil
  · intro q hqi
    by_cases hqp : q = p
    · rw [hqp]
      rcases hp with hp | ⟨t, ht, e⟩
      · exact Bus.transaction_has b p p hp
      · obtain ⟨c, hc, _⟩ := hd.2.2.2 t ht
        rw [e] at hc
        show (Clients.find (b.transaction p).1.clients_ p).isSome = true
        rw [hc]
        rfl
    · have hq1 : s.pc q ≠ PC.idle := by
        intro e
        apply hqi
        show Sys.goto s.pc p _ q = PC.idle
        rw [Sys.goto_ne _ _ _ _ hqp]
        exact e
      exact Bus.transaction_has b p q (hhas q (h.inside q hq1))

theorem Sys.tidy_set (s : Sys) (p : Nat) (e : Event) (h : s.Tidy) :
    (s.step (Action.set p e)).Tidy := by
  cases hpc : s.pc p with
  | idle =>
    rw [Sys.step_set_idle s p e hpc]
    have hfree : ∀ t ∈ s.bus.queue_, t.node ≠ p := by
      intro t ht e1
      have := (h.queued t ht).1
      rw [e1, hpc] at this
      cases this
    cases hpub : s.bus.publisher_ with
    | none =>
      rw [Bus.publish_claim s.bus p e hpub]
      apply Sys.tidy_transaction s p
        ⟨s.bus.sda_, s.bus.scl_, s.bus.sequence_, s.bus.clients_, s.bus.publisher_,
          s.bus.queue_ ++ [Transaction.mk p e]⟩ h ?_ (fun _ hq => hq)
        (Or.inr ⟨Transaction.mk p e, by simp, rfl⟩)
      intro q hq
      obtain ⟨t, ht, e1⟩ := h.flagged q hq
      exact ⟨t, List.mem_append_left _ ht, e1⟩
    | some x =>
      rw [Bus.publish_pending s.bus p x e hpub]
      have hf := Bus.locked_sync_frame ⟨s.bus.sda_, s.bus.scl_, s.bus.sequence_,
        Clients.upsert s.bus.clients_ p (fun c => { c with pending := true }), s.bus.publisher_,
        s.bus.queue_ ++ [Transaction.mk p e]⟩ p
      have hqueue := hf.2.2.2.2
      simp only at hqueue
      refine ⟨?_, ?_, ?_, ?_⟩
      · intro t ht
        have ht1 : t ∈ s.bus.queue_ ++ [Transaction.mk p e] := by
          rw [← hqueue]
          exact ht
        rcases List.mem_append.mp ht1 with h1 | h1
        · obtain ⟨h2, h3⟩ := h.queued t h1
          have hne : t.node ≠ p := hfree t h1
          refine ⟨?_, Bus.locked_sync_pending _ _ _ (Clients.pending_upsert_ne _ _ _ _ hne h3)⟩
          show Sys.goto s.pc p _ t.node = PC.pendingWait
          rw [Sys.goto_ne _ _ _ _ hne]
          exact h2
        · rw [List.mem_singleton.mp h1]
          refine ⟨Sys.goto_self _ _ _, Bus.locked_sync_pending _ _ _ ?_⟩
          exact ⟨{ Clients.at_ s.bus.clients_ p with pending := true },
            by simp [Clients.find_upsert], rfl⟩
      · intro q hq
        have hq1 := Bus.locked_sync_pending_rev _ p q hq
        have hq2 : Clients.Pending
            (Clients.upsert s.bus.clients_ p (fun c => { c with pending := true })) q := hq1
        by_cases hqp : q = p
        · refine ⟨Transaction.mk p e, ?_, hqp.symm⟩
          show Transaction.mk p e ∈ (Bus.locked_sync _ p).queue_
          rw [hqueue]
          simp
        · obtain ⟨c, hc1, hc2⟩ := hq2
          rw [Clients.find_upsert_ne _ _ _ _ hqp] at hc1
          obtain ⟨t, ht, e1⟩ := h.flagged q ⟨c, hc1, hc2⟩
          refine ⟨t, ?_, e1⟩
          show t ∈ (Bus.locked_sync _ p).queue_
          rw [hqueue]
          exact List.mem_append_left _ ht
      · show ((Bus.locked_sync _ p).queue_.map (fun t => t.node)).Nodup
        rw [hqueue, List.map_append, List.nodup_append]
        refine ⟨h.single, by simp, ?_⟩
        intro a ha hb
        obtain ⟨t, ht, e1⟩ := List.mem_map.mp ha
        simp only [List.map_cons, List.map_nil, List.mem_singleton] at hb
        exact hfree t ht (e1.trans hb)
      · intro q hqi
        by_cases hqp : q = p
        · rw [hqp]
          exact Bus.locked_sync_has _ _ _ (Clients.has_upsert_self _ _ _)
        · have hq1 : s.pc q ≠ PC.idle := by
            intro e1
            apply hqi
            show Sys.goto s.pc p _ q = PC.idle
            rw [Sys.goto_ne _ _ _ _ hqp]
            exact e1
          exact Bus.locked_sync_has _ _ _ (Clients.has_upsert _ _ _ _ (h.inside q hq1))
  | pendingWait => rw [Sys.step_set_busy s p e (by simp [hpc])]; exact h
  | barrierWait i => rw [Sys.step_set_busy s p e (by simp [hpc])]; exact h

/-- A step of `p` that changes nothing in the kernel and leaves the thread of `p` blocked
where it was, or returns it when it has nothing queued. -/
theorem Sys.tidy_goto (s : Sys) (p : Nat) (c : PC) (h : s.Tidy)
    (hc : c = s.pc p ∨ (c = PC.idle ∧ ∀ t ∈ s.bus.queue_, t.node ≠ p)) :
    Sys.Tidy ⟨s.bus, Sys.goto s.pc p c⟩ := by
  refine ⟨?_, h.flagged, h.single, ?_⟩
  · intro t ht
    obtain ⟨h1, h2⟩ := h.queued t ht
    refine ⟨?_, h2⟩
    show Sys.goto s.pc p c t.node = PC.pendingWait
    by_cases hne : t.node = p
    · rcases hc with hc | ⟨_, hc⟩
      · rw [hne, Sys.goto_self, hc, ← hne]
        exact h1
      · exact absurd hne (hc t ht)
    · rw [Sys.goto_ne _ _ _ _ hne]
      exact h1
  · intro q hqi
    apply h.inside
    intro e
    apply hqi
    show Sys.goto s.pc p c q = PC.idle
    by_cases hne : q = p
    · rcases hc with hc | ⟨hc, _⟩
      · rw [hne, Sys.goto_self, hc, ← hne]
        exact e
      · rw [hne, Sys.goto_self]
        exact hc
    · rw [Sys.goto_ne _ _ _ _ hne]
      exact e

theorem Sys.tidy_wake_pending (s : Sys) (p : Nat) (h : s.Tidy)
    (hpc : s.pc p = PC.pendingWait) : (s.step (Action.wake p)).Tidy := by
  have hp : Clients.Has s.bus.clients_ p := h.inside p (by simp [hpc])
  rw [Sys.step_wake_pending s p hpc]
  have hf := Bus.locked_sync_frame s.bus p
  cases hpend : (Clients.at_ s.bus.clients_ p).pending with
  | false =>
    rw [Bus.pending_wake_cleared s.bus p hp hpend]
    apply Sys.tidy_goto s p _ h
    right
    refine ⟨rfl, ?_⟩
    intro t ht hne
    have := Clients.pending_at _ _ (h.queued t ht).2
    rw [hne, hpend] at this
    cases this
  | true =>
    cases hpub : s.bus.publisher_ with
    | some x =>
      rw [Bus.pending_wake_wait s.bus p x hp hpend hpub]
      refine ⟨?_, ?_, ?_, ?_⟩
      · intro t ht
        have ht1 : t ∈ s.bus.queue_ := by
          rw [← hf.2.2.2.2]
          exact ht
        obtain ⟨h2, h3⟩ := h.queued t ht1
        refine ⟨?_, Bus.locked_sync_pending _ _ _ h3⟩
        show Sys.goto s.pc p _ t.node = PC.pendingWait
        by_cases hne : t.node = p
        · rw [hne, Sys.goto_self]
        · rw [Sys.goto_ne _ _ _ _ hne]
          exact h2
      · intro q hq
        obtain ⟨t, ht, e⟩ := h.flagged q (Bus.locked_sync_pending_rev s.bus p q hq)
        refine ⟨t, ?_, e⟩
        show t ∈ (s.bus.locked_sync p).queue_
        rw [hf.2.2.2.2]
        exact ht
      · show ((s.bus.locked_sync p).queue_.map (fun t => t.node)).Nodup
        rw [hf.2.2.2.2]
        exact h.single
      · intro q hqi
        by_cases hqp : q = p
        · rw [hqp]
          exact Bus.locked_sync_has _ _ _ hp
        · have hq1 : s.pc q ≠ PC.idle := by
            intro e1
            apply hqi
            show Sys.goto s.pc p _ q = PC.idle
            rw [Sys.goto_ne _ _ _ _ hqp]
            exact e1
          exact Bus.locked_sync_has _ _ _ (h.inside q hq1)
    | none =>
      have hq : s.bus.queue_ ≠ [] := by
        obtain ⟨t, ht, _⟩ := h.flagged p (Clients.pending_of_at _ _ hpend)
        intro e
        rw [e] at ht
        cases ht
      rw [Bus.pending_wake_claim_attached s.bus p hp hpend hpub hq]
      apply Sys.tidy_transaction s p (s.bus.locked_sync p) h ?_
        (fun q hq => Bus.locked_sync_has _ _ _ hq) (Or.inl (Bus.locked_sync_has _ _ _ hp))
      intro q hq1
      obtain ⟨t, ht, e⟩ := h.flagged q (Bus.locked_sync_pending_rev s.bus p q hq1)
      refine ⟨t, ?_, e⟩
      rw [hf.2.2.2.2]
      exact ht

theorem Sys.tidy_wake_barrier (s : Sys) (p i : Nat) (h : s.Tidy)
    (hpc : s.pc p = PC.barrierWait i) : (s.step (Action.wake p)).Tidy := by
  have hp : Clients.Has s.bus.clients_ p := h.inside p (by simp [hpc])
  rw [Sys.step_wake_barrier s p i hpc]
  unfold Bus.barrier_wake
  by_cases hs : s.bus.all_clients_synchronized = true
  · rw [if_pos hs]
    have hf := Bus.barrier_loop_frame p (2 - i) s.bus
    have hne : ∀ t ∈ s.bus.queue_, t.node ≠ p := by
      intro t ht e
      have := (h.queued t ht).1
      rw [e, hpc] at this
      cases this
    refine ⟨?_, ?_, ?_, ?_⟩
    · intro t ht
      have ht1 : t ∈ s.bus.queue_ := by
        rw [← hf.2.2]
        exact ht
      obtain ⟨h2, h3⟩ := h.queued t ht1
      refine ⟨?_, Bus.barrier_loop_pending _ _ _ _ h3⟩
      show Sys.goto s.pc p _ t.node = PC.pendingWait
      rw [Sys.goto_ne _ _ _ _ (hne t ht1)]
      exact h2
    · intro q hq
      obtain ⟨t, ht, e⟩ := h.flagged q (Bus.barrier_loop_pending_rev p (2 - i) s.bus q hq)
      refine ⟨t, ?_, e⟩
      show t ∈ (Bus.barrier_loop p (2 - i) s.bus).1.queue_
      rw [hf.2.2]
      exact ht
    · show ((Bus.barrier_loop p (2 - i) s.bus).1.queue_.map (fun t => t.node)).Nodup
      rw [hf.2.2]
      exact h.single
    · intro q hqi
      by_cases hqp : q = p
      · rw [hqp]
        exact Bus.barrier_loop_has _ _ _ _ hp
      · have hq1 : s.pc q ≠ PC.idle := by
          intro e1
          apply hqi
          show Sys.goto s.pc p _ q = PC.idle
          rw [Sys.goto_ne _ _ _ _ hqp]
          exact e1
        exact Bus.barrier_loop_has _ _ _ _ (h.inside q hq1)
  · rw [if_neg hs]
    exact Sys.tidy_goto s p _ h (Or.inl hpc.symm)

/-- A step that meets the proviso keeps the queue and the pending flags in agreement. -/
theorem Sys.tidy_step (s : Sys) (a : Action) (h : s.Tidy)
    (hw : s.settled a = true) : (s.step a).Tidy := by
  cases a with
  | attach p => exact Sys.tidy_attach s p h (by simpa [Sys.settled] using hw)
  | detach p => exact Sys.tidy_detach s p h (by simpa [Sys.settled] using hw)
  | get p => exact Sys.tidy_get s p h
  | set p e => exact Sys.tidy_set s p e h
  | wake p =>
    cases hpc : s.pc p with
    | idle => rw [Sys.step_wake_idle s p hpc]; exact h
    | pendingWait => exact Sys.tidy_wake_pending s p h hpc
    | barrierWait i => exact Sys.tidy_wake_barrier s p i h hpc

theorem Sys.tidy_runs (s : Sys) (acts : List Action) (h : s.Tidy)
    (hd : s.orderly acts = true) : (s.runs acts).Tidy := by
  induction acts generalizing s with
  | nil => exact h
  | cons a rest ih =>
    simp only [Sys.orderly, Bool.and_eq_true] at hd
    exact ih (s.step a) (Sys.tidy_step s a h hd.1) hd.2

theorem Bus.pending_pred_queue (b : Bus) (node : Nat) :
    (b.pending_pred node).1.queue_ = b.queue_ ∧
    ∀ q, Clients.Pending (b.pending_pred node).1.clients_ q → Clients.Pending b.clients_ q := by
  unfold Bus.pending_pred
  by_cases h : (!(Clients.at_ b.clients_ node).pending) = true
  · rw [if_pos h]
    exact ⟨rfl, fun q hq => Clients.pending_of_upsert b.clients_ node id q (fun _ hc => hc) hq⟩
  · rw [if_neg h]
    refine ⟨(Bus.locked_sync_frame _ node).2.2.2.2, ?_⟩
    intro q hq
    have h1 := Bus.locked_sync_pending_rev _ node q hq
    exact Clients.pending_of_upsert b.clients_ node id q (fun _ hc => hc) h1

/-- C23: in every state a freshly constructed kernel reaches by whole atomic sections
(so with the mutex free), no participant being attached or detached while one of its `set`
calls is in progress, a participant has an entry with `pending` set exactly when the queue
holds a transaction of it, and the queue holds at most one transaction per participant.
So whenever a thread in the pending wait passes the wait predicate still pending, the
queue is not empty, and the return on an empty queue that follows is not taken. -/
theorem C23_pending_iff_queued (acts : List Action) (h : Sys.init.orderly acts = true) :
    (∀ q, Clients.Pending (Sys.init.runs acts).bus.clients_ q ↔
      ∃ t ∈ (Sys.init.runs acts).bus.queue_, t.node = q) ∧
    ((Sys.init.runs acts).bus.queue_.map (fun t => t.node)).Nodup ∧
    (∀ p, ((Sys.init.runs acts).bus.pending_pred p).2 = true →
      (Clients.at_ ((Sys.init.runs acts).bus.pending_pred p).1.clients_ p).pending = true →
      ((Sys.init.runs acts).bus.pending_pred p).1.queue_.isEmpty = false) ∧
    (∀ p, (Sys.init.runs acts).pc p = PC.pendingWait →
      (Clients.at_ (Sys.init.runs acts).bus.clients_ p).pending = true →
      (Sys.init.runs acts).bus.publisher_ = none →
      (Sys.init.runs acts).bus.pending_wake p =
        ((Sys.init.runs acts).bus.locked_sync p).transaction p) := by
  have ht := Sys.tidy_runs Sys.init acts Sys.tidy_init h
  refine ⟨?_, ht.single, ?_, ?_⟩
  · intro q
    constructor
    · exact ht.flagged q
    · rintro ⟨t, h1, rfl⟩
      exact (ht.queued t h1).2
  · intro p _ hpend
    have hq := Bus.pending_pred_queue (Sys.init.runs acts).bus p
    obtain ⟨t, h1, _⟩ := ht.flagged p (hq.2 p (Clients.pending_of_at _ _ hpend))
    rw [hq.1]
    cases hl : (Sys.init.runs acts).bus.queue_ with
    | nil =>
      rw [hl] at h1
      cases h1
    | cons a rest => rfl
  · intro p hpc hpend hpub
    have hp : Clients.Has (Sys.init.runs acts).bus.clients_ p := ht.inside p (by simp [hpc])
    apply Bus.pending_wake_claim_attached _ p hp hpend hpub
    obtain ⟨t, h1, _⟩ := ht.flagged p (Clients.pending_of_at _ _ hpend)
    intro e
    rw [e] at h1
    cases h1

/-- C23 on a run in which 1 publishes and is held in the barrier while 2 and the
unattached 3 call `set`: the queue holds one transaction of each. -/
theorem C23_pending_iff_queued_witness :
    Sys.init.orderly [Action.attach 1, Action.attach 2, Action.set 1 Event.Delay,
      Action.set 2 Event.ClockLow, Action.set 3 Event.DataLow] = true ∧
    (Sys.init.runs [Action.attach 1, Action.attach 2, Action.set 1 Event.Delay,
      Action.set 2 Event.ClockLow, Action.set 3 Event.DataLow]).bus.queue_ =
      [Transaction.mk 2 Event.ClockLow, Transaction.mk 3 Event.DataLow] ∧
    ((Sys.init.runs [Action.attach 1, Action.attach 2, Action.set 1 Event.Delay,
      Action.set 2 Event.ClockLow, Action.set 3 Event.DataLow]).bus.queue_.map
        (fun t => t.node)).Nodup :=
  ⟨by decide, by decide,
    (C23_pending_iff_queued [Action.attach 1, Action.attach 2, Action.set 1 Event.Delay,
      Action.set 2 Event.ClockLow, Action.set 3 Event.DataLow] (by decide)).2.1⟩

/-! ## What a target sets -/

theorem Ran.bind_keeps {α β γ : Type} (g : List Event → γ) (r : Ran α)
    (f : α → Tgt → Ran β) (t0 : Tgt) (h1 : g r.state.emitted = g t0.emitted)
    (h2 : ∀ a t, g (f a t).state.emitted = g t.emitted) :
    g (r.bind f).state.emitted = g t0.emitted := by
  cases r with
  | done a t => exact (h2 a t).trans h1
  | spinning t => exact h1

theorem TargetBase.while_scl_emitted (env : Samples) (level : Level) (fuel : Nat) (t : Tgt) :
    (TargetBase.while_scl env level fuel t).state.emitted = t.emitted := by
  induction fuel generalizing t with
  | zero => rfl
  | succ fuel ih =>
    unfold TargetBase.while_scl
    split
    · exact ih _
    · rfl

theorem TargetBase.read_high_emitted (env : Samples) (level : Level) (fuel : Nat) (t : Tgt) :
    (TargetBase.read_high env level fuel t).state.emitted = t.emitted := by
  induction fuel generalizing t with
  | zero => rfl
  | succ fuel ih =>
    unfold TargetBase.read_high
    simp only
    split
    · split
      · rfl
      · split
        · rfl
        · exact ih _
    · rfl

theorem TargetBase.read_loop_emitted (env : Samples) (fuel n octet : Nat) (t : Tgt) :
    (TargetBase.read_loop env fuel n octet t).state.emitted = t.emitted := by
  induction n generalizing octet t with
  | zero => rfl
  | succ n ih =>
    unfold TargetBase.read_loop
    refine Ran.bind_keeps id _ _ t ?_ ?_
    · exact TargetBase.while_scl_emitted env _ fuel t
    intro _ t1
    refine Ran.bind_keeps id _ _ _ ?_ ?_
    · exact TargetBase.read_high_emitted env _ fuel _
    intro r t3
    cases r with
    | none => exact ih _ _
    | some result => rfl

theorem TargetBase.read_emitted (env : Samples) (fuel : Nat) (t : Tgt) :
    (TargetBase.read env fuel t).state.emitted = t.emitted :=
  TargetBase.read_loop_emitted env fuel 8 0 t

theorem TargetBase.condition_low_emitted (env : Samples) (fuel : Nat) (level : Level)
    (t : Tgt) : (TargetBase.condition_low env fuel level t).state.emitted = t.emitted := by
  induction fuel generalizing level t with
  | zero => rfl
  | succ fuel ih =>
    unfold TargetBase.condition_low
    simp only
    split
    · exact ih _ _
    · rfl

theorem TargetBase.condition_high_emitted (env : Samples) (flags : Nat) (level : Level)
    (fuel : Nat) (t : Tgt) :
    (TargetBase.condition_high env flags level fuel t).state.emitted = t.emitted := by
  induction fuel generalizing t with
  | zero => rfl
  | succ fuel ih =>
    unfold TargetBase.condition_high
    simp only
    split
    · split
      · split
        · rfl
        · exact ih _
      · split
        · split
          · rfl
          · exact ih _
        · exact ih _
    · rfl

/-- The method `wait_for_condition` sets no event, whether it returns or not. -/
theorem TargetBase.wait_for_condition_emitted (env : Samples) (flags fuel rounds : Nat)
    (t : Tgt) :
    (TargetBase.wait_for_condition env flags fuel rounds t).state.emitted = t.emitted := by
  induction rounds generalizing t with
  | zero => rfl
  | succ rounds ih =>
    unfold TargetBase.wait_for_condition
    refine Ran.bind_keeps id _ _ t ?_ ?_
    · exact TargetBase.condition_low_emitted env fuel _ _
    intro level t1
    refine Ran.bind_keeps id _ _ _ ?_ ?_
    · exact TargetBase.condition_high_emitted env flags level fuel _
    intro r t2
    cases r with
    | none => exact ih _
    | some c => rfl

/-- Up to the address octet, `isr` sets no event. -/
theorem Target.isr_address_emitted (env : Samples) (fuel : Nat) (t : Tgt) :
    (Target.isr_address env fuel t).state.emitted = t.emitted := by
  unfold Target.isr_address
  split
  · rfl
  · refine Ran.bind_keeps id _ _ t ?_ ?_
    · exact TargetBase.while_scl_emitted env _ fuel _
    intro _ t1
    refine Ran.bind_keeps id _ _ _ ?_ ?_
    · exact TargetBase.read_emitted env fuel _
    intro r t2
    cases r.1 <;> rfl

/-- C25: a target whose address does not match the address octet it has received sets no
event from the entry of `isr` on: none up to the octet, none in `isr` as a whole, whether
it has returned or is still waiting, and none in the wait for the STOP condition however
long it lasts.  So it drives neither line and does not acknowledge the octet. -/
theorem C25_unaddressed_target_silent (env : Samples) (fuel address octet : Nat)
    (t t1 : Tgt) (h : Target.isr_address env fuel t = Ran.done (some octet) t1)
    (hm : TargetBase.address_match address octet = false) :
    t1.emitted = t.emitted ∧
    (Target.isr env fuel address t).state.emitted = t.emitted ∧
    (∀ rounds, (TargetBase.wait_for_condition env TargetBase.waitStop fuel rounds
      t1).state.emitted = t.emitted) ∧
    sdaLevels (Target.isr env fuel address t).state.emitted = sdaLevels t.emitted := by
  have h1 : t1.emitted = t.emitted := by
    have e := Target.isr_address_emitted env fuel t
    rw [h] at e
    exact e
  have h2 : (Target.isr env fuel address t).state.emitted = t.emitted := by
    unfold Target.isr
    rw [h]
    simp only [Ran.bind, hm, Bool.not_false, if_true]
    refine Ran.bind_keeps id _ _ t ?_ ?_
    · exact (TargetBase.wait_for_condition_emitted env _ fuel fuel t1).trans h1
    · intro _ t2
      rfl
  refine ⟨h1, h2, ?_, ?_⟩
  · intro rounds
    exact (TargetBase.wait_for_condition_emitted env _ fuel rounds t1).trans h1
  · rw [h2]

/-- C25 for the target with address `0x50` when the controller sends the address octet
`0xA6` and then the STOP condition: `isr` returns and has set nothing. -/
theorem C25_unaddressed_target_silent_witness :
    Target.isr
      ⟨fun k => [Level.High, Level.High, Level.Low, Level.Low, Level.High, Level.High,
          Level.Low, Level.Low, Level.Low, Level.Low, Level.High, Level.High, Level.High,
          Level.High, Level.Low, Level.Low, Level.Low, Level.Low, Level.High].getD k
            Level.High,
        fun k => if k % 4 < 2 then Level.High else Level.Low⟩
      5 0x50 ⟨0, 0, []⟩ = Ran.done () ⟨19, 38, []⟩ ∧
    (Target.isr
      ⟨fun k => [Level.High, Level.High, Level.Low, Level.Low, Level.High, Level.High,
          Level.Low, Level.Low, Level.Low, Level.Low, Level.High, Level.High, Level.High,
          Level.High, Level.Low, Level.Low, Level.Low, Level.Low, Level.High].getD k
            Level.High,
        fun k => if k % 4 < 2 then Level.High else Level.Low⟩
      5 0x50 ⟨0, 0, []⟩).state.emitted = [] :=
  ⟨rfl,
    (C25_unaddressed_target_silent
      ⟨fun k => [Level.High, Level.High, Level.Low, Level.Low, Level.High, Level.High,
          Level.Low, Level.Low, Level.Low, Level.Low, Level.High, Level.High, Level.High,
          Level.High, Level.Low, Level.Low, Level.Low, Level.Low, Level.High].getD k
            Level.High,
        fun k => if k % 4 < 2 then Level.High else Level.Low⟩
      5 0x50 0xA6 ⟨0, 0, []⟩ ⟨16, 35, []⟩ rfl (by decide)).2.1⟩

/-! ## Clock stretching by the example target -/

theorem sclLevels_emit_data (xs : List Event) (level : Level) :
    sclLevels (xs ++ [Node.sdaEvent level]) = sclLevels xs := by
  rw [sclLevels_append]
  cases level <;> simp [Node.sdaEvent, sclLevels]

theorem TargetBase.wait_for_clock_pulse_emitted (env : Samples) (fuel : Nat) (t : Tgt) :
    (TargetBase.wait_for_clock_pulse env fuel t).state.emitted = t.emitted := by
  unfold TargetBase.wait_for_clock_pulse
  refine Ran.bind_keeps id _ _ t ?_ ?_
  · exact TargetBase.while_scl_emitted env _ fuel t
  intro _ t1
  exact TargetBase.while_scl_emitted env _ fuel t1

theorem TargetBase.ack_scl (env : Samples) (fuel : Nat) (t : Tgt) :
    sclLevels (TargetBase.ack env fuel t).state.emitted = sclLevels t.emitted := by
  unfold TargetBase.ack
  refine Ran.bind_keeps sclLevels _ _ t ?_ ?_
  · rw [TargetBase.wait_for_clock_pulse_emitted]
    exact sclLevels_emit_data _ _
  intro _ t1
  exact sclLevels_emit_data _ _

theorem TargetBase.write_loop_scl (env : Samples) (fuel n octet : Nat) (t : Tgt) :
    sclLevels (TargetBase.write_loop env fuel n octet t).state.emitted =
      sclLevels t.emitted := by
  induction n generalizing octet t with
  | zero => rfl
  | succ n ih =>
    unfold TargetBase.write_loop
    refine Ran.bind_keeps sclLevels _ _ t ?_ ?_
    · rw [TargetBase.wait_for_clock_pulse_emitted]
      exact sclLevels_emit_data _ _
    intro _ t1
    exact ih _ _

theorem TargetBase.write_scl (env : Samples) (fuel octet : Nat) (t : Tgt) :
    sclLevels (TargetBase.write env fuel octet t).state.emitted = sclLevels t.emitted := by
  unfold TargetBase.write
  refine Ran.bind_keeps sclLevels _ _ t ?_ ?_
  · exact TargetBase.write_loop_scl env fuel 8 octet t
  intro _ t1
  exact sclLevels_emit_data _ _

/-- A target whose `address()` is not `0xA6` sets no SCL event in the loop of
`handle_controller_read`. -/
theorem Target.read_rounds_scl (env : Samples) (fuel address : Nat) (ha : address ≠ 0xA6)
    (rounds data : Nat) (t : Tgt) :
    sclLevels (Target.read_rounds env fuel address rounds data t).state.emitted =
      sclLevels t.emitted := by
  induction rounds generalizing data t with
  | zero => rfl
  | succ rounds ih =>
    unfold Target.read_rounds
    refine Ran.bind_keeps sclLevels _ _ t ?_ ?_
    · exact TargetBase.write_scl env fuel data t
    intro _ t1
    refine Ran.bind_keeps sclLevels _ _ t1 ?_ ?_
    · rw [TargetBase.while_scl_emitted]
    intro _ t2
    simp only [if_neg ha]
    refine Ran.bind_keeps sclLevels _ _ t2 ?_ ?_
    · rw [TargetBase.while_scl_emitted]
    intro _ t6
    split
    · refine Ran.bind_keeps sclLevels _ _ t6 ?_ ?_
      · rw [TargetBase.wait_for_condition_emitted]
      intro _ t7
      rfl
    · exact ih _ _

/-- A target whose `address()` is not `0xA6` sets no SCL event in the loop of
`handle_controller_write`. -/
theorem Target.write_rounds_scl (env : Samples) (fuel address : Nat) (ha : address ≠ 0xA6)
    (rounds : Nat) (t : Tgt) :
    sclLevels (Target.write_rounds env fuel address rounds t).state.emitted =
      sclLevels t.emitted := by
  induction rounds generalizing t with
  | zero => rfl
  | succ rounds ih =>
    unfold Target.write_rounds
    refine Ran.bind_keeps sclLevels _ _ t ?_ ?_
    · rw [TargetBase.read_emitted]
    intro r t1
    cases r.1 with
    | Octet =>
      simp only [if_neg ha]
      refine Ran.bind_keeps sclLevels _ _ t1 ?_ ?_
      · rw [TargetBase.wait_for_clock_pulse_emitted]
        exact sclLevels_emit_data _ _
      intro _ t5
      rw [ih]
      exact sclLevels_emit_data _ _
    | Stop => rfl
    | Start => rfl

/-- A target whose `address()` is not `0xA6` sets no SCL event in `isr`. -/
theorem Target.isr_scl (env : Samples) (fuel address : Nat) (ha : address ≠ 0xA6)
    (t : Tgt) :
    sclLevels (Target.isr env fuel address t).state.emitted = sclLevels t.emitted := by
  unfold Target.isr
  refine Ran.bind_keeps sclLevels _ _ t ?_ ?_
  · rw [Target.isr_address_emitted]
  intro r t1
  cases r with
  | none => rfl
  | some octet =>
    simp only
    split
    · refine Ran.bind_keeps sclLevels _ _ t1 ?_ ?_
      · rw [TargetBase.wait_for_condition_emitted]
      intro _ t2
      rfl
    · refine Ran.bind_keeps sclLevels _ _ t1 ?_ ?_
      · exact TargetBase.ack_scl env fuel t1
      intro _ t2
      split
      · exact Target.read_rounds_scl env fuel address ha _ _ t2
      · exact Target.write_rounds_scl env fuel address ha _ t2

/-- No address octet selects a target whose `address()` is `0xA6`. -/
theorem TargetBase.address_match_stretcher (octet : Nat) (ho : octet < 256) :
    TargetBase.address_match 0xA6 octet = false := by
  have h1 : octet >>> 1 ≠ 0xA6 := by
    rw [Nat.shiftRight_eq_div_pow]
    omega
  simp [TargetBase.address_match, h1]

/-- C21 (the code at the target of the test harness): the target constructed with address
`0x53` is the one the address byte `0xA6` selects, and `address()` returns `0x53`, which
the four tests `address() == 0xA6` never match.  Whatever it samples and however long it
runs, it sets no SCL event in `handle_controller_write`, in `handle_controller_read` or in
`isr` as a whole: it does not stretch the clock.  In the run shown, in which
`handle_controller_write` receives two octets, the target with `address()` `0x53` sets
only the acknowledge on SDA, and the same code with `address()` `0xA6` sets SCL `Low`
before it and releases SCL after it. -/
theorem C21_T53_never_stretches (env : Samples) (fuel : Nat) (t : Tgt) :
    TargetBase.address_match 0x53 0xA6 = true ∧
    sclLevels (Target.handle_controller_write env fuel 0x53 t).state.emitted =
      sclLevels t.emitted ∧
    sclLevels (Target.handle_controller_read env fuel 0x53 t).state.emitted =
      sclLevels t.emitted ∧
    sclLevels (Target.isr env fuel 0x53 t).state.emitted = sclLevels t.emitted ∧
    (Target.handle_controller_write
      ⟨fun _ => Level.Low, fun k => if k % 4 < 2 then Level.High else Level.Low⟩ 2 0x53
      ⟨0, 3, []⟩).state.emitted =
      [Event.DataLow, Event.DataHigh, Event.DataLow, Event.DataHigh] ∧
    (Target.handle_controller_write
      ⟨fun _ => Level.Low, fun k => if k % 4 < 2 then Level.High else Level.Low⟩ 2 0xA6
      ⟨0, 3, []⟩).state.emitted =
      [Event.ClockLow, Event.DataLow, Event.ClockLow, Event.ClockLow, Event.ClockLow,
        Event.ClockHigh, Event.DataHigh, Event.ClockLow, Event.DataLow, Event.ClockLow,
        Event.ClockLow, Event.ClockLow, Event.ClockHigh, Event.DataHigh] := by
  refine ⟨by decide, ?_, ?_, ?_, ?_, ?_⟩
  · exact Target.write_rounds_scl env fuel 0x53 (by decide) fuel t
  · exact Target.read_rounds_scl env fuel 0x53 (by decide) fuel _ t
  · exact Target.isr_scl env fuel 0x53 (by decide) t
  · rfl
  · rfl

/-! ## An octet through the target -/

theorem TargetBase.while_scl_returns (env : Samples) (level : Level) (fuel : Nat) (t : Tgt)
    (h : ∃ j, j < fuel ∧ env.scl (t.sclReads + j) ≠ level) :
    ∃ n, TargetBase.while_scl env level fuel t = Ran.done () { t with sclReads := n } := by
  induction fuel generalizing t with
  | zero =>
    obtain ⟨j, hj, _⟩ := h
    omega
  | succ fuel ih =>
    unfold TargetBase.while_scl
    by_cases hl : env.scl t.sclReads = level
    · rw [if_pos hl]
      obtain ⟨j, hj, hh⟩ := h
      cases j with
      | zero => exact absurd hl hh
      | succ j =>
        obtain ⟨n, hn⟩ := ih { t with sclReads := t.sclReads + 1 }
          ⟨j, by omega, by
            have e : t.sclReads + 1 + j = t.sclReads + (j + 1) := by omega
            show env.scl (t.sclReads + 1 + j) ≠ level
            rw [e]
            exact hh⟩
        exact ⟨n, hn⟩
    · rw [if_neg hl]
      exact ⟨_, rfl⟩

theorem TargetBase.wait_for_clock_pulse_returns (env : Samples) (fuel : Nat) (t : Tgt)
    (h : env.Clocked fuel) :
    ∃ n, TargetBase.wait_for_clock_pulse env fuel t = Ran.done () { t with sclReads := n } := by
  obtain ⟨j, hj, hh⟩ := (h t.sclReads).1
  obtain ⟨n1, e1⟩ := TargetBase.while_scl_returns env Level.Low fuel t
    ⟨j, hj, by rw [hh]; decide⟩
  obtain ⟨k, hk, hl⟩ := (h n1).2
  obtain ⟨n2, e2⟩ := TargetBase.while_scl_returns env Level.High fuel { t with sclReads := n1 }
    ⟨k, hk, by
      show env.scl (n1 + k) ≠ Level.High
      rw [hl]
      decide⟩
  refine ⟨n2, ?_⟩
  unfold TargetBase.wait_for_clock_pulse
  rw [e1]
  exact e2

/-- The loop of `TargetBase::write` sets the levels `write_levels` for SDA, one per clock
pulse, and nothing else. -/
theorem TargetBase.write_loop_sets (env : Samples) (fuel n octet : Nat) (t : Tgt)
    (h : env.Clocked fuel) :
    ∃ k, TargetBase.write_loop env fuel n octet t =
      Ran.done () ⟨t.sdaReads, k,
        t.emitted ++ (TargetBase.write_levels n octet).map Node.sdaEvent⟩ := by
  induction n generalizing octet t with
  | zero => exact ⟨t.sclReads, by simp [TargetBase.write_loop, TargetBase.write_levels]⟩
  | succ n ih =>
    unfold TargetBase.write_loop
    simp only
    obtain ⟨k1, e1⟩ := TargetBase.wait_for_clock_pulse_returns env fuel
      (t.emit (Node.sdaEvent (if octet &&& 0x80 ≠ 0 then Level.High else Level.Low))) h
    rw [e1]
    obtain ⟨k2, e2⟩ := ih ((octet <<< 1) % 256)
      { t.emit (Node.sdaEvent (if octet &&& 0x80 ≠ 0 then Level.High else Level.Low)) with
        sclReads := k1 }
    refine ⟨k2, ?_⟩
    show TargetBase.write_loop env fuel n ((octet <<< 1) % 256) _ = _
    rw [e2]
    simp [Tgt.emit, TargetBase.write_levels]

/-- The method `TargetBase::write` returns when the controller keeps clocking; it has then
set the eight levels of the octet, most significant bit first, and released SDA. -/
theorem TargetBase.write_sets (env : Samples) (fuel octet : Nat) (t : Tgt)
    (h : env.Clocked fuel) :
    ∃ k, TargetBase.write env fuel octet t =
      Ran.done () ⟨t.sdaReads, k,
        t.emitted ++ (TargetBase.write_levels 8 octet).map Node.sdaEvent ++
          [Event.DataHigh]⟩ := by
  obtain ⟨k, e⟩ := TargetBase.write_loop_sets env fuel 8 octet t h
  refine ⟨k, ?_⟩
  unfold TargetBase.write
  rw [e]
  rfl

theorem sdaLevels_map_sdaEvent (levels : List Level) :
    sdaLevels (levels.map Node.sdaEvent) = levels := by
  induction levels with
  | nil => rfl
  | cons l rest ih =>
    cases l <;> simp [Node.sdaEvent, sdaLevels, ih]

theorem TargetBase.while_scl_run (env : Samples) (level : Level) (lo : Nat) :
    ∀ (fuel : Nat) (t : Tgt), (∀ j, j < lo → env.scl (t.sclReads + j) = level) →
      env.scl (t.sclReads + lo) ≠ level → lo < fuel →
      TargetBase.while_scl env level fuel t =
        Ran.done () { t with sclReads := t.sclReads + lo + 1 } := by
  induction lo with
  | zero =>
    intro fuel t _ hne hf
    obtain ⟨f, rfl⟩ : ∃ f, fuel = f + 1 := ⟨fuel - 1, by omega⟩
    unfold TargetBase.while_scl
    rw [if_neg (by simpa using hne)]
  | succ lo ih =>
    intro fuel t hlow hne hf
    obtain ⟨f, rfl⟩ : ∃ f, fuel = f + 1 := ⟨fuel - 1, by omega⟩
    unfold TargetBase.while_scl
    rw [if_pos (by simpa using hlow 0 (by omega))]
    rw [ih f { t with sclReads := t.sclReads + 1 }
      (fun j hj => by
        have e : t.sclReads + 1 + j = t.sclReads + (j + 1) := by omega
        show env.scl (t.sclReads + 1 + j) = level
        rw [e]
        exact hlow (j + 1) (by omega))
      (by
        have e : t.sclReads + 1 + lo = t.sclReads + (lo + 1) := by omega
        show env.scl (t.sclReads + 1 + lo) ≠ level
        rw [e]
        exact hne)
      (by omega)]
    have e : t.sclReads + 1 + lo + 1 = t.sclReads + (lo + 1) + 1 := by omega
    show Ran.done () (⟨t.sdaReads, t.sclReads + 1 + lo + 1, t.emitted⟩ : Tgt) = _
    rw [e]

theorem TargetBase.read_high_run (env : Samples) (level : Level) (hi : Nat) :
    ∀ (fuel : Nat) (t : Tgt), (∀ j, j < hi → env.scl (t.sclReads + j) = Level.High) →
      env.scl (t.sclReads + hi) = Level.Low →
      (∀ j, j < hi → env.sda (t.sdaReads + j) = level) → hi < fuel →
      TargetBase.read_high env level fuel t =
        Ran.done none ⟨t.sdaReads + hi, t.sclReads + hi + 1, t.emitted⟩ := by
  induction hi with
  | zero =>
    intro fuel t _ hlow _ hf
    obtain ⟨f, rfl⟩ : ∃ f, fuel = f + 1 := ⟨fuel - 1, by omega⟩
    unfold TargetBase.read_high
    have hne : ¬ env.scl t.sclReads = Level.High := by
      have := hlow
      rw [Nat.add_zero] at this
      rw [this]
      decide
    simp only [if_neg hne]
    rfl
  | succ hi ih =>
    intro fuel t hhigh hlow hsda hf
    obtain ⟨f, rfl⟩ : ∃ f, fuel = f + 1 := ⟨fuel - 1, by omega⟩
    unfold TargetBase.read_high
    have h0 : env.scl t.sclReads = Level.High := by simpa using hhigh 0 (by omega)
    have hs : env.sda t.sdaReads = level := by simpa using hsda 0 (by omega)
    have hc1 : ¬ (level = Level.Low ∧ env.sda t.sdaReads = Level.High) := by
      rw [hs]
      cases level <;> simp
    have hc2 : ¬ (level = Level.High ∧ env.sda t.sdaReads = Level.Low) := by
      rw [hs]
      cases level <;> simp
    simp only [if_pos h0, if_neg hc1, if_neg hc2]
    rw [ih f ⟨t.sdaReads + 1, t.sclReads + 1, t.emitted⟩
      (fun j hj => by
        have e : t.sclReads + 1 + j = t.sclReads + (j + 1) := by omega
        show env.scl (t.sclReads + 1 + j) = Level.High
        rw [e]
        exact hhigh (j + 1) (by omega))
      (by
        have e : t.sclReads + 1 + hi = t.sclReads + (hi + 1) := by omega
        show env.scl (t.sclReads + 1 + hi) = Level.Low
        rw [e]
        exact hlow)
      (fun j hj => by
        have e : t.sdaReads + 1 + j = t.sdaReads + (j + 1) := by omega
        show env.sda (t.sdaReads + 1 + j) = level
        rw [e]
        exact hsda (j + 1) (by omega))
      (by omega)]
    have e1 : t.sdaReads + 1 + hi = t.sdaReads + (hi + 1) := by omega
    have e2 : t.sclReads + 1 + hi + 1 = t.sclReads + (hi + 1) + 1 := by omega
    show Ran.done none (⟨t.sdaReads + 1 + hi, t.sclReads + 1 + hi + 1, t.emitted⟩ : Tgt) = _
    rw [e1, e2]

/-- The loop of `TargetBase::read` over samples that carry `levels`: it returns the octet
accumulated from them, and has set nothing. -/
theorem TargetBase.read_loop_carries (env : Samples) (fuel : Nat) (levels : List Level) :
    ∀ (octet : Nat) (t : Tgt), env.Carries fuel levels t.sclReads t.sdaReads →
      ∃ t1, TargetBase.read_loop env fuel levels.length octet t =
          Ran.done (TargetBase.Result.Octet,
            levels.foldl
              (fun octet level =>
                let shifted := (octet <<< 1) % 256
                if level = Level.High then shifted ||| 1 else shifted)
              octet) t1 ∧
        t1.emitted = t.emitted := by
  induction levels with
  | nil =>
    intro octet t _
    exact ⟨t, rfl, rfl⟩
  | cons level rest ih =>
    intro octet t hc
    obtain ⟨lo, hi, hlo, hhi, h1, h2, h3, h4, h5⟩ := hc
    have hw := TargetBase.while_scl_run env Level.Low lo fuel t h1
      (by
        have := h2 0 (by omega)
        rw [Nat.add_zero] at this
        rw [this]
        decide)
      hlo
    have hl : env.sda t.sdaReads = level := by
      have := h4 0 (by omega)
      rw [Nat.add_zero] at this
      exact this
    have hr := TargetBase.read_high_run env level hi fuel
      ⟨t.sdaReads + 1, t.sclReads + lo + 1, t.emitted⟩
      (fun j hj => by
        have e : t.sclReads + lo + 1 + j = t.sclReads + lo + (j + 1) := by omega
        show env.scl (t.sclReads + lo + 1 + j) = Level.High
        rw [e]
        exact h2 (j + 1) (by omega))
      (by
        show env.scl (t.sclReads + lo + 1 + hi) = Level.Low
        have e : t.sclReads + lo + 1 + hi = t.sclReads + lo + hi + 1 := by omega
        rw [e]
        exact h3)
      (fun j hj => by
        have e : t.sdaReads + 1 + j = t.sdaReads + (j + 1) := by omega
        show env.sda (t.sdaReads + 1 + j) = level
        rw [e]
        exact h4 (j + 1) (by omega))
      hhi
    obtain ⟨t1, e1, e2⟩ := ih
      (if level = Level.High then (octet <<< 1) % 256 ||| 1 else (octet <<< 1) % 256)
      ⟨t.sdaReads + 1 + hi, t.sclReads + lo + 1 + hi + 1, t.emitted⟩
      (by
        have ea : t.sclReads + lo + 1 + hi + 1 = t.sclReads + lo + hi + 2 := by omega
        have eb : t.sdaReads + 1 + hi = t.sdaReads + hi + 1 := by omega
        show env.Carries fuel rest (t.sclReads + lo + 1 + hi + 1) (t.sdaReads + 1 + hi)
        rw [ea, eb]
        exact h5)
    refine ⟨t1, ?_, e2⟩
    show TargetBase.read_loop env fuel (rest.length + 1) octet t = _
    unfold TargetBase.read_loop
    rw [hw]
    simp only [Ran.bind, hl]
    rw [hr]
    simp only
    rw [e1]
    rfl

theorem ControllerBase.write_levels_length (n octet : Nat) :
    (ControllerBase.write_levels n octet).length = n := by
  induction n generalizing octet with
  | zero => rfl
  | succ n ih => simp [ControllerBase.write_levels, ih]

theorem Samples.carries_crisp (env : Samples) (fuel : Nat) (hf : 0 < fuel)
    (levels : List Level) :
    ∀ (scl sda : Nat),
      (∀ k, env.scl (scl + k) = if k % 2 = 0 then Level.High else Level.Low) →
      (∀ j, j < levels.length → env.sda (sda + j) = levels.getD j Level.High) →
      env.Carries fuel levels scl sda := by
  induction levels with
  | nil =>
    intro _ _ _ _
    exact True.intro
  | cons level rest ih =>
    intro scl sda hscl hsda
    refine ⟨0, 0, hf, hf, fun j hj => by omega, ?_, ?_, ?_, ?_⟩
    · intro j hj
      have hj0 : j = 0 := by omega
      subst hj0
      have := hscl 0
      simpa using this
    · have := hscl 1
      simpa using this
    · intro j hj
      have hj0 : j = 0 := by omega
      subst hj0
      have := hsda 0 (by simp)
      simpa using this
    · apply ih
      · intro k
        have := hscl (k + 2)
        have e : scl + 0 + 0 + 2 + k = scl + (k + 2) := by omega
        rw [e, this]
        have e2 : (k + 2) % 2 = k % 2 := by omega
        rw [e2]
      · intro j hj
        have := hsda (j + 1) (by simp; omega)
        have e : sda + 0 + 1 + j = sda + (j + 1) := by omega
        rw [e, this]
        rfl

/-- A `write` with no flag sets for SDA the eight levels of the octet and then releases
it for the acknowledge bit. -/
theorem ControllerBase.write_plain_levels (env : Samples) (fuel octet : Nat) (c : Ctl)
    (h : env.Released fuel) :
    ∃ r, ControllerBase.write env fuel octet 0 c = some r ∧
      sdaLevels r.2.emitted =
        sdaLevels c.emitted ++ ControllerBase.write_levels 8 octet ++ [Level.High] := by
  obtain ⟨c1, h1, _, _, h4⟩ := ControllerBase.write_bits_spec env fuel 8 octet c h
  obtain ⟨m, hm⟩ := ControllerBase.read_bit_spec env fuel c1 h
  have hf0 : ¬ (0 &&& ControllerBase.flagBit0 ≠ 0) := by decide
  have hf1 : ¬ (0 &&& ControllerBase.flagBit1 ≠ 0) := by decide
  refine ⟨(decide (env.sda c1.sdaReads = Level.High),
    ⟨c1.started_, c1.sdaReads + 1, m,
      c1.emitted ++ [Event.DataHigh, Event.Delay, Event.ClockHigh, Event.Delay,
        Event.ClockLow]⟩), ?_, ?_⟩
  · unfold ControllerBase.write
    rw [if_neg hf0]
    simp only [Option.some_bind]
    rw [h1]
    simp only [Option.some_bind]
    rw [hm]
    simp only [Option.some_bind]
    rw [if_neg hf1]
    rfl
  · show sdaLevels (c1.emitted ++ [Event.DataHigh, Event.Delay, Event.ClockHigh, Event.Delay,
      Event.ClockLow]) = _
    rw [sdaLevels_append, h4]
    rfl

/-- C17: an octet survives the wire in both directions.  Target to controller: when the
controller keeps clocking, `TargetBase::write` returns having set for SDA the eight levels
`write_levels 8 x` (most significant bit first, `High` for a 1 bit) and then released it;
and when the eight SDA samples that `ControllerBase::read` takes are these levels, `read`
returns `x`.  Controller to target: the loop of `ControllerBase::write`, and so a `write`
with no flag, sets the eight levels `ControllerBase.write_levels 8 x` (and then releases
SDA); and when the samples of the target carry these levels, one per clock pulse,
`TargetBase::read` returns the result `Octet` with the octet `x`. -/
theorem C17_octet_round_trip (x : Nat) (hx : x < 256) (env : Samples) (fuel flags : Nat)
    (c : Ctl) (hscl : env.Released fuel)
    (hsda : (List.range 8).map (fun k => env.sda (c.sdaReads + k)) =
      TargetBase.write_levels 8 x)
    (wenv : Samples) (wfuel : Nat) (wt : Tgt) (hclk : wenv.Clocked wfuel)
    (renv : Samples) (rfuel : Nat) (rt : Tgt)
    (hcar : renv.Carries rfuel (ControllerBase.write_levels 8 x) rt.sclReads rt.sdaReads) :
    (∃ wt1, TargetBase.write wenv wfuel x wt = Ran.done () wt1 ∧
      sdaLevels wt1.emitted =
        sdaLevels wt.emitted ++ TargetBase.write_levels 8 x ++ [Level.High]) ∧
    (ControllerBase.read env fuel flags c).map Prod.fst = some x ∧
    (∃ c1, ControllerBase.write_bits env fuel 8 x c = some c1 ∧
      sdaLevels c1.emitted = sdaLevels c.emitted ++ ControllerBase.write_levels 8 x) ∧
    (∃ rt1, TargetBase.read renv rfuel rt = Ran.done (TargetBase.Result.Octet, x) rt1 ∧
      rt1.emitted = rt.emitted) ∧
    TargetBase.accumulate (ControllerBase.write_levels 8 x) = x ∧
    TargetBase.write_levels 8 x = (List.range 8).map
      (fun k => if x / 2 ^ (7 - k) % 2 = 1 then Level.High else Level.Low) ∧
    (∃ r, ControllerBase.write env fuel x 0 c = some r ∧
      sdaLevels r.2.emitted =
        sdaLevels c.emitted ++ ControllerBase.write_levels 8 x ++ [Level.High]) := by
  refine ⟨?_, ?_, ?_, ?_, TargetBase.accumulate_controller_levels x hx,
    TargetBase.write_levels_bits x hx, ControllerBase.write_plain_levels env fuel x c hscl⟩
  · obtain ⟨k, e⟩ := TargetBase.write_sets wenv wfuel x wt hclk
    refine ⟨_, e, ?_⟩
    show sdaLevels (wt.emitted ++ (TargetBase.write_levels 8 x).map Node.sdaEvent ++
      [Event.DataHigh]) = _
    rw [sdaLevels_append, sdaLevels_append, sdaLevels_map_sdaEvent]
    rfl
  · obtain ⟨c1, h1, _⟩ := ControllerBase.read_spec env fuel flags c hscl
    rw [h1, hsda, TargetBase.accumulate_write_levels x hx]
    rfl
  · obtain ⟨c1, h1, _, _, h4⟩ := ControllerBase.write_bits_spec env fuel 8 x c hscl
    exact ⟨c1, h1, h4⟩
  · have hlen := ControllerBase.write_levels_length 8 x
    obtain ⟨rt1, e1, e2⟩ := TargetBase.read_loop_carries renv rfuel
      (ControllerBase.write_levels 8 x) 0 rt hcar
    rw [hlen] at e1
    refine ⟨rt1, ?_, e2⟩
    have hacc := TargetBase.accumulate_controller_levels x hx
    unfold TargetBase.accumulate at hacc
    rw [hacc] at e1
    exact e1

/-- C17 for the octet `0xA5`: the controller reads it from the levels of the target with
SCL never stretched, the target sets these levels on a clock that alternates, and the
target reads it back from the levels of the controller on such a clock. -/
theorem C17_octet_round_trip_witness :
    (ControllerBase.read
      ⟨fun k => (TargetBase.write_levels 8 0xA5).getD k Level.High, fun _ => Level.High⟩
      1 0 ⟨false, 0, 0, []⟩).map Prod.fst = some 0xA5 ∧
    TargetBase.accumulate (ControllerBase.write_levels 8 0xA5) = 0xA5 ∧
    sdaLevels (TargetBase.write
      ⟨fun _ => Level.Low, fun k => if k % 2 = 0 then Level.High else Level.Low⟩ 2 0xA5
      ⟨0, 0, []⟩).state.emitted = TargetBase.write_levels 8 0xA5 ++ [Level.High] ∧
    TargetBase.read
      ⟨fun k => (ControllerBase.write_levels 8 0xA5).getD k Level.High,
        fun k => if k % 2 = 0 then Level.High else Level.Low⟩ 1 ⟨0, 0, []⟩ =
      Ran.done (TargetBase.Result.Octet, 0xA5) ⟨8, 16, []⟩ :=
  have h := C17_octet_round_trip 0xA5 (by decide)
    ⟨fun k => (TargetBase.write_levels 8 0xA5).getD k Level.High, fun _ => Level.High⟩
    1 0 ⟨false, 0, 0, []⟩ (fun _ => ⟨0, by decide, rfl⟩) (by decide)
    ⟨fun _ => Level.Low, fun k => if k % 2 = 0 then Level.High else Level.Low⟩ 2 ⟨0, 0, []⟩
    (fun k => ⟨⟨k % 2, Nat.mod_lt k (by decide), by
        show (if (k + k % 2) % 2 = 0 then Level.High else Level.Low) = Level.High
        rw [if_pos (by omega)]⟩,
      ⟨(k + 1) % 2, Nat.mod_lt (k + 1) (by decide), by
        show (if (k + (k + 1) % 2) % 2 = 0 then Level.High else Level.Low) = Level.Low
        rw [if_neg (by omega)]⟩⟩)
    ⟨fun k => (ControllerBase.write_levels 8 0xA5).getD k Level.High,
      fun k => if k % 2 = 0 then Level.High else Level.Low⟩ 1 ⟨0, 0, []⟩
    (Samples.carries_crisp _ 1 (by decide) _ 0 0 (fun k => by simp) (fun j _ => by simp))
  ⟨h.2.1, h.2.2.2.2.1, rfl, rfl⟩

/-! ## The octets of a controller read -/

theorem Ran.bind_extends {α β : Type} (r : Ran α) (f : α → Tgt → Ran β) (t0 : Tgt)
    (h1 : ∃ e, r.state.emitted = t0.emitted ++ e)
    (h2 : ∀ a t, ∃ e, (f a t).state.emitted = t.emitted ++ e) :
    ∃ e, (r.bind f).state.emitted = t0.emitted ++ e := by
  obtain ⟨e1, he1⟩ := h1
  cases r with
  | done a t =>
    obtain ⟨e2, he2⟩ := h2 a t
    refine ⟨e1 ++ e2, ?_⟩
    show (f a t).state.emitted = _
    rw [he2, ← List.append_assoc]
    congr 1
  | spinning t => exact ⟨e1, he1⟩

theorem TargetBase.write_loop_extends (env : Samples) (fuel n octet : Nat) (t : Tgt) :
    ∃ e, (TargetBase.write_loop env fuel n octet t).state.emitted = t.emitted ++ e := by
  induction n generalizing octet t with
  | zero => exact ⟨[], by simp [TargetBase.write_loop, Ran.state]⟩
  | succ n ih =>
    unfold TargetBase.write_loop
    refine Ran.bind_extends _ _ t ?_ ?_
    · refine ⟨[Node.sdaEvent (if octet &&& 0x80 ≠ 0 then Level.High else Level.Low)], ?_⟩
      rw [TargetBase.wait_for_clock_pulse_emitted]
      rfl
    · intro _ t1
      exact ih _ _

theorem TargetBase.write_extends (env : Samples) (fuel octet : Nat) (t : Tgt) :
    ∃ e, (TargetBase.write env fuel octet t).state.emitted = t.emitted ++ e := by
  unfold TargetBase.write
  refine Ran.bind_extends _ _ t (TargetBase.write_loop_extends env fuel 8 octet t) ?_
  intro _ t1
  exact ⟨_, rfl⟩

/-- What the loop of `handle_controller_read` has set only grows. -/
theorem Target.read_rounds_extends (env : Samples) (fuel address rounds data : Nat)
    (t : Tgt) :
    ∃ e, (Target.read_rounds env fuel address rounds data t).state.emitted =
      t.emitted ++ e := by
  induction rounds generalizing data t with
  | zero => exact ⟨[], by simp [Target.read_rounds, Ran.state]⟩
  | succ rounds ih =>
    unfold Target.read_rounds
    refine Ran.bind_extends _ _ t (TargetBase.write_extends env fuel data t) ?_
    intro _ t1
    refine Ran.bind_extends _ _ t1 ⟨[], by rw [TargetBase.while_scl_emitted]; simp⟩ ?_
    intro _ t2
    simp only
    have h3 : ∃ e3, (if address = 0xA6 then t2.emit (Node.sclEvent Level.Low)
        else t2).emitted = t2.emitted ++ e3 := by
      by_cases ha : address = 0xA6
      · rw [if_pos ha]
        exact ⟨_, rfl⟩
      · rw [if_neg ha]
        exact ⟨[], by simp⟩
    obtain ⟨e3, he3⟩ := h3
    generalize (if address = 0xA6 then t2.emit (Node.sclEvent Level.Low) else t2) = t3
      at he3 ⊢
    have h5 : ∃ e5, (if address = 0xA6 then
        ((((({ t3 with sdaReads := t3.sdaReads + 1 } : Tgt).emit
          (Node.sclEvent Level.Low)).emit (Node.sclEvent Level.Low)).emit
            (Node.sclEvent Level.Low)).emit (Node.sclEvent Level.High))
        else { t3 with sdaReads := t3.sdaReads + 1 }).emitted = t3.emitted ++ e5 := by
      by_cases ha : address = 0xA6
      · rw [if_pos ha]
        exact ⟨_, by simp only [Tgt.emit, List.append_assoc]; rfl⟩
      · rw [if_neg ha]
        exact ⟨[], by simp⟩
    obtain ⟨e5, he5⟩ := h5
    generalize (if address = 0xA6 then
        ((((({ t3 with sdaReads := t3.sdaReads + 1 } : Tgt).emit
          (Node.sclEvent Level.Low)).emit (Node.sclEvent Level.Low)).emit
            (Node.sclEvent Level.Low)).emit (Node.sclEvent Level.High))
        else { t3 with sdaReads := t3.sdaReads + 1 }) = t5 at he5 ⊢
    have h6 : ∃ e, ((TargetBase.while_scl env Level.High fuel t5).bind
        (fun _ t6 =>
          if env.sda t3.sdaReads = Level.High then
            (TargetBase.wait_for_condition env
              (TargetBase.waitStart ||| TargetBase.waitStop) fuel fuel t6).bind
              (fun _ t7 => Ran.done () t7)
          else Target.read_rounds env fuel address rounds ((data + 1) % 256)
            t6)).state.emitted = t5.emitted ++ e := by
      refine Ran.bind_extends _ _ t5 ⟨[], by rw [TargetBase.while_scl_emitted]; simp⟩ ?_
      intro _ t6
      split
      · refine Ran.bind_extends _ _ t6
          ⟨[], by rw [TargetBase.wait_for_condition_emitted]; simp⟩ ?_
        intro _ t7
        exact ⟨[], by simp [Ran.state]⟩
      · exact ih _ _
    obtain ⟨e6, he6⟩ := h6
    exact ⟨e3 ++ e5 ++ e6, by rw [he6, he5, he3]; simp only [List.append_assoc]⟩

theorem sdaLevels_emit_clock (xs : List Event) (level : Level) :
    sdaLevels (xs ++ [Node.sclEvent level]) = sdaLevels xs := by
  rw [sdaLevels_append]
  cases level <;> simp [Node.sclEvent, sdaLevels]

/-- One round of the loop of `handle_controller_read` that the controller acknowledges:
the octet `data` is written, SDA is sampled once, and the loop goes on with `data + 1`. -/
theorem Target.read_rounds_round (env : Samples) (fuel address : Nat) (h : env.Clocked fuel)
    (rounds data : Nat) (t : Tgt) (hack : env.sda t.sdaReads = Level.Low) :
    ∃ t1, Target.read_rounds env fuel address (rounds + 1) data t =
        Target.read_rounds env fuel address rounds ((data + 1) % 256) t1 ∧
      t1.sdaReads = t.sdaReads + 1 ∧
      sdaLevels t1.emitted =
        sdaLevels t.emitted ++ (TargetBase.write_levels 8 data ++ [Level.High]) := by
  obtain ⟨k, ew⟩ := TargetBase.write_sets env fuel data t h
  have hlev : sdaLevels (t.emitted ++ (TargetBase.write_levels 8 data).map Node.sdaEvent ++
      [Event.DataHigh]) =
      sdaLevels t.emitted ++ (TargetBase.write_levels 8 data ++ [Level.High]) := by
    rw [sdaLevels_append, sdaLevels_append, sdaLevels_map_sdaEvent, List.append_assoc]
    rfl
  obtain ⟨j1, hj1, hh1⟩ := (h k).1
  obtain ⟨n1, e1⟩ := TargetBase.while_scl_returns env Level.Low fuel
    ⟨t.sdaReads, k, t.emitted ++ (TargetBase.write_levels 8 data).map Node.sdaEvent ++
      [Event.DataHigh]⟩ ⟨j1, hj1, by
        show env.scl (k + j1) ≠ Level.Low
        rw [hh1]
        decide⟩
  obtain ⟨j2, hj2, hh2⟩ := (h n1).2
  have hnack : ¬ env.sda t.sdaReads = Level.High := by
    rw [hack]
    decide
  by_cases ha : address = 0xA6
  · obtain ⟨n2, e2⟩ := TargetBase.while_scl_returns env Level.High fuel
      ⟨t.sdaReads + 1, n1,
        t.emitted ++ (TargetBase.write_levels 8 data).map Node.sdaEvent ++
          [Event.DataHigh] ++ [Node.sclEvent Level.Low] ++ [Node.sclEvent Level.Low] ++
          [Node.sclEvent Level.Low] ++ [Node.sclEvent Level.Low] ++
          [Node.sclEvent Level.High]⟩ ⟨j2, hj2, by
        show env.scl (n1 + j2) ≠ Level.High
        rw [hh2]
        decide⟩
    refine ⟨⟨t.sdaReads + 1, n2,
      t.emitted ++ (TargetBase.write_levels 8 data).map Node.sdaEvent ++
        [Event.DataHigh] ++ [Node.sclEvent Level.Low] ++ [Node.sclEvent Level.Low] ++
        [Node.sclEvent Level.Low] ++ [Node.sclEvent Level.Low] ++
        [Node.sclEvent Level.High]⟩, ?_, rfl, ?_⟩
    · conv_lhs => unfold Target.read_rounds
      rw [ew]
      simp only [Ran.bind]
      rw [e1]
      simp only [Ran.bind, if_pos ha, Tgt.emit]
      rw [e2]
      simp only [Ran.bind, if_neg hnack]
    · show sdaLevels (_ ++ [Node.sclEvent Level.High]) = _
      rw [sdaLevels_emit_clock, sdaLevels_emit_clock, sdaLevels_emit_clock,
        sdaLevels_emit_clock, sdaLevels_emit_clock]
      exact hlev
  · obtain ⟨n2, e2⟩ := TargetBase.while_scl_returns env Level.High fuel
      ⟨t.sdaReads + 1, n1,
        t.emitted ++ (TargetBase.write_levels 8 data).map Node.sdaEvent ++
          [Event.DataHigh]⟩ ⟨j2, hj2, by
        show env.scl (n1 + j2) ≠ Level.High
        rw [hh2]
        decide⟩
    refine ⟨⟨t.sdaReads + 1, n2,
      t.emitted ++ (TargetBase.write_levels 8 data).map Node.sdaEvent ++
        [Event.DataHigh]⟩, ?_, rfl, ?_⟩
    · conv_lhs => unfold Target.read_rounds
      rw [ew]
      simp only [Ran.bind]
      rw [e1]
      simp only [Ran.bind, if_neg ha]
      rw [e2]
      simp only [Ran.bind, if_neg hnack]
    · exact hlev

/-- After `n` acknowledged rounds the loop of `handle_controller_read` is at the loop
variable `data + n`, has sampled SDA `n` times and has set for SDA the levels of the `n`
octets `data`, `data + 1`, ..., each followed by the release of SDA. -/
theorem Target.read_rounds_octets (env : Samples) (fuel address : Nat) (h : env.Clocked fuel)
    (n : Nat) :
    ∀ (rounds data : Nat) (t : Tgt), data < 256 →
      (∀ i, i < n → env.sda (t.sdaReads + i) = Level.Low) →
      ∃ t1, Target.read_rounds env fuel address (rounds + n) data t =
          Target.read_rounds env fuel address rounds ((data + n) % 256) t1 ∧
        t1.sdaReads = t.sdaReads + n ∧
        sdaLevels t1.emitted = sdaLevels t.emitted ++
          ((List.range n).map
            (fun i => TargetBase.write_levels 8 ((data + i) % 256) ++ [Level.High])).flatten := by
  induction n with
  | zero =>
    intro rounds data t hd _
    refine ⟨t, ?_, rfl, by simp⟩
    have e : (data + 0) % 256 = data := by omega
    rw [e]
    rfl
  | succ n ih =>
    intro rounds data t hd hack
    obtain ⟨t1, e1, s1, l1⟩ := Target.read_rounds_round env fuel address h (rounds + n) data t
      (by simpa using hack 0 (by omega))
    obtain ⟨t2, e2, s2, l2⟩ := ih rounds ((data + 1) % 256) t1 (by omega)
      (fun i hi => by
        have e : t1.sdaReads + i = t.sdaReads + (i + 1) := by omega
        rw [e]
        exact hack (i + 1) (by omega))
    refine ⟨t2, ?_, by omega, ?_⟩
    · have ea : rounds + (n + 1) = rounds + n + 1 := by omega
      have eb : (data + (n + 1)) % 256 = ((data + 1) % 256 + n) % 256 := by omega
      rw [ea, e1, e2, eb]
    · have hf : (fun i => TargetBase.write_levels 8 (((data + 1) % 256 + i) % 256) ++
          [Level.High]) =
          (fun i => TargetBase.write_levels 8 ((data + (i + 1)) % 256) ++ [Level.High]) := by
        funext i
        have e : ((data + 1) % 256 + i) % 256 = (data + (i + 1)) % 256 := by omega
        rw [e]
      have e0 : (data + 0) % 256 = data := by omega
      rw [l2, l1, hf, List.range_succ_eq_map, List.map_cons, List.flatten_cons, List.map_map,
        e0, List.append_assoc]
      rfl

/-- Once the `write` of a round has returned, what the loop of `handle_controller_read`
goes on to set is added to what that `write` has set. -/
theorem Target.read_rounds_after_write (env : Samples) (fuel address rounds data : Nat)
    (t t2 : Tgt) (hw : TargetBase.write env fuel data t = Ran.done () t2) :
    ∃ e, (Target.read_rounds env fuel address (rounds + 1) data t).state.emitted =
      t2.emitted ++ e := by
  unfold Target.read_rounds
  rw [hw]
  refine Ran.bind_extends _ _ t2 ⟨[], by simp [Ran.state]⟩ ?_
  intro _ t1
  refine Ran.bind_extends _ _ t1 ⟨[], by rw [TargetBase.while_scl_emitted]; simp⟩ ?_
  intro _ t2
  simp only
  have h3 : ∃ e3, (if address = 0xA6 then t2.emit (Node.sclEvent Level.Low)
      else t2).emitted = t2.emitted ++ e3 := by
    by_cases ha : address = 0xA6
    · rw [if_pos ha]
      exact ⟨_, rfl⟩
    · rw [if_neg ha]
      exact ⟨[], by simp⟩
  obtain ⟨e3, he3⟩ := h3
  generalize (if address = 0xA6 then t2.emit (Node.sclEvent Level.Low) else t2) = t3
    at he3 ⊢
  have h5 : ∃ e5, (if address = 0xA6 then
      ((((({ t3 with sdaReads := t3.sdaReads + 1 } : Tgt).emit
        (Node.sclEvent Level.Low)).emit (Node.sclEvent Level.Low)).emit
          (Node.sclEvent Level.Low)).emit (Node.sclEvent Level.High))
      else { t3 with sdaReads := t3.sdaReads + 1 }).emitted = t3.emitted ++ e5 := by
    by_cases ha : address = 0xA6
    · rw [if_pos ha]
      exact ⟨_, by simp only [Tgt.emit, List.append_assoc]; rfl⟩
    · rw [if_neg ha]
      exact ⟨[], by simp⟩
  obtain ⟨e5, he5⟩ := h5
  generalize (if address = 0xA6 then
      ((((({ t3 with sdaReads := t3.sdaReads + 1 } : Tgt).emit
        (Node.sclEvent Level.Low)).emit (Node.sclEvent Level.Low)).emit
          (Node.sclEvent Level.Low)).emit (Node.sclEvent Level.High))
      else { t3 with sdaReads := t3.sdaReads + 1 }) = t5 at he5 ⊢
  have h6 : ∃ e, ((TargetBase.while_scl env Level.High fuel t5).bind
      (fun _ t6 =>
        if env.sda t3.sdaReads = Level.High then
          (TargetBase.wait_for_condition env
            (TargetBase.waitStart ||| TargetBase.waitStop) fuel fuel t6).bind
            (fun _ t7 => Ran.done () t7)
        else Target.read_rounds env fuel address rounds ((data + 1) % 256)
          t6)).state.emitted = t5.emitted ++ e := by
    refine Ran.bind_extends _ _ t5 ⟨[], by rw [TargetBase.while_scl_emitted]; simp⟩ ?_
    intro _ t6
    split
    · refine Ran.bind_extends _ _ t6
        ⟨[], by rw [TargetBase.wait_for_condition_emitted]; simp⟩ ?_
      intro _ t7
      exact ⟨[], by simp [Ran.state]⟩
    · exact Target.read_rounds_extends env fuel address rounds _ t6
  obtain ⟨e6, he6⟩ := h6
  exact ⟨e3 ++ e5 ++ e6, by rw [he6, he5, he3]; simp only [List.append_assoc]⟩

theorem Target.tx_data_lt (a n : Nat) : Target.tx_data a n < 256 := by
  rw [Target.tx_data_eq]
  omega

/-- C19: within one controller read, the `n`-th octet (counted from 0) that a target with
address `a` transmits is `(a * 16 + n) mod 256`.  When the controller keeps clocking and
acknowledges the first `n` octets, `handle_controller_read` comes to its round `n` with
the loop variable `tx_data a n`, its call of `TargetBase::write` with that octet returns,
and the SDA levels the target has set by then, and so those it has set in the end, begin
with the levels of the octets `tx_data a 0`, ..., `tx_data a n`, each followed by the
release of SDA.  Address `0x50` yields `0x00, 0x01, 0x02, 0x03`, and addresses `0x51`,
`0x52`, `0x53` yield `0x10`, `0x20`, `0x30` as first octets. -/
theorem C19_transmitted_octets (a n : Nat) (env : Samples) (fuel : Nat) (t : Tgt)
    (hclk : env.Clocked fuel)
    (hack : ∀ i, i < n → env.sda (t.sdaReads + i) = Level.Low) (hn : n < fuel) :
    Target.tx_data a n = (a * 16 + n) % 256 ∧
    (∃ t1 t2,
      Target.handle_controller_read env fuel a t =
        Target.read_rounds env fuel a (fuel - n) (Target.tx_data a n) t1 ∧
      TargetBase.write env fuel (Target.tx_data a n) t1 = Ran.done () t2 ∧
      sdaLevels t2.emitted = sdaLevels t.emitted ++
        ((List.range (n + 1)).map
          (fun i => TargetBase.write_levels 8 (Target.tx_data a i) ++ [Level.High])).flatten) ∧
    (∃ rest, sdaLevels (Target.handle_controller_read env fuel a t).state.emitted =
      sdaLevels t.emitted ++
        ((List.range (n + 1)).map
          (fun i => TargetBase.write_levels 8 (Target.tx_data a i) ++ [Level.High])).flatten ++
        rest) ∧
    (List.range 4).map (Target.tx_data 0x50) = [0x00, 0x01, 0x02, 0x03] ∧
    Target.tx_data 0x51 0 = 0x10 ∧ Target.tx_data 0x52 0 = 0x20 ∧
    Target.tx_data 0x53 0 = 0x30 := by
  have hf : (fun i => TargetBase.write_levels 8 (((a <<< 4) % 256 + i) % 256) ++
      [Level.High]) =
      (fun i => TargetBase.write_levels 8 (Target.tx_data a i) ++ [Level.High]) := by
    funext i
    rw [Target.tx_data_eq, Nat.shiftLeft_eq]
    have e : (a * 2 ^ 4 % 256 + i) % 256 = (a * 16 + i) % 256 := by omega
    rw [e]
  have hdn : ((a <<< 4) % 256 + n) % 256 = Target.tx_data a n := by
    rw [Target.tx_data_eq, Nat.shiftLeft_eq]
    omega
  obtain ⟨t1, e1, _, l1⟩ := Target.read_rounds_octets env fuel a hclk n (fuel - n)
    ((a <<< 4) % 256) t (by omega) hack
  rw [hf] at l1
  rw [hdn] at e1
  have efuel : fuel - n + n = fuel := by omega
  rw [efuel] at e1
  obtain ⟨k, ew⟩ := TargetBase.write_sets env fuel (Target.tx_data a n) t1 hclk
  have l2 : sdaLevels (t1.emitted ++
      (TargetBase.write_levels 8 (Target.tx_data a n)).map Node.sdaEvent ++
      [Event.DataHigh]) = sdaLevels t.emitted ++
        ((List.range (n + 1)).map
          (fun i => TargetBase.write_levels 8 (Target.tx_data a i) ++ [Level.High])).flatten := by
    rw [sdaLevels_append, sdaLevels_append, sdaLevels_map_sdaEvent, l1, List.range_succ,
      List.map_append, List.flatten_append]
    simp [sdaLevels, List.append_assoc]
  refine ⟨Target.tx_data_eq a n, ⟨t1, _, e1, ew, l2⟩, ?_, by decide, by decide, by decide,
    by decide⟩
  obtain ⟨r, er⟩ : ∃ r, fuel - n = r + 1 := ⟨fuel - n - 1, by omega⟩
  obtain ⟨e, he⟩ := Target.read_rounds_after_write env fuel a r (Target.tx_data a n) t1 _ ew
  refine ⟨sdaLevels e, ?_⟩
  have e1a : Target.handle_controller_read env fuel a t =
      Target.read_rounds env fuel a (r + 1) (Target.tx_data a n) t1 := by
    rw [← er]
    exact e1
  rw [e1a, he, sdaLevels_append, l2]

/-- C19 for the target with address `0x50` whose first three octets the controller
acknowledges, on a clock that alternates: the SDA levels it sets begin with those of the
octets `0x00, 0x01, 0x02, 0x03`, each followed by the release of SDA. -/
theorem C19_transmitted_octets_witness :
    Target.tx_data 0x50 3 = (0x50 * 16 + 3) % 256 ∧
    (sdaLevels (Target.handle_controller_read
      ⟨fun _ => Level.Low, fun k => if k % 2 = 0 then Level.High else Level.Low⟩ 4 0x50
      ⟨0, 0, []⟩).state.emitted).take 36 =
      TargetBase.write_levels 8 0x00 ++ [Level.High] ++
        (TargetBase.write_levels 8 0x01 ++ [Level.High]) ++
        (TargetBase.write_levels 8 0x02 ++ [Level.High]) ++
        (TargetBase.write_levels 8 0x03 ++ [Level.High]) := by
  have h := C19_transmitted_octets 0x50 3
    ⟨fun _ => Level.Low, fun k => if k % 2 = 0 then Level.High else Level.Low⟩ 4 ⟨0, 0, []⟩
    (fun k => ⟨⟨k % 2, Nat.lt_of_lt_of_le (Nat.mod_lt k (by decide)) (by decide), by
        show (if (k + k % 2) % 2 = 0 then Level.High else Level.Low) = Level.High
        rw [if_pos (by omega)]⟩,
      ⟨(k + 1) % 2, Nat.lt_of_lt_of_le (Nat.mod_lt (k + 1) (by decide)) (by decide), by
        show (if (k + (k + 1) % 2) % 2 = 0 then Level.High else Level.Low) = Level.Low
        rw [if_neg (by omega)]⟩⟩)
    (fun _ _ => rfl) (by decide)
  obtain ⟨rest, hr⟩ := h.2.2.1
  refine ⟨h.1, ?_⟩
  rw [hr]
  exact List.take_left' rfl

end I2c
